import Mathlib

/-!
# CPU scheduling simulator (`Project.cpp`)

A shallow embedding of the three scheduling engines (`fcfs`, `srt`, `roundRobin`) and of
`calculateMetrics`, followed by the properties of the specification that were checked
against them.

Conventions of the embedding.

* A C++ `int` is a Lean `Int`.  The sums of `fcfs` are reduced to the 32-bit range
  (`wrapInt`), which is what the compiled program computes when a sum overflows.  `srt`
  and `roundRobin` are embedded over the exact integers; the statements about `srt` bound
  the schedule by `INT_MAX`, the constant of its source.
* `vector<Process>` is a `List Process`; a `Process*` into the vector is the position
  (`Nat`) of the element, so pointer equality is equality of positions.
* `std::sort` is library code.  The language standard promises a sorted permutation and
  leaves the order of equivalent elements open, so `fcfs` takes the sorting routine as an
  argument and the general theorems assume exactly that promise (`SortsBy`).  The routine
  the program is built with, `std::sort` of GNU libstdc++, is `stdSort`; where the result
  of a run on a concrete input depends on the routine, the run is evaluated with it.
* `std::priority_queue` likewise leaves open which of several elements with equal keys is
  on top; `srt` takes the choice among them as an argument (`TieBreak`).
* Loops whose termination depends on the data carry a fuel counter and report when it
  runs out.
-/

namespace OsProject

/-! ## Data model -/

/-- Record `struct Process` (lines 12-23). -/
structure Process where
  id : Int
  arrival_time : Int
  burst_time : Int
  remaining_time : Int
  start_time : Int
  finish_time : Int
  waiting_time : Int
  turnaround_time : Int
deriving DecidableEq, Repr, Inhabited

/-- Constructor `Process(int id, int arrival, int burst)` with the default member
initialisers `start_time = -1`, `finish_time = 0`, `waiting_time = 0`,
`turnaround_time = 0` and `remaining_time(burst)`. -/
def mkProcess (id arrival burst : Int) : Process :=
  { id := id, arrival_time := arrival, burst_time := burst, remaining_time := burst,
    start_time := -1, finish_time := 0, waiting_time := 0, turnaround_time := 0 }

/-- Record `struct Scheduler` (lines 25-30). -/
structure Scheduler where
  processes : List Process
  context_switch : Int
  quantum : Int
deriving DecidableEq, Repr

/-- Constant `INT_MAX` of `<climits>` for a 32-bit `int`. -/
def INT_MAX : Int := 2147483647

/-- Constant `INT_MIN` of `<climits>` for a 32-bit `int`. -/
def INT_MIN : Int := -2147483648

/-- The `int` that a 32-bit register holds for the exact sum `x`: the value congruent to
`x` modulo `2^32` in `INT_MIN .. INT_MAX`. -/
def wrapInt (x : Int) : Int := (x + 2147483648) % 4294967296 - 2147483648

/-- Element `processes[i]` of the vector (the default record outside the bounds, which no
caller below relies on). -/
def procAt (processes : List Process) (i : Nat) : Process :=
  (processes[i]?).getD default

/-- A process has not been run yet: all its work is left and `start_time` still has the
value -1 of the constructor. -/
def Process.Fresh (p : Process) : Prop :=
  p.remaining_time = p.burst_time ∧ p.start_time = -1

instance (p : Process) : Decidable p.Fresh := by
  unfold Process.Fresh; exact inferInstance

/-- The same record with the two timestamps an engine writes blanked out. -/
def Process.clearTimes (p : Process) : Process :=
  { p with start_time := -1, finish_time := 0 }

/-! ## Sorting routines -/

/-- A sorting routine in the shape of `std::sort(first, last, comp)`. -/
abbrev Sorter := (Process → Process → Bool) → List Process → List Process

/-- What the standard promises of `std::sort` for the comparator `lt`: the result is a
rearrangement of the input in which no element is `lt` an earlier one. -/
def SortsBy (sort : Sorter) (lt : Process → Process → Bool) : Prop :=
  ∀ l, (sort lt l).Perm l ∧ (sort lt l).Pairwise (fun a b => lt b a = false)

/-- Insertion step that places `x` in front of the first element that is not `lt x`. -/
def insertStable (lt : Process → Process → Bool) (x : Process) : List Process → List Process
  | [] => [x]
  | y :: ys => if lt y x then y :: insertStable lt x ys else x :: y :: ys

/-- A conforming routine that keeps equivalent elements in their input order. -/
def stableSort : Sorter := fun lt l => l.foldr (insertStable lt) []

/-! ## The sorting routine of the C++ library

`std::sort` as GNU libstdc++ implements it (`bits/stl_algo.h` and `bits/stl_heap.h` of
GCC 12): quicksort with a median-of-three pivot on ranges of more than 16 elements, heap
sort once the depth limit is used up, and a final insertion sort.  An iterator into the
vector is the position of the element.  The loops the library leaves unguarded end inside
the vector for every comparator that is a strict weak ordering; here they carry a bound
that is not reached then. -/

/-- Call `std::iter_swap(v + i, v + j)`. -/
def iter_swap (v : List Process) (i j : Nat) : List Process :=
  (v.set i (procAt v j)).set j (procAt v i)

/-- Function `std::__move_median_to_first(result, a, b, c, comp)`. -/
def move_median_to_first (comp : Process → Process → Bool) (v : List Process)
    (result a b c : Nat) : List Process :=
  if comp (procAt v a) (procAt v b) then
    if comp (procAt v b) (procAt v c) then iter_swap v result b
    else if comp (procAt v a) (procAt v c) then iter_swap v result c
    else iter_swap v result a
  else if comp (procAt v a) (procAt v c) then iter_swap v result a
  else if comp (procAt v b) (procAt v c) then iter_swap v result c
  else iter_swap v result b

/-- The loop `while (comp(first, pivot)) ++first;` of `std::__unguarded_partition`. -/
def scanUp (comp : Process → Process → Bool) (v : List Process) (pivot : Nat) :
    Nat → Nat → Nat
  | 0, first => first
  | fuel + 1, first =>
    if comp (procAt v first) (procAt v pivot) then scanUp comp v pivot fuel (first + 1)
    else first

/-- The loop `while (comp(pivot, last)) --last;` of `std::__unguarded_partition`. -/
def scanDown (comp : Process → Process → Bool) (v : List Process) (pivot : Nat) :
    Nat → Nat → Nat
  | 0, last => last
  | fuel + 1, last =>
    if comp (procAt v pivot) (procAt v last) then scanDown comp v pivot fuel (last - 1)
    else last

/-- Function `std::__unguarded_partition(first, last, pivot, comp)`: the cut and the
vector. -/
def unguarded_partition (comp : Process → Process → Bool) (pivot : Nat) :
    Nat → List Process → Nat → Nat → Nat × List Process
  | 0, v, first, _ => (first, v)
  | fuel + 1, v, first, last =>
    let first := scanUp comp v pivot v.length first
    let last := scanDown comp v pivot v.length (last - 1)
    if first < last then
      unguarded_partition comp pivot fuel (iter_swap v first last) (first + 1) last
    else (first, v)

/-- Function `std::__unguarded_partition_pivot(first, last, comp)`. -/
def unguarded_partition_pivot (comp : Process → Process → Bool) (v : List Process)
    (first last : Nat) : Nat × List Process :=
  let mid := first + (last - first) / 2
  unguarded_partition comp first v.length
    (move_median_to_first comp v first (first + 1) mid (last - 1)) (first + 1) last

/-- Function `std::__push_heap(first, holeIndex, topIndex, value, comp)`. -/
def push_heap (comp : Process → Process → Bool) (first topIndex : Nat) (value : Process) :
    Nat → List Process → Nat → List Process
  | 0, v, holeIndex => v.set (first + holeIndex) value
  | fuel + 1, v, holeIndex =>
    let parent := (holeIndex - 1) / 2
    if holeIndex > topIndex ∧ comp (procAt v (first + parent)) value = true then
      push_heap comp first topIndex value fuel
        (v.set (first + holeIndex) (procAt v (first + parent))) parent
    else v.set (first + holeIndex) value

/-- The first loop of `std::__adjust_heap`: the vector, `holeIndex` and `secondChild`. -/
def siftDown (comp : Process → Process → Bool) (first len : Nat) :
    Nat → List Process → Nat → Nat → List Process × Nat × Nat
  | 0, v, holeIndex, secondChild => (v, holeIndex, secondChild)
  | fuel + 1, v, holeIndex, secondChild =>
    if secondChild < (len - 1) / 2 then
      let secondChild := 2 * (secondChild + 1)
      let secondChild :=
        if comp (procAt v (first + secondChild)) (procAt v (first + (secondChild - 1))) then
          secondChild - 1
        else secondChild
      siftDown comp first len fuel (v.set (first + holeIndex) (procAt v (first + secondChild)))
        secondChild secondChild
    else (v, holeIndex, secondChild)

/-- Function `std::__adjust_heap(first, holeIndex, len, value, comp)`.  The library forms
`(len - 2) / 2` in a signed type, so its second test fails for `len < 2`. -/
def adjust_heap (comp : Process → Process → Bool) (v : List Process) (first holeIndex len : Nat)
    (value : Process) : List Process :=
  let topIndex := holeIndex
  let r := siftDown comp first len len v holeIndex holeIndex
  let v := r.1
  let holeIndex := r.2.1
  let secondChild := r.2.2
  if len % 2 = 0 ∧ 2 ≤ len ∧ secondChild = (len - 2) / 2 then
    let secondChild := 2 * (secondChild + 1)
    push_heap comp first topIndex value len
      (v.set (first + holeIndex) (procAt v (first + (secondChild - 1)))) (secondChild - 1)
  else push_heap comp first topIndex value len v holeIndex

/-- Function `std::__pop_heap(first, last, result, comp)`. -/
def pop_heap (comp : Process → Process → Bool) (v : List Process) (first last result : Nat) :
    List Process :=
  adjust_heap comp (v.set result (procAt v first)) first 0 (last - first) (procAt v result)

/-- The loop of `std::__make_heap`, `parent` counting down to 0. -/
def makeHeapLoop (comp : Process → Process → Bool) (first len : Nat) :
    Nat → List Process → List Process
  | 0, v => adjust_heap comp v first 0 len (procAt v first)
  | parent + 1, v =>
    makeHeapLoop comp first len parent
      (adjust_heap comp v first (parent + 1) len (procAt v (first + (parent + 1))))

/-- Function `std::__make_heap(first, last, comp)`. -/
def make_heap (comp : Process → Process → Bool) (v : List Process) (first last : Nat) :
    List Process :=
  if last - first < 2 then v else makeHeapLoop comp first (last - first) ((last - first - 2) / 2) v

/-- Function `std::__heap_select(first, middle, last, comp)`; the loop runs over the
positions `middle + k` still to visit. -/
def heapSelectLoop (comp : Process → Process → Bool) (first middle : Nat) :
    List Nat → List Process → List Process
  | [], v => v
  | i :: rest, v =>
    if comp (procAt v i) (procAt v first) then
      heapSelectLoop comp first middle rest (pop_heap comp v first middle i)
    else heapSelectLoop comp first middle rest v

/-- Function `std::__sort_heap(first, last, comp)`. -/
def sort_heap (comp : Process → Process → Bool) (first : Nat) :
    Nat → List Process → Nat → List Process
  | 0, v, _ => v
  | fuel + 1, v, last =>
    if last - first > 1 then
      sort_heap comp first fuel (pop_heap comp v first (last - 1) (last - 1)) (last - 1)
    else v

/-- Function `std::__partial_sort(first, middle, last, comp)`. -/
def partial_sort (comp : Process → Process → Bool) (v : List Process)
    (first middle last : Nat) : List Process :=
  let v := heapSelectLoop comp first middle ((List.range (last - middle)).map (middle + ·))
    (make_heap comp v first middle)
  sort_heap comp first v.length v middle

/-- Function `std::__introsort_loop(first, last, depth_limit, comp)`. -/
def introsort_loop (comp : Process → Process → Bool) :
    Nat → List Process → Nat → Nat → List Process
  | 0, v, first, last =>
    if last - first > 16 then partial_sort comp v first last last else v
  | depth_limit + 1, v, first, last =>
    if last - first > 16 then
      let r := unguarded_partition_pivot comp v first last
      introsort_loop comp depth_limit (introsort_loop comp depth_limit r.2 r.1 last) first r.1
    else v

/-- Function `std::__unguarded_linear_insert(last, comp)`, `val` being `*last`. -/
def unguarded_linear_insert (comp : Process → Process → Bool) (val : Process) :
    Nat → List Process → Nat → List Process
  | 0, v, last => v.set last val
  | fuel + 1, v, last =>
    if comp val (procAt v (last - 1)) then
      unguarded_linear_insert comp val fuel (v.set last (procAt v (last - 1))) (last - 1)
    else v.set last val

/-- The body of the loop of `std::__insertion_sort` for the position `i`: an element
smaller than `*first` goes to the front and `std::move_backward` shifts the elements of
`[first, i)` one place up; any other element is inserted without a bound check. -/
def insertionStep (comp : Process → Process → Bool) (first : Nat) (v : List Process) (i : Nat) :
    List Process :=
  if comp (procAt v i) (procAt v first) then
    v.take first ++ procAt v i :: (v.drop first).take (i - first) ++ v.drop (i + 1)
  else unguarded_linear_insert comp (procAt v i) v.length v i

/-- Function `std::__insertion_sort(first, last, comp)`. -/
def insertion_sort (comp : Process → Process → Bool) (v : List Process) (first last : Nat) :
    List Process :=
  ((List.range (last - first - 1)).map (first + 1 + ·)).foldl (insertionStep comp first) v

/-- Function `std::__unguarded_insertion_sort(first, last, comp)`. -/
def unguarded_insertion_sort (comp : Process → Process → Bool) (v : List Process)
    (first last : Nat) : List Process :=
  ((List.range (last - first)).map (first + ·)).foldl
    (fun v i => unguarded_linear_insert comp (procAt v i) v.length v i) v

/-- Function `std::__final_insertion_sort(first, last, comp)`. -/
def final_insertion_sort (comp : Process → Process → Bool) (v : List Process)
    (first last : Nat) : List Process :=
  if last - first > 16 then
    unguarded_insertion_sort comp (insertion_sort comp v first (first + 16)) (first + 16) last
  else insertion_sort comp v first last

/-- Value `std::__lg(n)`, the position of the highest set bit of `n`; called as
`lg n n`. -/
def lg : Nat → Nat → Nat
  | 0, _ => 0
  | fuel + 1, n => if 2 ≤ n then lg fuel (n / 2) + 1 else 0

/-- Function `std::sort(first, last, comp)` over the whole vector. -/
def stdSort : Sorter := fun comp v =>
  if v.length = 0 then v
  else
    final_insertion_sort comp (introsort_loop comp (lg v.length v.length * 2) v 0 v.length)
      0 v.length

/-! ## Metrics (lines 56-96) -/

/-- The local accumulators of `calculateMetrics` (lines 57-59). -/
structure MetricsAcc where
  total_waiting_time : Int
  total_turnaround_time : Int
  last_finish_time : Int
  total_idle_time : Int
  total_context_switch_time : Int
  previous_end : Int
deriving DecidableEq, Repr

/-- The loop of lines 67-86; `isFront` is the test `&process == &processes.front()`. -/
def metricsLoop (context_switch : Int) :
    Bool → MetricsAcc → List Process → List Process × MetricsAcc
  | _, acc, [] => ([], acc)
  | isFront, acc, process :: rest =>
    let turnaround := process.finish_time - process.arrival_time
    let waiting := turnaround - process.burst_time
    let acc1 : MetricsAcc :=
      { total_waiting_time := acc.total_waiting_time + waiting
        total_turnaround_time := acc.total_turnaround_time + turnaround
        total_idle_time :=
          if process.start_time > acc.previous_end then
            acc.total_idle_time + (process.start_time - acc.previous_end)
          else acc.total_idle_time
        total_context_switch_time :=
          if isFront then acc.total_context_switch_time
          else acc.total_context_switch_time + context_switch
        previous_end := process.finish_time
        last_finish_time := max acc.last_finish_time process.finish_time }
    let r := metricsLoop context_switch false acc1 rest
    ({ process with turnaround_time := turnaround, waiting_time := waiting } :: r.1, r.2)

/-- What `calculateMetrics` leaves behind: the updated collection and the quantities it
prints. -/
structure Metrics where
  processes : List Process
  total_waiting_time : Int
  total_turnaround_time : Int
  total_idle_time : Int
  total_context_switch_time : Int
  last_finish_time : Int
  total_active_time : Int
deriving DecidableEq, Repr

/-- The ways a run can leave defined behaviour. -/
inductive Fault where
  /-- Call of `processes.front()` on an empty vector. -/
  | frontOfEmpty
  /-- Access `hasStarted[k]` with `k` outside the vector. -/
  | indexOutOfRange
  /-- The loop was still running when the fuel ran out. -/
  | outOfFuel
deriving DecidableEq, Repr

/-- Function `calculateMetrics` (lines 56-96).  The sums that the source keeps in `double`
are integers here. -/
def calculateMetrics (processes : List Process) (scheduler : Scheduler) :
    Except Fault Metrics :=
  let acc0 : MetricsAcc :=
    { total_waiting_time := 0, total_turnaround_time := 0, last_finish_time := 0,
      total_idle_time := 0, total_context_switch_time := 0, previous_end := 0 }
  let r := metricsLoop scheduler.context_switch true acc0 processes
  match r.1.head? with
  | none => Except.error Fault.frontOfEmpty
  | some front =>
    Except.ok
      { processes := r.1
        total_waiting_time := r.2.total_waiting_time
        total_turnaround_time := r.2.total_turnaround_time
        total_idle_time := r.2.total_idle_time
        total_context_switch_time := r.2.total_context_switch_time
        last_finish_time := r.2.last_finish_time
        total_active_time := r.2.last_finish_time - front.arrival_time }

/-- Value `cpu_utilization` of line 89, as an exact rational. -/
def Metrics.cpu_utilization (m : Metrics) : ℚ :=
  100 * ((m.total_active_time : ℚ) - (m.total_context_switch_time : ℚ))
    / (m.total_active_time : ℚ)

/-! ## First-come, first-served (lines 99-115) -/

/-- The comparator of lines 100-102. -/
def arrivalLess (a b : Process) : Bool := decide (a.arrival_time < b.arrival_time)

/-- The loop of lines 104-114 over the sorted vector, `current_time` first. -/
def fcfsLoop (cs : Int) : Int → List Process → List Process
  | _, [] => []
  | current_time, process :: rest =>
    let t := if current_time < process.arrival_time then process.arrival_time else current_time
    let finish := wrapInt (t + process.burst_time)
    let next := if rest.isEmpty then finish else wrapInt (finish + cs)
    { process with start_time := t, finish_time := finish } :: fcfsLoop cs next rest

/-- Function `fcfs` (lines 99-115).  The parameter `scheduler`, which none of the three
engines uses, is left out here and below. -/
def fcfs (sort : Sorter) (processes : List Process) (cs : Int) : List Process :=
  fcfsLoop cs 0 (sort arrivalLess processes)

/-! ## Shortest remaining time (lines 117-168) -/

/-- The comparator `comp` of lines 118-120: `a` ranks below `b` in the queue. -/
def comp (a b : Process) : Bool :=
  decide (a.remaining_time > b.remaining_time)
    || (decide (a.remaining_time = b.remaining_time) && decide (a.arrival_time > b.arrival_time))

/-- The elements of the queue that may be on top: those that rank below no other. -/
def pqCandidates (processes : List Process) (pq : List Nat) : List Nat :=
  pq.filter fun i => pq.all fun j => !comp (procAt processes i) (procAt processes j)

/-- A rule for choosing among queue elements with equal keys picks one of them. -/
def TieBreak (tie : List Nat → Nat) : Prop := ∀ l, l ≠ [] → tie l ∈ l

/-- The rule that takes the element that was pushed first. -/
def firstPushed (l : List Nat) : Nat := l.headD 0

/-- Result of `pq.top()`. -/
def pqTop (tie : List Nat → Nat) (processes : List Process) (pq : List Nat) : Nat :=
  tie (pqCandidates processes pq)

/-- The local state of `srt` (lines 121-123) together with the vector. -/
structure SrtState where
  processes : List Process
  pq : List Nat
  current_time : Int
  index : Nat
  last_process : Option Nat
deriving DecidableEq, Repr

/-- One pass through the body of the admission loop (lines 127-137). -/
def srtAdmitOne (tie : List Nat → Nat) (cs : Int) (s : SrtState) : SrtState :=
  let pq := s.pq ++ [s.index]
  if pq.isEmpty then { s with pq := pq, index := s.index + 1 }
  else
    let current_process := pqTop tie s.processes pq
    if current_process ≠ s.index ∧
        (procAt s.processes s.index).burst_time + cs
          < (procAt s.processes current_process).remaining_time then
      let current_time := s.current_time + cs
      { s with
        processes :=
          s.processes.set s.index
            { procAt s.processes s.index with start_time := current_time }
        pq := pq
        current_time := current_time
        index := s.index + 1 }
    else { s with pq := pq, index := s.index + 1 }

/-- The admission loop of lines 126-138.  It advances `index` on every pass, so it is run
with `processes.size() - index` passes at most. -/
def srtAdmit (tie : List Nat → Nat) (cs : Int) : Nat → SrtState → SrtState
  | 0, s => s
  | n + 1, s =>
    if s.index < s.processes.length ∧
        (procAt s.processes s.index).arrival_time ≤ s.current_time then
      srtAdmit tie cs n (srtAdmitOne tie cs s)
    else s

/-- Value `next_time` of line 152. -/
def srtNextTime (s : SrtState) : Int :=
  if s.index < s.processes.length then (procAt s.processes s.index).arrival_time else INT_MAX

/-- Lines 146-166: take the top of the (non-empty) queue and run it. -/
def srtDispatch (tie : List Nat → Nat) (cs : Int) (s : SrtState) : SrtState :=
  let current_process := pqTop tie s.processes s.pq
  let pq := s.pq.erase current_process
  let p := procAt s.processes current_process
  let p := if p.start_time = -1 then { p with start_time := s.current_time } else p
  let next_time := srtNextTime s
  let execute_time := min p.remaining_time (next_time - s.current_time)
  let p := { p with remaining_time := p.remaining_time - execute_time }
  let current_time := s.current_time + execute_time
  if p.remaining_time = 0 then
    { processes := s.processes.set current_process { p with finish_time := current_time }
      pq := pq
      current_time :=
        if s.last_process.isSome ∧ s.last_process ≠ some current_process
            ∧ current_time ≠ next_time then
          current_time + cs
        else current_time
      index := s.index
      last_process := some current_process }
  else
    { processes := s.processes.set current_process p
      pq := pq ++ [current_process]
      current_time := current_time
      index := s.index
      last_process := some current_process }

/-- The body of the outer loop (lines 126-166). -/
def srtBody (tie : List Nat → Nat) (cs : Int) (s : SrtState) : SrtState :=
  let s := srtAdmit tie cs (s.processes.length - s.index) s
  if s.pq.isEmpty then
    if s.index < s.processes.length then
      { s with current_time := (procAt s.processes s.index).arrival_time }
    else s
  else srtDispatch tie cs s

/-- The condition of the outer loop (line 125). -/
def srtRunning (s : SrtState) : Bool :=
  decide (s.index < s.processes.length) || !s.pq.isEmpty

/-- The outer loop of lines 125-167, `none` when it is still running after `fuel` passes. -/
def srtLoop (tie : List Nat → Nat) (cs : Int) : Nat → SrtState → Option SrtState
  | 0, s => if srtRunning s then none else some s
  | fuel + 1, s => if srtRunning s then srtLoop tie cs fuel (srtBody tie cs s) else some s

/-- The state on entry to the outer loop (lines 121-123). -/
def srtInit (processes : List Process) : SrtState :=
  { processes := processes, pq := [], current_time := 0, index := 0, last_process := none }

/-- Number of passes granted to the outer loop: enough for every run in which each pass
either admits a process, skips an idle gap or executes for at least one time unit. -/
def srtFuel (processes : List Process) : Nat :=
  2 * processes.length + 2 * (processes.map fun p => p.remaining_time.toNat).sum + 1

/-- Function `srt` (lines 117-168): the vector on return, `none` when the loop does not
come to an end. -/
def srt (tie : List Nat → Nat) (processes : List Process) (cs : Int) :
    Option (List Process) :=
  (srtLoop tie cs (srtFuel processes) (srtInit processes)).map fun s => s.processes

/-! ## Round robin (lines 171-226) -/

/-- The local state of `roundRobin` (lines 172-175) together with the vector. -/
structure RRState where
  processes : List Process
  rq : List Nat
  hasStarted : List Bool
  current_time : Int
  last_process : Option Nat
deriving DecidableEq, Repr

/-- Position `id - 1` in `hasStarted`, when it lies inside the vector. -/
def flagIndex (hasStarted : List Bool) (id : Int) : Option Nat :=
  if 0 ≤ id - 1 ∧ id - 1 < hasStarted.length then some (id - 1).toNat else none

/-- The loop of lines 178-186 over the positions still to visit. -/
def rrInitial : List Nat → RRState → Except Fault RRState
  | [], s => Except.ok s
  | i :: rest, s =>
    let process := procAt s.processes i
    if process.arrival_time ≤ s.current_time then
      match flagIndex s.hasStarted process.id with
      | none => Except.error Fault.indexOutOfRange
      | some k =>
        let process :=
          if process.start_time = -1 then { process with start_time := s.current_time }
          else process
        rrInitial rest
          { s with
            processes := s.processes.set i process
            rq := s.rq ++ [i]
            hasStarted := s.hasStarted.set k true }
    else rrInitial rest s

/-- The loop of lines 209-215 over the positions still to visit. -/
def rrArrivals : List Nat → RRState → Except Fault RRState
  | [], s => Except.ok s
  | i :: rest, s =>
    let process := procAt s.processes i
    if process.arrival_time ≤ s.current_time then
      match flagIndex s.hasStarted process.id with
      | none => Except.error Fault.indexOutOfRange
      | some k =>
        if s.hasStarted.getD k false then rrArrivals rest s
        else
          rrArrivals rest
            { s with
              processes := s.processes.set i { process with start_time := s.current_time }
              hasStarted := s.hasStarted.set k true
              rq := s.rq ++ [i] }
    else rrArrivals rest s

/-- The body of the dispatch loop (lines 189-224) for the head `current_process` of the
queue, `rq` being the queue after `rq.pop()`. -/
def rrBody (cs quantum : Int) (s : RRState) (current_process : Nat) (rq : List Nat) :
    Except Fault RRState :=
  let current_time :=
    if s.last_process.isSome ∧ s.last_process ≠ some current_process then s.current_time + cs
    else s.current_time
  let p := procAt s.processes current_process
  match flagIndex s.hasStarted p.id with
  | none => Except.error Fault.indexOutOfRange
  | some k =>
    let started := s.hasStarted.getD k false
    let p := if started then p else { p with start_time := current_time }
    let hasStarted := if started then s.hasStarted else s.hasStarted.set k true
    let execution_time := min p.remaining_time quantum
    let p := { p with remaining_time := p.remaining_time - execution_time }
    let current_time := current_time + execution_time
    if p.remaining_time > 0 then
      match rrArrivals (List.range s.processes.length)
          { processes := s.processes.set current_process p
            rq := rq
            hasStarted := hasStarted
            current_time := current_time
            last_process := s.last_process } with
      | Except.error e => Except.error e
      | Except.ok s1 =>
        Except.ok { s1 with rq := s1.rq ++ [current_process], last_process := some current_process }
    else
      Except.ok
        { processes := s.processes.set current_process { p with finish_time := current_time }
          rq := rq
          hasStarted := hasStarted
          current_time := current_time
          last_process := some current_process }

/-- The dispatch loop of lines 188-225. -/
def rrLoop (cs quantum : Int) : Nat → RRState → Except Fault RRState
  | fuel, s =>
    match s.rq with
    | [] => Except.ok s
    | current_process :: rq =>
      match fuel with
      | 0 => Except.error Fault.outOfFuel
      | fuel + 1 =>
        match rrBody cs quantum s current_process rq with
        | Except.error e => Except.error e
        | Except.ok s1 => rrLoop cs quantum fuel s1

/-- Function `roundRobin` (lines 171-226) with a bound on the passes of the dispatch
loop. -/
def roundRobinWithin (fuel : Nat) (processes : List Process) (cs quantum : Int) :
    Except Fault (List Process) :=
  match rrInitial (List.range processes.length)
      { processes := processes
        rq := []
        hasStarted := List.replicate processes.length false
        current_time := 0
        last_process := none } with
  | Except.error e => Except.error e
  | Except.ok s =>
    match rrLoop cs quantum fuel s with
    | Except.error e => Except.error e
    | Except.ok s1 => Except.ok s1.processes

/-- Number of passes granted to the dispatch loop: one per unit of outstanding work and
one more per process, for the pass in which a process with no work left is taken off the
queue. -/
def rrFuel (processes : List Process) : Nat :=
  (processes.map fun p => p.remaining_time.toNat).sum + processes.length

/-- Function `roundRobin` (lines 171-226). -/
def roundRobin (processes : List Process) (cs quantum : Int) : Except Fault (List Process) :=
  roundRobinWithin (rrFuel processes) processes cs quantum

/-! ## Quantities used in the statements about `fcfs` and `srt` -/

/-- Sum of the `remaining_time` fields. -/
def sumRemaining (processes : List Process) : Int :=
  (processes.map fun p => p.remaining_time).sum

/-- Sum of the `burst_time` fields. -/
def sumBurst (processes : List Process) : Int :=
  (processes.map fun p => p.burst_time).sum

/-- Number of processes with work left. -/
def unfinished (processes : List Process) : Int :=
  (processes.map fun p => if 0 < p.remaining_time then (1 : Int) else 0).sum

/-- The latest `arrival_time`, or 0 if that is later. -/
def maxArrival (processes : List Process) : Int :=
  processes.foldr (fun p m => max p.arrival_time m) 0

/-- A time by which every run of `srt` on fresh input is over: the last arrival, all the
work, and one context switch per process. -/
def srtHorizon (processes : List Process) (cs : Int) : Int :=
  maxArrival processes + sumBurst processes + cs * (processes.length : Int)

/-- The loop of `fcfs` with every sum taken in the integers: the schedule that `fcfsLoop`
computes as long as no sum leaves the range of `int`. -/
def fcfsExact (cs : Int) : Int → List Process → List Process
  | _, [] => []
  | current_time, process :: rest =>
    let t := if current_time < process.arrival_time then process.arrival_time else current_time
    let finish := t + process.burst_time
    let next := if rest.isEmpty then finish else finish + cs
    { process with start_time := t, finish_time := finish } :: fcfsExact cs next rest

/-- A time by which every run of `fcfs` is over: the last arrival, all the work, and a
context switch between any two processes. -/
def fcfsHorizon (processes : List Process) (cs : Int) : Int :=
  maxArrival processes + sumBurst processes + max cs 0 * ((processes.length : Int) - 1)

/-- Seventeen processes `P1 .. P17`, in this order, that all arrive at time 0 with a burst
of 1. -/
def tiedInput : List Process :=
  (List.range 17).map fun i => mkProcess ((i : Int) + 1) 0 1

/-- The states the outer loop of `srt` is in at the top of a pass. -/
inductive SrtReach (tie : List Nat → Nat) (cs : Int) (processes : List Process) :
    SrtState → Prop where
  | init : SrtReach tie cs processes (srtInit processes)
  | step (s : SrtState) : SrtReach tie cs processes s → srtRunning s = true →
      SrtReach tie cs processes (srtBody tie cs s)

/-- What holds of the state of `srt` at the top of every pass of the outer loop, for the
input `ps0`. -/
structure SrtInv (ps0 : List Process) (cs : Int) (s : SrtState) : Prop where
  len : s.processes.length = ps0.length
  idx : s.index ≤ ps0.length
  clock : 0 ≤ s.current_time
  frame : ∀ i, (procAt s.processes i).id = (procAt ps0 i).id
    ∧ (procAt s.processes i).arrival_time = (procAt ps0 i).arrival_time
    ∧ (procAt s.processes i).burst_time = (procAt ps0 i).burst_time
    ∧ (procAt s.processes i).waiting_time = (procAt ps0 i).waiting_time
    ∧ (procAt s.processes i).turnaround_time = (procAt ps0 i).turnaround_time
  untouched : ∀ i, s.index ≤ i → procAt s.processes i = procAt ps0 i
  admitted : ∀ i, i < s.index →
    (procAt s.processes i).arrival_time ≤ s.current_time
      ∧ 0 ≤ (procAt s.processes i).remaining_time
      ∧ (procAt s.processes i).remaining_time ≤ (procAt s.processes i).burst_time
  pq_nodup : s.pq.Nodup
  pq_mem : ∀ i, i ∈ s.pq ↔ i < s.index ∧ 0 < (procAt s.processes i).remaining_time
  started : ∀ i, i < s.index →
    ((procAt s.processes i).start_time = -1
        ∧ (procAt s.processes i).remaining_time = (procAt s.processes i).burst_time)
      ∨ (0 ≤ (procAt s.processes i).start_time
        ∧ (procAt s.processes i).arrival_time ≤ (procAt s.processes i).start_time
        ∧ (procAt s.processes i).start_time
            + ((procAt s.processes i).burst_time - (procAt s.processes i).remaining_time)
          ≤ s.current_time)
  finished : ∀ i, i < s.index → (procAt s.processes i).remaining_time = 0 →
    0 ≤ (procAt s.processes i).start_time
      ∧ (procAt s.processes i).arrival_time ≤ (procAt s.processes i).start_time
      ∧ (procAt s.processes i).start_time + (procAt s.processes i).burst_time
          ≤ (procAt s.processes i).finish_time
  budget : s.current_time + sumRemaining s.processes + cs * unfinished s.processes
      ≤ srtHorizon ps0 cs
  budget_idle : maxArrival ps0 + sumRemaining s.processes + cs * unfinished s.processes
      ≤ srtHorizon ps0 cs
  progress : 0 < s.index →
    (procAt ps0 0).arrival_time + (sumBurst ps0 - sumRemaining s.processes) ≤ s.current_time
  last_finish : 0 < ps0.length → sumRemaining s.processes = 0 →
    ∃ i, i < ps0.length
      ∧ (procAt ps0 0).arrival_time + sumBurst ps0 ≤ (procAt s.processes i).finish_time

/-- The measure that bounds the number of passes still to come. -/
def srtMeasure (s : SrtState) : Int :=
  2 * ((s.processes.length : Int) - (s.index : Int)) + 2 * sumRemaining s.processes
    + (if s.pq = [] ∧ s.index < s.processes.length
          ∧ s.current_time < (procAt s.processes s.index).arrival_time then 1 else 0)

/-- The input of an engine straight from the loader: no process has been run yet and
every burst is positive. -/
def FreshInput (processes : List Process) : Prop :=
  ∀ p ∈ processes, p.Fresh ∧ 0 < p.burst_time

/-! ## Quantities used in the statements about the frame and about `roundRobin` -/

/-- The fields of a process that no engine is meant to write: `id`, `arrival_time`,
`burst_time`, `waiting_time` and `turnaround_time`. -/
def Process.static (p : Process) : Int × Int × Int × Int × Int :=
  (p.id, p.arrival_time, p.burst_time, p.waiting_time, p.turnaround_time)

/-- The vector of a state of `srt` has the length and the static fields of `ps0`. -/
def SrtFrame (ps0 : List Process) (s : SrtState) : Prop :=
  s.processes.length = ps0.length
    ∧ ∀ j, (procAt s.processes j).static = (procAt ps0 j).static

/-- The vector of a state of `roundRobin` has the length and the static fields of `ps0`,
and `hasStarted` has kept its length. -/
def RRFrame (ps0 : List Process) (s : RRState) : Prop :=
  s.processes.length = ps0.length ∧ s.hasStarted.length = ps0.length
    ∧ ∀ j, (procAt s.processes j).static = (procAt ps0 j).static

/-- The state on entry to the loop of lines 178-186 (lines 172-175). -/
def rrInit (processes : List Process) : RRState :=
  { processes := processes
    rq := []
    hasStarted := List.replicate processes.length false
    current_time := 0
    last_process := none }

/-- The clock at which the head `cur` of the queue gets the CPU: the clock of the state,
after the charge of lines 192-194. -/
def rrSwitchTime (cs : Int) (s : RRState) (cur : Nat) : Int :=
  if s.last_process.isSome ∧ s.last_process ≠ some cur then s.current_time + cs
  else s.current_time

/-- The length of the slice of line 203 for the head `cur` of the queue. -/
def rrSliceTime (quantum : Int) (s : RRState) (cur : Nat) : Int :=
  min (procAt s.processes cur).remaining_time quantum

/-- The record of `cur` after lines 197-204, `k` being its position in `hasStarted`. -/
def rrSliceProcess (cs quantum : Int) (s : RRState) (cur k : Nat) : Process :=
  { procAt s.processes cur with
    start_time :=
      if s.hasStarted.getD k false then (procAt s.processes cur).start_time
      else rrSwitchTime cs s cur
    remaining_time := (procAt s.processes cur).remaining_time - rrSliceTime quantum s cur }

/-- The state after lines 189-205: `cur` has been taken from the queue and has run its
slice. -/
def rrSlice (cs quantum : Int) (s : RRState) (cur : Nat) (rq : List Nat) (k : Nat) : RRState :=
  { processes := s.processes.set cur (rrSliceProcess cs quantum s cur k)
    rq := rq
    hasStarted := if s.hasStarted.getD k false then s.hasStarted else s.hasStarted.set k true
    current_time := rrSwitchTime cs s cur + rrSliceTime quantum s cur
    last_process := s.last_process }

/-- The state after a pass in which `cur` completes (lines 219-224). -/
def rrFinish (cs quantum : Int) (s : RRState) (cur : Nat) (rq : List Nat) (k : Nat) : RRState :=
  { processes :=
      s.processes.set cur
        { rrSliceProcess cs quantum s cur k with
          finish_time := rrSwitchTime cs s cur + rrSliceTime quantum s cur }
    rq := rq
    hasStarted := if s.hasStarted.getD k false then s.hasStarted else s.hasStarted.set k true
    current_time := rrSwitchTime cs s cur + rrSliceTime quantum s cur
    last_process := some cur }

/-- The collection `r` has the processes of `processes` at the same positions, each with
its `id`, `arrival_time`, `burst_time`, `waiting_time` and `turnaround_time`. -/
def KeepsStatic (processes r : List Process) : Prop :=
  r.length = processes.length
    ∧ ∀ (i : Nat) (p : Process), processes[i]? = some p →
        ∃ q : Process, r[i]? = some q ∧ q.static = p.static

/-- Every process has all its work left: `remaining_time = burst_time > 0`. -/
def HasWork (processes : List Process) : Prop :=
  ∀ p ∈ processes, p.remaining_time = p.burst_time ∧ 0 < p.burst_time

/-- The work left in the vector: the sum of the positive `remaining_time` fields. -/
def workLeft (processes : List Process) : Int :=
  (processes.map fun p => max p.remaining_time 0).sum

/-- Every `id` is one of `1 .. n`, the positions of `hasStarted` counted from 1. -/
def IdsInRange (processes : List Process) : Prop :=
  ∀ p ∈ processes, 1 ≤ p.id ∧ p.id ≤ (processes.length : Int)

/-- No two processes have the same `id`. -/
def IdsDistinct (processes : List Process) : Prop :=
  ∀ i j, i < processes.length → j < processes.length →
    (procAt processes i).id = (procAt processes j).id → i = j

/-- Value `hasStarted[id - 1]` for the process at position `i` of `ps0`. -/
def rrFlag (ps0 : List Process) (hasStarted : List Bool) (i : Nat) : Bool :=
  hasStarted.getD ((procAt ps0 i).id - 1).toNat false

/-- The positions whose flag in `hasStarted` is not set. -/
def rrPending (ps0 : List Process) (hasStarted : List Bool) : List Nat :=
  (List.range ps0.length).filter fun i => !rrFlag ps0 hasStarted i

/-- The states the dispatch loop of `roundRobin` is in at the top of a pass. -/
inductive RRReach (cs quantum : Int) (processes : List Process) : RRState → Prop where
  | start (s : RRState) :
      rrInitial (List.range processes.length) (rrInit processes) = Except.ok s →
      RRReach cs quantum processes s
  | step (s s1 : RRState) (cur : Nat) (rq : List Nat) :
      RRReach cs quantum processes s → s.rq = cur :: rq →
      rrBody cs quantum s cur rq = Except.ok s1 → RRReach cs quantum processes s1

/-- What holds of the ready queue of `roundRobin` at the top of every pass, for the input
`ps0`: it holds positions of the vector, none twice, each with its flag set. -/
structure RRInv (ps0 : List Process) (s : RRState) : Prop where
  frame : RRFrame ps0 s
  rq_lt : ∀ i ∈ s.rq, i < ps0.length
  rq_nodup : s.rq.Nodup
  rq_flag : ∀ i ∈ s.rq, rrFlag ps0 s.hasStarted i = true

/-- What holds of the work left at the top of every pass of `roundRobin` on input with
`remaining_time = burst_time > 0`:
a process whose flag is not set has not been touched, a queued process has work left, and
no `remaining_time` is negative. -/
structure RRLive (ps0 : List Process) (s : RRState) : Prop where
  unstarted : ∀ i, i < ps0.length → rrFlag ps0 s.hasStarted i = false →
    procAt s.processes i = procAt ps0 i
  rq_rem : ∀ i ∈ s.rq, 0 < (procAt s.processes i).remaining_time
  rem_nonneg : ∀ i, i < ps0.length → 0 ≤ (procAt s.processes i).remaining_time

/-- The state after `k` passes of the dispatch loop (fewer if the queue runs empty). -/
def rrSteps (cs quantum : Int) : Nat → RRState → Except Fault RRState
  | 0, s => Except.ok s
  | k + 1, s =>
    match s.rq with
    | [] => Except.ok s
    | current_process :: rq =>
      match rrBody cs quantum s current_process rq with
      | Except.error e => Except.error e
      | Except.ok s1 => rrSteps cs quantum k s1

/-- The processes dispatched by the loop of lines 188-225, in the order of the passes. -/
def rrTrace (cs quantum : Int) : Nat → RRState → List Nat
  | 0, _ => []
  | fuel + 1, s =>
    match s.rq with
    | [] => []
    | current_process :: rq =>
      match rrBody cs quantum s current_process rq with
      | Except.error _ => [current_process]
      | Except.ok s1 => current_process :: rrTrace cs quantum fuel s1

/-- The slices run by the first passes of the dispatch loop: the position of the process,
the clock at which it gets the CPU and the clock at which its slice ends. -/
def rrSlices (cs quantum : Int) : Nat → RRState → List (Nat × Int × Int)
  | 0, _ => []
  | fuel + 1, s =>
    match s.rq with
    | [] => []
    | current_process :: rq =>
      match rrBody cs quantum s current_process rq with
      | Except.error _ => []
      | Except.ok s1 =>
        (current_process, rrSwitchTime cs s current_process, s1.current_time)
          :: rrSlices cs quantum fuel s1

/-- No two processes arrive at the same time. -/
def ArrivalsDistinct (processes : List Process) : Prop :=
  ∀ i j, i < processes.length → j < processes.length →
    (procAt processes i).arrival_time = (procAt processes j).arrival_time → i = j

/-- The condition of line 131 in the state in which `processes[index]` is admitted: the
top of the queue after the push is another process, and the burst of the newcomer plus
`cs` is below the `remaining_time` of that process. -/
def srtSwitchAtAdmission (tie : List Nat → Nat) (cs : Int) (s : SrtState) : Prop :=
  pqTop tie s.processes (s.pq ++ [s.index]) ≠ s.index
    ∧ (procAt s.processes s.index).burst_time + cs
        < (procAt s.processes (pqTop tie s.processes (s.pq ++ [s.index]))).remaining_time

instance (tie : List Nat → Nat) (cs : Int) (s : SrtState) :
    Decidable (srtSwitchAtAdmission tie cs s) := by
  unfold srtSwitchAtAdmission; exact inferInstance

/-- What holds of every state of `srt` on any input `ps0`: the processes from `index` on
have not been written, and the queue holds positions below `index`. -/
structure SrtWeak (ps0 : List Process) (s : SrtState) : Prop where
  len : s.processes.length = ps0.length
  untouched : ∀ i, s.index ≤ i → procAt s.processes i = procAt ps0 i
  pq_lt : ∀ i ∈ s.pq, i < s.index

/-! # Properties -/

/-! ## Sorting routines meet the contract -/

theorem arrivalLess_eq_false_iff (a b : Process) :
    arrivalLess b a = false ↔ a.arrival_time ≤ b.arrival_time := by
  simp [arrivalLess]

theorem insertStable_perm (lt : Process → Process → Bool) (x : Process) (l : List Process) :
    (insertStable lt x l).Perm (x :: l) := by
  induction l with
  | nil => simp [insertStable]
  | cons y ys ih =>
    simp only [insertStable]
    split
    · exact (List.Perm.cons y ih).trans (List.Perm.swap x y ys)
    · exact List.Perm.refl _

theorem insertStable_sorted (x : Process) (l : List Process)
    (h : l.Pairwise (fun a b => a.arrival_time ≤ b.arrival_time)) :
    (insertStable arrivalLess x l).Pairwise (fun a b => a.arrival_time ≤ b.arrival_time) := by
  induction l with
  | nil => simp [insertStable]
  | cons y ys ih =>
    rw [List.pairwise_cons] at h
    simp only [insertStable]
    split
    · rename_i hlt
      simp only [arrivalLess, decide_eq_true_eq] at hlt
      rw [List.pairwise_cons]
      refine ⟨?_, ih h.2⟩
      intro z hz
      rcases List.mem_cons.1 ((insertStable_perm arrivalLess x ys).mem_iff.1 hz) with hzx | hzy
      · rw [hzx]; omega
      · exact h.1 z hzy
    · rename_i hlt
      simp only [arrivalLess, decide_eq_true_eq] at hlt
      rw [List.pairwise_cons]
      refine ⟨?_, List.pairwise_cons.2 h⟩
      intro z hz
      rcases List.mem_cons.1 hz with hzy | hzy
      · rw [hzy]; omega
      · have := h.1 z hzy; omega

theorem stableSort_sortsBy : SortsBy stableSort arrivalLess := by
  intro l
  induction l with
  | nil => simp [stableSort]
  | cons x xs ih =>
    have e : stableSort arrivalLess (x :: xs)
        = insertStable arrivalLess x (stableSort arrivalLess xs) := rfl
    rw [e]
    refine ⟨(insertStable_perm _ _ _).trans (List.Perm.cons x ih.1), ?_⟩
    have h2 := insertStable_sorted x _
      (ih.2.imp (fun {a b} hab => (arrivalLess_eq_false_iff a b).1 hab))
    exact h2.imp (fun {a b} hab => (arrivalLess_eq_false_iff a b).2 hab)

theorem SortsBy.sorted {sort : Sorter} (h : SortsBy sort arrivalLess) (l : List Process) :
    (sort arrivalLess l).Pairwise (fun a b => a.arrival_time ≤ b.arrival_time) :=
  (h l).2.imp (fun {a b} hab => (arrivalLess_eq_false_iff a b).1 hab)

/-! ## The loop of `fcfs` -/

theorem fcfsLoop_length (cs : Int) (l : List Process) (t : Int) :
    (fcfsLoop cs t l).length = l.length := by
  induction l generalizing t with
  | nil => rfl
  | cons p rest ih => simp [fcfsLoop, ih]

theorem fcfsLoop_clearTimes (cs : Int) (l : List Process) (t : Int) :
    (fcfsLoop cs t l).map Process.clearTimes = l.map Process.clearTimes := by
  induction l generalizing t with
  | nil => rfl
  | cons p rest ih => simp [fcfsLoop, ih, Process.clearTimes]

theorem fcfsLoop_arrival (cs : Int) (l : List Process) (t : Int) :
    (fcfsLoop cs t l).map (fun p => p.arrival_time) = l.map (fun p => p.arrival_time) := by
  induction l generalizing t with
  | nil => rfl
  | cons p rest ih => simp [fcfsLoop, ih]

theorem fcfsLoop_remaining (cs : Int) (l : List Process) (t : Int)
    (h : ∀ p ∈ l, p.remaining_time = p.burst_time) :
    ∀ p ∈ fcfsLoop cs t l, p.remaining_time = p.burst_time := by
  induction l generalizing t with
  | nil => simp [fcfsLoop]
  | cons q rest ih =>
    intro p hp
    simp only [fcfsLoop, List.mem_cons] at hp
    rcases hp with hp | hp
    · rw [hp]; exact h q (List.mem_cons_self _ _)
    · exact ih _ (fun r hr => h r (List.mem_cons_of_mem _ hr)) p hp

/-! ## The schedule of `fcfs` without overflow -/

theorem fcfsExact_finish (cs : Int) (l : List Process) (t : Int) :
    ∀ p ∈ fcfsExact cs t l, p.finish_time = p.start_time + p.burst_time := by
  induction l generalizing t with
  | nil => simp [fcfsExact]
  | cons q rest ih =>
    intro p hp
    simp only [fcfsExact, List.mem_cons] at hp
    rcases hp with hp | hp
    · rw [hp]
    · exact ih _ p hp

theorem fcfsExact_head (cs : Int) (l : List Process) (t : Int) (p : Process)
    (h : (fcfsExact cs t l).head? = some p) : p.start_time = max t p.arrival_time := by
  cases l with
  | nil => simp [fcfsExact] at h
  | cons q rest =>
    simp only [fcfsExact, List.head?_cons, Option.some.injEq] at h
    rw [← h]
    simp only
    split <;> omega

theorem fcfsExact_next (cs : Int) (l : List Process) (t : Int) (i : Nat) (a b : Process)
    (ha : (fcfsExact cs t l)[i]? = some a) (hb : (fcfsExact cs t l)[i + 1]? = some b) :
    b.start_time = max b.arrival_time (a.finish_time + cs) := by
  induction l generalizing t i with
  | nil => simp [fcfsExact] at ha
  | cons q rest ih =>
    cases i with
    | zero =>
      simp only [fcfsExact, List.getElem?_cons_zero, Option.some.injEq] at ha
      simp only [fcfsExact, List.getElem?_cons_succ] at hb
      cases rest with
      | nil => simp [fcfsExact] at hb
      | cons r rest2 =>
        have hh := fcfsExact_head cs (r :: rest2) _ b (by rw [List.head?_eq_getElem?]; exact hb)
        rw [hh, ← ha]
        simp only [List.isEmpty_cons, Bool.false_eq_true, if_false]
        omega
    | succ j =>
      simp only [fcfsExact, List.getElem?_cons_succ] at ha hb
      exact ih _ j ha hb

theorem fcfsExact_last (cs : Int) (l : List Process) (t : Int) (q : Process)
    (hq : l.head? = some q) :
    ∃ p ∈ fcfsExact cs t l,
      max t q.arrival_time + (l.map (fun p => p.burst_time)).sum + cs * ((l.length : Int) - 1)
        ≤ p.finish_time := by
  induction l generalizing t q with
  | nil => simp at hq
  | cons a rest ih =>
    simp only [List.head?_cons, Option.some.injEq] at hq
    subst hq
    cases rest with
    | nil =>
      refine ⟨(fcfsExact cs t [a]).head (by simp [fcfsExact]), List.head_mem _, ?_⟩
      simp only [fcfsExact, List.head_cons, List.map_cons, List.map_nil, List.sum_cons,
        List.sum_nil, List.length_cons, List.length_nil]
      split <;> push_cast <;> omega
    | cons b rest2 =>
      obtain ⟨p, hp, hle⟩ := ih
        ((if t < a.arrival_time then a.arrival_time else t) + a.burst_time + cs) b rfl
      refine ⟨p, ?_, ?_⟩
      · simp only [fcfsExact, List.mem_cons, List.isEmpty_cons, Bool.false_eq_true, if_false]
        right
        simpa [fcfsExact] using hp
      · simp only [List.map_cons, List.sum_cons, List.length_cons] at hle ⊢
        push_cast at hle ⊢
        have e : cs * ((rest2.length : Int) + 1 + 1 - 1) = cs * ((rest2.length : Int) + 1 - 1) + cs := by ring
        rw [e]
        split at hle <;> omega

theorem sum_burst_pos (l : List Process) (hne : l ≠ [])
    (hb : ∀ p ∈ l, 0 < p.burst_time) : 0 < (l.map (fun p => p.burst_time)).sum := by
  induction l with
  | nil => exact absurd rfl hne
  | cons a rest ih =>
    simp only [List.map_cons, List.sum_cons]
    have ha := hb a (List.mem_cons_self _ _)
    cases rest with
    | nil => simpa using ha
    | cons b rest2 =>
      have := ih (by simp) (fun p hp => hb p (List.mem_cons_of_mem _ hp))
      omega

/-! ## The loop of `calculateMetrics` -/

/-- The two assignments of lines 68-69. -/
theorem metricsLoop_processes (cs : Int) (l : List Process) (b : Bool) (acc : MetricsAcc) :
    (metricsLoop cs b acc l).1 = l.map (fun p =>
      { p with
        turnaround_time := p.finish_time - p.arrival_time
        waiting_time := p.finish_time - p.arrival_time - p.burst_time }) := by
  induction l generalizing b acc with
  | nil => rfl
  | cons p rest ih => simp [metricsLoop, ih]

theorem metricsLoop_switches (cs : Int) (l : List Process) (acc : MetricsAcc) :
    (metricsLoop cs false acc l).2.total_context_switch_time
      = acc.total_context_switch_time + cs * (l.length : Int) := by
  induction l generalizing acc with
  | nil => simp [metricsLoop]
  | cons p rest ih =>
    simp only [metricsLoop, ih, List.length_cons]
    push_cast
    ring

theorem metricsLoop_last_ge (cs : Int) (l : List Process) (b : Bool) (acc : MetricsAcc) :
    acc.last_finish_time ≤ (metricsLoop cs b acc l).2.last_finish_time
      ∧ ∀ p ∈ l, p.finish_time ≤ (metricsLoop cs b acc l).2.last_finish_time := by
  induction l generalizing b acc with
  | nil => simp [metricsLoop]
  | cons q rest ih =>
    simp only [metricsLoop, List.mem_cons]
    obtain ⟨h1, h2⟩ := ih false
      { total_waiting_time :=
          acc.total_waiting_time + (q.finish_time - q.arrival_time - q.burst_time)
        total_turnaround_time := acc.total_turnaround_time + (q.finish_time - q.arrival_time)
        total_idle_time :=
          if q.start_time > acc.previous_end then
            acc.total_idle_time + (q.start_time - acc.previous_end)
          else acc.total_idle_time
        total_context_switch_time :=
          if b then acc.total_context_switch_time
          else acc.total_context_switch_time + cs
        previous_end := q.finish_time
        last_finish_time := max acc.last_finish_time q.finish_time }
    simp only at h1
    refine ⟨le_trans (le_max_left _ _) h1, ?_⟩
    intro p hp
    rcases hp with hp | hp
    · rw [hp]; exact le_trans (le_max_right _ _) h1
    · exact h2 p hp

theorem metricsLoop_last_attained (cs : Int) (l : List Process) (b : Bool) (acc : MetricsAcc) :
    (metricsLoop cs b acc l).2.last_finish_time = acc.last_finish_time
      ∨ ∃ p ∈ l, p.finish_time = (metricsLoop cs b acc l).2.last_finish_time := by
  induction l generalizing b acc with
  | nil => simp [metricsLoop]
  | cons q rest ih =>
    simp only [metricsLoop, List.mem_cons]
    rcases ih false
      { total_waiting_time :=
          acc.total_waiting_time + (q.finish_time - q.arrival_time - q.burst_time)
        total_turnaround_time := acc.total_turnaround_time + (q.finish_time - q.arrival_time)
        total_idle_time :=
          if q.start_time > acc.previous_end then
            acc.total_idle_time + (q.start_time - acc.previous_end)
          else acc.total_idle_time
        total_context_switch_time :=
          if b then acc.total_context_switch_time
          else acc.total_context_switch_time + cs
        previous_end := q.finish_time
        last_finish_time := max acc.last_finish_time q.finish_time } with h | ⟨p, hp, h⟩
    · simp only at h
      rcases max_cases acc.last_finish_time q.finish_time with hm | hm
      · left; rw [h, hm.1]
      · right; exact ⟨q, Or.inl rfl, by rw [h, hm.1]⟩
    · right; exact ⟨p, Or.inr hp, h⟩

/-- What `calculateMetrics` returns on a collection with first element `front`. -/
theorem calculateMetrics_cons (front : Process) (rest : List Process) (sch : Scheduler) :
    ∃ m, calculateMetrics (front :: rest) sch = Except.ok m
      ∧ m.processes = (front :: rest).map (fun p =>
          { p with
            turnaround_time := p.finish_time - p.arrival_time
            waiting_time := p.finish_time - p.arrival_time - p.burst_time })
      ∧ m.total_context_switch_time = sch.context_switch * (rest.length : Int)
      ∧ m.total_active_time = m.last_finish_time - front.arrival_time
      ∧ 0 ≤ m.last_finish_time
      ∧ (∀ p ∈ front :: rest, p.finish_time ≤ m.last_finish_time)
      ∧ (m.last_finish_time = 0 ∨ ∃ p ∈ front :: rest, p.finish_time = m.last_finish_time) := by
  have hp := metricsLoop_processes sch.context_switch (front :: rest) true
    { total_waiting_time := 0, total_turnaround_time := 0, last_finish_time := 0,
      total_idle_time := 0, total_context_switch_time := 0, previous_end := 0 }
  have hge := metricsLoop_last_ge sch.context_switch (front :: rest) true
    { total_waiting_time := 0, total_turnaround_time := 0, last_finish_time := 0,
      total_idle_time := 0, total_context_switch_time := 0, previous_end := 0 }
  have hat := metricsLoop_last_attained sch.context_switch (front :: rest) true
    { total_waiting_time := 0, total_turnaround_time := 0, last_finish_time := 0,
      total_idle_time := 0, total_context_switch_time := 0, previous_end := 0 }
  have hsw : (metricsLoop sch.context_switch true
      { total_waiting_time := 0, total_turnaround_time := 0, last_finish_time := 0,
        total_idle_time := 0, total_context_switch_time := 0, previous_end := 0 }
      (front :: rest)).2.total_context_switch_time = sch.context_switch * (rest.length : Int) := by
    simp only [metricsLoop, metricsLoop_switches, if_true]
    simp
  simp only [calculateMetrics, hp, List.map_cons, List.head?_cons]
  refine ⟨_, rfl, rfl, hsw, rfl, hge.1, hge.2, hat⟩

/-! ## Positions in the vector -/

theorem procAt_set_eq (ps : List Process) (i : Nat) (p : Process) (h : i < ps.length) :
    procAt (ps.set i p) i = p := by
  simp [procAt, List.getElem?_set, h]

theorem procAt_set_ne (ps : List Process) (i j : Nat) (p : Process) (h : i ≠ j) :
    procAt (ps.set i p) j = procAt ps j := by
  simp [procAt, List.getElem?_set, h]

theorem procAt_of_getElem? (ps : List Process) (i : Nat) (p : Process)
    (h : ps[i]? = some p) : procAt ps i = p := by
  simp [procAt, h]

theorem procAt_mem (ps : List Process) (i : Nat) (h : i < ps.length) : procAt ps i ∈ ps := by
  have : ps[i]? = some ps[i] := List.getElem?_eq_getElem h
  rw [procAt, this]
  exact List.getElem_mem h

theorem getElem?_eq_procAt (ps : List Process) (i : Nat) (h : i < ps.length) :
    ps[i]? = some (procAt ps i) := by
  simp [procAt, List.getElem?_eq_getElem h]

theorem eq_of_procAt_eq (ps qs : List Process) (hl : ps.length = qs.length)
    (h : ∀ i, procAt ps i = procAt qs i) : ps = qs := by
  apply List.ext_getElem? 
  intro i
  by_cases hi : i < ps.length
  · rw [getElem?_eq_procAt ps i hi, getElem?_eq_procAt qs i (by omega), h i]
  · rw [List.getElem?_eq_none (by omega), List.getElem?_eq_none (by omega)]

theorem map_sum_set (f : Process → Int) (ps : List Process) (i : Nat) (p : Process)
    (h : i < ps.length) :
    ((ps.set i p).map f).sum = (ps.map f).sum - f (procAt ps i) + f p := by
  induction ps generalizing i with
  | nil => simp at h
  | cons a rest ih =>
    cases i with
    | zero => simp [procAt]; ring
    | succ j =>
      have hj : j < rest.length := by simpa using h
      have := ih j hj
      simp only [List.set_cons_succ, List.map_cons, List.sum_cons, this]
      have e : procAt (a :: rest) (j + 1) = procAt rest j := by simp [procAt]
      rw [e]; ring

theorem le_map_sum (f : Process → Int) (ps : List Process) (hf : ∀ p ∈ ps, 0 ≤ f p)
    (i : Nat) (h : i < ps.length) : f (procAt ps i) ≤ (ps.map f).sum := by
  induction ps generalizing i with
  | nil => simp at h
  | cons a rest ih =>
    have hs : 0 ≤ (rest.map f).sum :=
      List.sum_nonneg (by
        intro x hx
        obtain ⟨q, hq, rfl⟩ := List.mem_map.1 hx
        exact hf q (List.mem_cons_of_mem _ hq))
    have ha := hf a (List.mem_cons_self _ _)
    cases i with
    | zero => simp [procAt]; omega
    | succ j =>
      have hj : j < rest.length := by simpa using h
      have := ih (fun p hp => hf p (List.mem_cons_of_mem _ hp)) j hj
      have e : procAt (a :: rest) (j + 1) = procAt rest j := by simp [procAt]
      rw [e]; simp only [List.map_cons, List.sum_cons]; omega

theorem arrival_le_maxArrival (ps : List Process) (i : Nat) (h : i < ps.length) :
    (procAt ps i).arrival_time ≤ maxArrival ps := by
  induction ps generalizing i with
  | nil => simp at h
  | cons a rest ih =>
    cases i with
    | zero =>
      simp only [procAt, maxArrival, List.foldr_cons]
      simp
    | succ j =>
      have hj : j < rest.length := by simpa using h
      have := ih j hj
      have e : procAt (a :: rest) (j + 1) = procAt rest j := by simp [procAt]
      rw [e]
      simp only [maxArrival, List.foldr_cons] at this ⊢
      exact le_trans this (le_max_right _ _)

theorem maxArrival_nonneg (ps : List Process) : 0 ≤ maxArrival ps := by
  cases ps with
  | nil => simp [maxArrival]
  | cons a rest =>
    simp only [maxArrival, List.foldr_cons]
    induction rest generalizing a with
    | nil => simp
    | cons b rest2 ih =>
      exact le_trans (ih b) (le_max_right _ _)

/-! ## The top of the priority queue -/

theorem comp_eq_true_iff (a b : Process) :
    comp a b = true ↔ a.remaining_time > b.remaining_time
      ∨ (a.remaining_time = b.remaining_time ∧ a.arrival_time > b.arrival_time) := by
  simp [comp]

theorem comp_eq_false_iff (a b : Process) :
    comp a b = false ↔ a.remaining_time < b.remaining_time
      ∨ (a.remaining_time = b.remaining_time ∧ a.arrival_time ≤ b.arrival_time) := by
  rw [← Bool.not_eq_true, comp_eq_true_iff]
  omega

theorem exists_top (ps : List Process) (pq : List Nat) (hne : pq ≠ []) :
    ∃ i ∈ pq, ∀ j ∈ pq, comp (procAt ps i) (procAt ps j) = false := by
  induction pq with
  | nil => exact absurd rfl hne
  | cons a rest ih =>
    by_cases hr : rest = []
    · subst hr
      refine ⟨a, by simp, ?_⟩
      intro j hj
      simp only [List.mem_singleton] at hj
      subst hj
      rw [comp_eq_false_iff]; omega
    · obtain ⟨i, hi, hmin⟩ := ih hr
      by_cases hc : comp (procAt ps i) (procAt ps a) = false
      · refine ⟨i, List.mem_cons_of_mem _ hi, ?_⟩
        intro j hj
        rcases List.mem_cons.1 hj with h | h
        · rw [h]; exact hc
        · exact hmin j h
      · refine ⟨a, List.mem_cons_self _ _, ?_⟩
        intro j hj
        rw [Bool.not_eq_false, comp_eq_true_iff] at hc
        rcases List.mem_cons.1 hj with h | h
        · rw [h, comp_eq_false_iff]; omega
        · have := hmin j h
          rw [comp_eq_false_iff] at this ⊢
          omega

theorem pqTop_spec (tie : List Nat → Nat) (htie : TieBreak tie) (ps : List Process)
    (pq : List Nat) (hne : pq ≠ []) :
    pqTop tie ps pq ∈ pq
      ∧ ∀ j ∈ pq, comp (procAt ps (pqTop tie ps pq)) (procAt ps j) = false := by
  have hc : pqCandidates ps pq ≠ [] := by
    obtain ⟨i, hi, hmin⟩ := exists_top ps pq hne
    intro h
    have : i ∈ pqCandidates ps pq := by
      simp only [pqCandidates, List.mem_filter, List.all_eq_true, Bool.not_eq_true']
      exact ⟨hi, hmin⟩
    rw [h] at this
    simp at this
  have hm := htie _ hc
  simp only [pqCandidates, List.mem_filter, List.all_eq_true, Bool.not_eq_true'] at hm
  exact hm

theorem firstPushed_tieBreak : TieBreak firstPushed := by
  intro l hl
  cases l with
  | nil => exact absurd rfl hl
  | cons a rest => simp [firstPushed]

/-! ## The admission loop of `srt` -/

theorem FreshInput.sumRemaining {ps : List Process} (h : FreshInput ps) :
    sumRemaining ps = sumBurst ps := by
  unfold OsProject.sumRemaining sumBurst
  congr 1
  apply List.map_congr_left
  intro p hp
  exact (h p hp).1.1

theorem FreshInput.at {ps : List Process} (h : FreshInput ps) (i : Nat) (hi : i < ps.length) :
    (procAt ps i).remaining_time = (procAt ps i).burst_time
      ∧ (procAt ps i).start_time = -1 ∧ 0 < (procAt ps i).burst_time := by
  have := h _ (procAt_mem ps i hi)
  exact ⟨this.1.1, this.1.2, this.2⟩

/-- On fresh input with `cs >= 0` the branch of lines 131-135 is never taken: a pass of
the admission loop pushes the process and advances `index`, nothing else. -/
theorem srtAdmitOne_eq (tie : List Nat → Nat) (htie : TieBreak tie) (cs : Int) (hcs : 0 ≤ cs)
    (ps0 : List Process) (hfresh : FreshInput ps0) (s : SrtState) (hinv : SrtInv ps0 cs s)
    (hidx : s.index < ps0.length) :
    srtAdmitOne tie cs s = { s with pq := s.pq ++ [s.index], index := s.index + 1 } := by
  have hspec := pqTop_spec tie htie s.processes (s.pq ++ [s.index]) (by simp)
  have hle := hspec.2 s.index (by simp)
  rw [comp_eq_false_iff] at hle
  have hu := hinv.untouched s.index (le_refl _)
  have hf := hfresh.at s.index hidx
  rw [← hu] at hf
  unfold srtAdmitOne
  simp only [List.isEmpty_eq_true, List.append_eq_nil, List.cons_ne_self, and_false, if_false]
  rw [if_neg]
  intro hc
  omega

theorem srtAdmitOne_inv (tie : List Nat → Nat) (htie : TieBreak tie) (cs : Int) (hcs : 0 ≤ cs)
    (ps0 : List Process) (hfresh : FreshInput ps0) (s : SrtState) (hinv : SrtInv ps0 cs s)
    (hidx : s.index < ps0.length)
    (harr : (procAt s.processes s.index).arrival_time ≤ s.current_time) :
    SrtInv ps0 cs (srtAdmitOne tie cs s) := by
  rw [srtAdmitOne_eq tie htie cs hcs ps0 hfresh s hinv hidx]
  have hu := hinv.untouched s.index (le_refl _)
  have hf := hfresh.at s.index hidx
  rw [← hu] at hf
  refine
    { len := hinv.len
      idx := hidx
      clock := hinv.clock
      frame := hinv.frame
      untouched := fun i hi => hinv.untouched i (by simp only at hi; omega)
      admitted := ?_
      pq_nodup := ?_
      pq_mem := ?_
      started := ?_
      finished := ?_
      budget := hinv.budget
      budget_idle := hinv.budget_idle
      progress := ?_
      last_finish := hinv.last_finish }
  · intro i hi
    simp only at hi ⊢
    by_cases h : i = s.index
    · subst h; omega
    · exact hinv.admitted i (by omega)
  · simp only
    rw [List.nodup_append]
    refine ⟨hinv.pq_nodup, by simp, ?_⟩
    intro a ha hb
    simp only [List.mem_singleton] at hb
    have := ((hinv.pq_mem a).1 ha).1
    omega
  · intro i
    simp only [List.mem_append, List.mem_singleton]
    constructor
    · rintro (h | h)
      · have := (hinv.pq_mem i).1 h
        exact ⟨by omega, this.2⟩
      · subst h; exact ⟨by omega, by omega⟩
    · rintro ⟨h1, h2⟩
      by_cases h : i = s.index
      · exact Or.inr h
      · exact Or.inl ((hinv.pq_mem i).2 ⟨by omega, h2⟩)
  · intro i hi
    simp only at hi ⊢
    by_cases h : i = s.index
    · subst h; exact Or.inl ⟨hf.2.1, hf.1⟩
    · exact hinv.started i (by omega)
  · intro i hi hz
    simp only at hi hz ⊢
    by_cases h : i = s.index
    · subst h; omega
    · exact hinv.finished i (by omega) hz
  · intro _
    simp only
    by_cases h0 : 0 < s.index
    · exact hinv.progress h0
    · have hz : s.index = 0 := by omega
      have hall : s.processes = ps0 :=
        eq_of_procAt_eq _ _ hinv.len (fun i => hinv.untouched i (by omega))
      rw [hall, hfresh.sumRemaining]
      rw [hz, hall] at harr
      omega

theorem srtAdmit_inv (tie : List Nat → Nat) (htie : TieBreak tie) (cs : Int) (hcs : 0 ≤ cs)
    (ps0 : List Process) (hfresh : FreshInput ps0) (n : Nat) (s : SrtState)
    (hinv : SrtInv ps0 cs s) : SrtInv ps0 cs (srtAdmit tie cs n s) := by
  induction n generalizing s with
  | zero => exact hinv
  | succ n ih =>
    unfold srtAdmit
    split
    · rename_i hc
      exact ih _ (srtAdmitOne_inv tie htie cs hcs ps0 hfresh s hinv
        (by rw [← hinv.len]; exact hc.1) hc.2)
    · exact hinv

/-- What the admission loop leaves alone, and that it ends with nothing left to admit. -/
theorem srtAdmit_spec (tie : List Nat → Nat) (htie : TieBreak tie) (cs : Int) (hcs : 0 ≤ cs)
    (ps0 : List Process) (hfresh : FreshInput ps0) (n : Nat) (s : SrtState)
    (hinv : SrtInv ps0 cs s) :
    (srtAdmit tie cs n s).processes = s.processes
      ∧ (srtAdmit tie cs n s).current_time = s.current_time
      ∧ (srtAdmit tie cs n s).last_process = s.last_process
      ∧ s.index ≤ (srtAdmit tie cs n s).index
      ∧ ((srtAdmit tie cs n s).pq = [] → srtAdmit tie cs n s = s)
      ∧ (ps0.length - s.index ≤ n →
          ¬ ((srtAdmit tie cs n s).index < ps0.length
            ∧ (procAt s.processes (srtAdmit tie cs n s).index).arrival_time
                ≤ s.current_time)) := by
  induction n generalizing s with
  | zero =>
    refine ⟨rfl, rfl, rfl, le_refl _, fun _ => rfl, ?_⟩
    intro h hc
    simp only [srtAdmit] at hc
    omega
  | succ n ih =>
    unfold srtAdmit
    split
    · rename_i hc
      have hidx : s.index < ps0.length := by rw [← hinv.len]; exact hc.1
      have hinv1 := srtAdmitOne_inv tie htie cs hcs ps0 hfresh s hinv hidx hc.2
      have he := srtAdmitOne_eq tie htie cs hcs ps0 hfresh s hinv hidx
      obtain ⟨h1, h2, h3, h4, h5, h6⟩ := ih _ hinv1
      rw [he] at h1 h2 h3 h4 h5 h6
      simp only at h1 h2 h3 h4 h5 h6
      rw [he]
      refine ⟨h1, h2, h3, by omega, ?_, ?_⟩
      · intro hpq
        have := h5 hpq
        rw [this] at hpq
        simp at hpq
      · intro hn
        exact h6 (by omega)
    · rename_i hc
      refine ⟨rfl, rfl, rfl, le_refl _, fun _ => rfl, ?_⟩
      intro _ hc2
      rw [hinv.len] at hc
      exact hc hc2

/-! ## A dispatch of `srt` -/

/-- The state after lines 146-166, field by field; `c` is the context-switch charge of
line 161. -/
theorem srtDispatch_eq (tie : List Nat → Nat) (cs : Int) (s : SrtState) :
    ∃ c : Int, (c = 0 ∨ (c = cs
        ∧ (procAt s.processes (pqTop tie s.processes s.pq)).remaining_time
            - min (procAt s.processes (pqTop tie s.processes s.pq)).remaining_time
                (srtNextTime s - s.current_time) = 0))
      ∧ srtDispatch tie cs s =
        { processes := s.processes.set (pqTop tie s.processes s.pq)
            { procAt s.processes (pqTop tie s.processes s.pq) with
              start_time :=
                if (procAt s.processes (pqTop tie s.processes s.pq)).start_time = -1 then
                  s.current_time
                else (procAt s.processes (pqTop tie s.processes s.pq)).start_time
              remaining_time :=
                (procAt s.processes (pqTop tie s.processes s.pq)).remaining_time
                  - min (procAt s.processes (pqTop tie s.processes s.pq)).remaining_time
                      (srtNextTime s - s.current_time)
              finish_time :=
                if (procAt s.processes (pqTop tie s.processes s.pq)).remaining_time
                    - min (procAt s.processes (pqTop tie s.processes s.pq)).remaining_time
                        (srtNextTime s - s.current_time) = 0 then
                  s.current_time
                    + min (procAt s.processes (pqTop tie s.processes s.pq)).remaining_time
                        (srtNextTime s - s.current_time)
                else (procAt s.processes (pqTop tie s.processes s.pq)).finish_time }
          pq :=
            if (procAt s.processes (pqTop tie s.processes s.pq)).remaining_time
                - min (procAt s.processes (pqTop tie s.processes s.pq)).remaining_time
                    (srtNextTime s - s.current_time) = 0 then
              s.pq.erase (pqTop tie s.processes s.pq)
            else s.pq.erase (pqTop tie s.processes s.pq) ++ [pqTop tie s.processes s.pq]
          current_time :=
            s.current_time
              + min (procAt s.processes (pqTop tie s.processes s.pq)).remaining_time
                  (srtNextTime s - s.current_time) + c
          index := s.index
          last_process := some (pqTop tie s.processes s.pq) } := by
  generalize hcur : pqTop tie s.processes s.pq = cur
  generalize hp0 : procAt s.processes cur = p0
  by_cases hstart : p0.start_time = -1
  · by_cases hdone : p0.remaining_time - min p0.remaining_time (srtNextTime s - s.current_time) = 0
    · by_cases hch : s.last_process.isSome ∧ s.last_process ≠ some cur
          ∧ s.current_time + min p0.remaining_time (srtNextTime s - s.current_time)
              ≠ srtNextTime s
      · refine ⟨cs, Or.inr ⟨rfl, hdone⟩, ?_⟩
        simp only [srtDispatch, hcur, hp0, hstart, hdone, hch, if_true, and_self, ne_eq,
          not_false_eq_true]
      · refine ⟨0, Or.inl rfl, ?_⟩
        simp only [srtDispatch, hcur, hp0, hstart, hdone, hch, if_true, if_false, add_zero]
    · refine ⟨0, Or.inl rfl, ?_⟩
      simp only [srtDispatch, hcur, hp0, hstart, hdone, if_true, if_false, add_zero]
  · by_cases hdone : p0.remaining_time - min p0.remaining_time (srtNextTime s - s.current_time) = 0
    · by_cases hch : s.last_process.isSome ∧ s.last_process ≠ some cur
          ∧ s.current_time + min p0.remaining_time (srtNextTime s - s.current_time)
              ≠ srtNextTime s
      · refine ⟨cs, Or.inr ⟨rfl, hdone⟩, ?_⟩
        simp only [srtDispatch, hcur, hp0, hstart, hdone, hch, if_true, if_false, and_self,
          ne_eq, not_false_eq_true]
      · refine ⟨0, Or.inl rfl, ?_⟩
        simp only [srtDispatch, hcur, hp0, hstart, hdone, hch, if_true, if_false, add_zero]
    · refine ⟨0, Or.inl rfl, ?_⟩
      simp only [srtDispatch, hcur, hp0, hstart, hdone, if_true, if_false, add_zero]

theorem forall_mem_of_procAt (ps : List Process) (P : Process → Prop)
    (h : ∀ i, i < ps.length → P (procAt ps i)) : ∀ p ∈ ps, P p := by
  intro p hp
  obtain ⟨i, hi, rfl⟩ := List.mem_iff_getElem.1 hp
  have := h i hi
  rwa [procAt, List.getElem?_eq_getElem hi] at this

theorem unfinished_nonneg (ps : List Process) : 0 ≤ unfinished ps := by
  unfold unfinished
  apply List.sum_nonneg
  intro x hx
  obtain ⟨q, -, rfl⟩ := List.mem_map.1 hx
  split <;> omega

theorem unfinished_le_length (ps : List Process) : unfinished ps ≤ (ps.length : Int) := by
  induction ps with
  | nil => simp [unfinished]
  | cons a rest ih =>
    simp only [unfinished, List.map_cons, List.sum_cons, List.length_cons] at ih ⊢
    push_cast
    split <;> omega

theorem SrtInv.remaining_nonneg {ps0 : List Process} {cs : Int} {s : SrtState}
    (hinv : SrtInv ps0 cs s) (hfresh : FreshInput ps0) :
    ∀ p ∈ s.processes, 0 ≤ p.remaining_time := by
  apply forall_mem_of_procAt
  intro i hi
  by_cases h : i < s.index
  · exact (hinv.admitted i h).2.1
  · rw [hinv.untouched i (by omega)]
    have := hfresh.at i (by rw [← hinv.len]; exact hi)
    omega

theorem SrtInv.sumRemaining_nonneg {ps0 : List Process} {cs : Int} {s : SrtState}
    (hinv : SrtInv ps0 cs s) (hfresh : FreshInput ps0) : 0 ≤ sumRemaining s.processes := by
  unfold sumRemaining
  apply List.sum_nonneg
  intro x hx
  obtain ⟨q, hq, rfl⟩ := List.mem_map.1 hx
  exact hinv.remaining_nonneg hfresh q hq

/-- The length of a run: on a schedule that fits below `INT_MAX` the dispatched process
runs for at least one time unit, to its completion or to the next arrival. -/
theorem srt_execute_time (cs : Int) (hcs : 0 ≤ cs) (ps0 : List Process)
    (hfresh : FreshInput ps0) (hfit : srtHorizon ps0 cs ≤ INT_MAX) (s : SrtState)
    (hinv : SrtInv ps0 cs s)
    (hpost : ¬ (s.index < ps0.length
      ∧ (procAt s.processes s.index).arrival_time ≤ s.current_time))
    (cur : Nat) (hcur : cur ∈ s.pq) :
    1 ≤ min (procAt s.processes cur).remaining_time (srtNextTime s - s.current_time)
      ∧ min (procAt s.processes cur).remaining_time (srtNextTime s - s.current_time)
          ≤ (procAt s.processes cur).remaining_time
      ∧ min (procAt s.processes cur).remaining_time (srtNextTime s - s.current_time)
          = if s.index < ps0.length then
              min (procAt s.processes cur).remaining_time
                ((procAt s.processes s.index).arrival_time - s.current_time)
            else (procAt s.processes cur).remaining_time := by
  have hc := (hinv.pq_mem cur).1 hcur
  have hlen := hinv.len
  by_cases hidx : s.index < ps0.length
  · have hnt : srtNextTime s = (procAt s.processes s.index).arrival_time := by
      simp [srtNextTime, hlen, hidx]
    rw [hnt, if_pos hidx]
    have : s.current_time < (procAt s.processes s.index).arrival_time := by
      by_contra hh
      exact hpost ⟨hidx, by omega⟩
    refine ⟨?_, min_le_left _ _, rfl⟩
    exact le_min (by omega) (by omega)
  · have hnt : srtNextTime s = INT_MAX := by
      simp [srtNextTime, hlen, hidx]
    rw [hnt, if_neg hidx]
    have h1 := le_map_sum (fun p => p.remaining_time) s.processes
      (hinv.remaining_nonneg hfresh) cur (by have := hinv.idx; omega)
    have h2 := hinv.budget
    have h3 := mul_nonneg hcs (unfinished_nonneg s.processes)
    have h4 : (procAt s.processes cur).remaining_time ≤ INT_MAX - s.current_time := by
      unfold sumRemaining at h2
      simp only at h1
      omega
    rw [min_eq_left h4]
    exact ⟨by omega, le_refl _, rfl⟩

theorem srtDispatch_inv (tie : List Nat → Nat) (htie : TieBreak tie) (cs : Int) (hcs : 0 ≤ cs)
    (ps0 : List Process) (hfresh : FreshInput ps0) (hfit : srtHorizon ps0 cs ≤ INT_MAX)
    (s : SrtState) (hinv : SrtInv ps0 cs s) (hpq : s.pq ≠ [])
    (hpost : ¬ (s.index < ps0.length
      ∧ (procAt s.processes s.index).arrival_time ≤ s.current_time)) :
    SrtInv ps0 cs (srtDispatch tie cs s)
      ∧ sumRemaining (srtDispatch tie cs s).processes + 1 ≤ sumRemaining s.processes
      ∧ (srtDispatch tie cs s).index = s.index := by
  have hspec := pqTop_spec tie htie s.processes s.pq hpq
  obtain ⟨c, hc, heq⟩ := srtDispatch_eq tie cs s
  obtain ⟨he1, he2, -⟩ := srt_execute_time cs hcs ps0 hfresh hfit s hinv hpost _ hspec.1
  have hcm := (hinv.pq_mem _).1 hspec.1
  have hadm := hinv.admitted _ hcm.1
  have hsta := hinv.started _ hcm.1
  have hfra := hinv.frame (pqTop tie s.processes s.pq)
  have hle := le_map_sum (fun p => p.remaining_time) s.processes
    (hinv.remaining_nonneg hfresh) (pqTop tie s.processes s.pq)
    (by have := hinv.idx; have := hinv.len; omega)
  have hmem := hspec.1
  rw [heq]
  clear heq hspec
  generalize pqTop tie s.processes s.pq = cur at *
  generalize hp0 : procAt s.processes cur = p0 at *
  generalize min p0.remaining_time (srtNextTime s - s.current_time) = e at *
  have hcl : cur < s.processes.length := by have := hinv.idx; have := hinv.len; omega
  have hsum : sumRemaining (s.processes.set cur
      { p0 with
        start_time := if p0.start_time = -1 then s.current_time else p0.start_time
        remaining_time := p0.remaining_time - e
        finish_time := if p0.remaining_time - e = 0 then s.current_time + e
          else p0.finish_time })
      = sumRemaining s.processes - e := by
    unfold sumRemaining
    rw [map_sum_set _ _ _ _ hcl, hp0]
    simp only
    omega
  have hunf : unfinished (s.processes.set cur
      { p0 with
        start_time := if p0.start_time = -1 then s.current_time else p0.start_time
        remaining_time := p0.remaining_time - e
        finish_time := if p0.remaining_time - e = 0 then s.current_time + e
          else p0.finish_time })
      = unfinished s.processes - (if p0.remaining_time - e = 0 then 1 else 0) := by
    unfold unfinished
    rw [map_sum_set _ _ _ _ hcl, hp0]
    simp only
    split_ifs <;> omega
  have hsr0 := hinv.sumRemaining_nonneg hfresh
  have hunf0 := unfinished_nonneg s.processes
  simp only at hle
  have hsr : p0.remaining_time ≤ sumRemaining s.processes := hle
  refine ⟨?_, by simp only; omega, rfl⟩
  refine
    { len := by simp [hinv.len]
      idx := hinv.idx
      clock := by simp only; have := hinv.clock; rcases hc with h | h <;> omega
      frame := ?_
      untouched := ?_
      admitted := ?_
      pq_nodup := ?_
      pq_mem := ?_
      started := ?_
      finished := ?_
      budget := ?_
      budget_idle := ?_
      progress := ?_
      last_finish := ?_ }
  · intro i
    simp only
    by_cases h : cur = i
    · subst h
      rw [procAt_set_eq _ _ _ hcl]
      simpa [hp0] using hinv.frame cur
    · rw [procAt_set_ne _ _ _ _ h]
      exact hinv.frame i
  · intro i hi
    simp only at hi ⊢
    rw [procAt_set_ne _ _ _ _ (by omega)]
    exact hinv.untouched i hi
  · intro i hi
    simp only at hi ⊢
    by_cases h : cur = i
    · subst h
      rw [procAt_set_eq _ _ _ hcl]
      simp only
      rcases hc with h | h <;> omega
    · rw [procAt_set_ne _ _ _ _ h]
      have := hinv.admitted i hi
      rcases hc with h | h <;> omega
  · simp only
    split_ifs
    · exact hinv.pq_nodup.erase _
    · rw [List.nodup_append]
      refine ⟨hinv.pq_nodup.erase _, by simp, ?_⟩
      intro a ha hb
      simp only [List.mem_singleton] at hb
      subst hb
      exact (hinv.pq_nodup.mem_erase_iff.1 ha).1 rfl
  · intro i
    simp only
    by_cases h : cur = i
    · subst h
      rw [procAt_set_eq _ _ _ hcl]
      simp only
      split_ifs with hd
      · rw [hinv.pq_nodup.mem_erase_iff]
        constructor
        · intro hh; exact absurd rfl hh.1
        · intro hh; omega
      · simp only [List.mem_append, List.mem_singleton, or_true, true_iff]
        exact ⟨hcm.1, by omega⟩
    · rw [procAt_set_ne _ _ _ _ h]
      have hne : i ≠ cur := fun hh => h hh.symm
      split_ifs with hd
      · rw [hinv.pq_nodup.mem_erase_iff, hinv.pq_mem i]
        simp [hne]
      · simp only [List.mem_append, List.mem_singleton, hne, or_false]
        rw [hinv.pq_nodup.mem_erase_iff, hinv.pq_mem i]
        simp [hne]
  · intro i hi
    simp only at hi ⊢
    by_cases h : cur = i
    · subst h
      rw [procAt_set_eq _ _ _ hcl]
      simp only
      right
      have := hinv.clock
      split_ifs <;> rcases hsta with h1 | h1 <;> rcases hc with h2 | h2 <;> omega
    · rw [procAt_set_ne _ _ _ _ h]
      have := hinv.started i hi
      rcases this with h1 | h1
      · exact Or.inl h1
      · right
        rcases hc with h2 | h2 <;> omega
  · intro i hi
    simp only at hi ⊢
    by_cases h : cur = i
    · subst h
      rw [procAt_set_eq _ _ _ hcl]
      simp only
      intro hz
      rw [if_pos hz]
      have := hinv.clock
      split_ifs <;> rcases hsta with h1 | h1 <;> omega
    · rw [procAt_set_ne _ _ _ _ h]
      exact hinv.finished i hi
  · simp only
    rw [hsum, hunf]
    have := hinv.budget
    rcases hc with h | h
    · split_ifs
      · rw [h]
        have e1 : cs * (unfinished s.processes - 1) = cs * unfinished s.processes - cs := by
          ring
        omega
      · rw [h, sub_zero]; omega
    · rw [h.1, if_pos h.2]
      have e1 : cs * (unfinished s.processes - 1) = cs * unfinished s.processes - cs := by
        ring
      omega
  · simp only
    rw [hsum, hunf]
    have := hinv.budget_idle
    split_ifs
    · have e1 : cs * (unfinished s.processes - 1) = cs * unfinished s.processes - cs := by
        ring
      omega
    · rw [sub_zero]; omega
  · intro hi
    simp only at hi ⊢
    rw [hsum]
    have := hinv.progress hi
    rcases hc with h | h <;> omega
  · intro hn hz
    simp only at hz ⊢
    rw [hsum] at hz
    refine ⟨cur, by have := hinv.idx; omega, ?_⟩
    rw [procAt_set_eq _ _ _ hcl]
    simp only
    have hd : p0.remaining_time - e = 0 := by omega
    rw [if_pos hd]
    have := hinv.progress (by omega)
    omega

/-! ## The outer loop of `srt` -/

theorem srtIdle_inv (cs : Int) (ps0 : List Process) (s : SrtState)
    (hinv : SrtInv ps0 cs s) (hidx : s.index < ps0.length)
    (hlt : s.current_time < (procAt s.processes s.index).arrival_time) :
    SrtInv ps0 cs { s with current_time := (procAt s.processes s.index).arrival_time } := by
  have hM := arrival_le_maxArrival ps0 s.index hidx
  rw [← (hinv.frame s.index).2.1] at hM
  have hclock := hinv.clock
  refine
    { len := hinv.len
      idx := hinv.idx
      clock := by simp only; omega
      frame := hinv.frame
      untouched := hinv.untouched
      admitted := ?_
      pq_nodup := hinv.pq_nodup
      pq_mem := hinv.pq_mem
      started := ?_
      finished := hinv.finished
      budget := ?_
      budget_idle := hinv.budget_idle
      progress := ?_
      last_finish := hinv.last_finish }
  · intro i hi
    have := hinv.admitted i hi
    simp only at hi ⊢
    omega
  · intro i hi
    have := hinv.started i hi
    simp only at hi ⊢
    omega
  · have := hinv.budget_idle
    simp only
    omega
  · intro hi
    have := hinv.progress hi
    simp only
    omega

theorem srtBody_inv (tie : List Nat → Nat) (htie : TieBreak tie) (cs : Int) (hcs : 0 ≤ cs)
    (ps0 : List Process) (hfresh : FreshInput ps0) (hfit : srtHorizon ps0 cs ≤ INT_MAX)
    (s : SrtState) (hinv : SrtInv ps0 cs s) (hrun : srtRunning s = true) :
    SrtInv ps0 cs (srtBody tie cs s) ∧ srtMeasure (srtBody tie cs s) + 1 ≤ srtMeasure s := by
  have hinv1 := srtAdmit_inv tie htie cs hcs ps0 hfresh (s.processes.length - s.index) s hinv
  obtain ⟨h1, h2, -, h4, h5, h6⟩ :=
    srtAdmit_spec tie htie cs hcs ps0 hfresh (s.processes.length - s.index) s hinv
  have hpost := h6 (by rw [hinv.len])
  have hlen := hinv.len
  unfold srtBody
  simp only
  generalize srtAdmit tie cs (s.processes.length - s.index) s = s1 at *
  clear h6
  by_cases hpq : s1.pq = []
  · have hs := h5 hpq
    subst hs
    have hidx : s1.index < ps0.length := by
      simp only [srtRunning, hpq, List.isEmpty_nil, Bool.not_true, Bool.or_false,
        decide_eq_true_eq] at hrun
      omega
    have hlt : s1.current_time < (procAt s1.processes s1.index).arrival_time := by
      by_contra hh
      exact hpost ⟨hidx, by omega⟩
    simp only [hpq, List.isEmpty_nil, if_true, hlen, hidx]
    refine ⟨by have := srtIdle_inv cs ps0 s1 hinv hidx hlt; rwa [hpq] at this, ?_⟩
    simp only [srtMeasure, hpq, hlen, hidx, hlt, true_and, and_self, if_true, lt_self_iff_false,
      and_false, if_false]
    omega
  · have hne : s1.pq.isEmpty = false := by
      cases h : s1.pq with
      | nil => exact absurd h hpq
      | cons a l => rfl
    rw [hne]
    simp only [Bool.false_eq_true, if_false]
    rw [← h1, ← h2] at hpost
    obtain ⟨hd1, hd2, hd3⟩ := srtDispatch_inv tie htie cs hcs ps0 hfresh hfit _ hinv1 hpq hpost
    refine ⟨hd1, ?_⟩
    rw [h1] at hd2
    have hl2 := hd1.len
    unfold srtMeasure
    rw [hd3, hl2, hlen]
    split_ifs <;> omega

theorem srtInit_inv (cs : Int) (hcs : 0 ≤ cs) (ps0 : List Process) (hfresh : FreshInput ps0) :
    SrtInv ps0 cs (srtInit ps0) := by
  have hM := maxArrival_nonneg ps0
  have hu := unfinished_le_length ps0
  have hu0 := unfinished_nonneg ps0
  have hmul : cs * unfinished ps0 ≤ cs * (ps0.length : Int) :=
    mul_le_mul_of_nonneg_left hu hcs
  refine
    { len := rfl
      idx := Nat.zero_le _
      clock := le_refl _
      frame := fun i => ⟨rfl, rfl, rfl, rfl, rfl⟩
      untouched := fun i _ => rfl
      admitted := fun i hi => absurd hi (Nat.not_lt_zero _)
      pq_nodup := List.nodup_nil
      pq_mem := ?_
      started := fun i hi => absurd hi (Nat.not_lt_zero _)
      finished := fun i hi => absurd hi (Nat.not_lt_zero _)
      budget := ?_
      budget_idle := ?_
      progress := fun hi => absurd hi (Nat.not_lt_zero _)
      last_finish := ?_ }
  · intro i
    simp [srtInit]
  · simp only [srtInit, srtHorizon, hfresh.sumRemaining]
    omega
  · simp only [srtInit, srtHorizon, hfresh.sumRemaining]
    omega
  · intro hn hz
    simp only [srtInit, hfresh.sumRemaining] at hz
    have := sum_burst_pos ps0 (List.length_pos.1 hn) (fun p hp => (hfresh p hp).2)
    unfold sumBurst at hz
    omega

theorem srtMeasure_nonneg (cs : Int) (ps0 : List Process) (hfresh : FreshInput ps0)
    (s : SrtState) (hinv : SrtInv ps0 cs s) : 0 ≤ srtMeasure s := by
  have h1 := hinv.sumRemaining_nonneg hfresh
  have h2 := hinv.idx
  have h3 := hinv.len
  unfold srtMeasure
  split_ifs <;> omega

/-- With enough fuel the outer loop comes to an end, in a state that satisfies the
invariant and in which every process has been admitted and the queue is empty. -/
theorem srtLoop_terminates (tie : List Nat → Nat) (htie : TieBreak tie) (cs : Int)
    (hcs : 0 ≤ cs) (ps0 : List Process) (hfresh : FreshInput ps0)
    (hfit : srtHorizon ps0 cs ≤ INT_MAX) (fuel : Nat) (s : SrtState)
    (hinv : SrtInv ps0 cs s) (hfuel : srtMeasure s ≤ (fuel : Int)) :
    ∃ s1, srtLoop tie cs fuel s = some s1 ∧ SrtInv ps0 cs s1 ∧ srtRunning s1 = false := by
  induction fuel generalizing s with
  | zero =>
    by_cases hrun : srtRunning s = true
    · obtain ⟨hi, hm⟩ := srtBody_inv tie htie cs hcs ps0 hfresh hfit s hinv hrun
      have := srtMeasure_nonneg cs ps0 hfresh _ hi
      simp only [Nat.cast_zero] at hfuel
      omega
    · exact ⟨s, by simp [srtLoop, hrun], hinv, by simpa using hrun⟩
  | succ fuel ih =>
    by_cases hrun : srtRunning s = true
    · obtain ⟨hi, hm⟩ := srtBody_inv tie htie cs hcs ps0 hfresh hfit s hinv hrun
      obtain ⟨s1, h1, h2, h3⟩ := ih _ hi (by push_cast at hfuel; omega)
      exact ⟨s1, by simp [srtLoop, hrun, h1], h2, h3⟩
    · exact ⟨s, by simp [srtLoop, hrun], hinv, by simpa using hrun⟩

theorem srtFuel_enough (ps0 : List Process) (hfresh : FreshInput ps0) :
    srtMeasure (srtInit ps0) ≤ (srtFuel ps0 : Int) := by
  have hsum : ((ps0.map fun p => p.remaining_time.toNat).sum : Int) = sumRemaining ps0 := by
    have hnn : ∀ p ∈ ps0, 0 ≤ p.remaining_time := fun p hp => by
      have := hfresh p hp
      have := this.1.1
      omega
    clear hfresh
    induction ps0 with
    | nil => simp [sumRemaining]
    | cons a rest ih =>
      have ha := hnn a (List.mem_cons_self _ _)
      have := ih (fun p hp => hnn p (List.mem_cons_of_mem _ hp))
      simp only [sumRemaining, List.map_cons, List.sum_cons] at this ⊢
      rw [this, Int.toNat_of_nonneg ha]
  have hF : (srtFuel ps0 : Int) = 2 * (ps0.length : Int) + 2 * sumRemaining ps0 + 1 := by
    unfold srtFuel
    rw [← hsum]
    push_cast
    rw [List.map_map]
    rfl
  rw [hF]
  unfold srtMeasure
  simp only [srtInit]
  split_ifs <;> omega

/-- On fresh input whose schedule fits below `INT_MAX`, `srt` returns, and the final state
satisfies the invariant with every process admitted and none left in the queue. -/
theorem srt_final (tie : List Nat → Nat) (htie : TieBreak tie) (cs : Int) (hcs : 0 ≤ cs)
    (ps0 : List Process) (hfresh : FreshInput ps0) (hfit : srtHorizon ps0 cs ≤ INT_MAX) :
    ∃ s1 : SrtState, srt tie ps0 cs = some s1.processes ∧ SrtInv ps0 cs s1
      ∧ s1.index = ps0.length ∧ s1.pq = [] := by
  obtain ⟨s1, h1, h2, h3⟩ := srtLoop_terminates tie htie cs hcs ps0 hfresh hfit (srtFuel ps0)
    (srtInit ps0) (srtInit_inv cs hcs ps0 hfresh) (srtFuel_enough ps0 hfresh)
  refine ⟨s1, by simp [srt, h1], h2, ?_, ?_⟩
  · simp only [srtRunning, Bool.or_eq_false_iff, decide_eq_false_iff_not] at h3
    have := h2.idx
    have := h2.len
    omega
  · simp only [srtRunning, Bool.or_eq_false_iff] at h3
    simpa using h3.2

/-! ## First-come, first-served: runs without overflow -/

theorem wrapInt_eq (x : Int) (h1 : INT_MIN ≤ x) (h2 : x ≤ INT_MAX) : wrapInt x = x := by
  unfold INT_MIN at h1
  unfold INT_MAX at h2
  unfold wrapInt
  omega

theorem maxArrival_perm {l1 l2 : List Process} (h : l1.Perm l2) :
    maxArrival l1 = maxArrival l2 := by
  induction h with
  | nil => rfl
  | cons a _ ih => simp only [maxArrival, List.foldr_cons] at ih ⊢; rw [ih]
  | swap a b l => simp only [maxArrival, List.foldr_cons]; omega
  | trans _ _ ih1 ih2 => rw [ih1, ih2]

/-- Below the horizon no sum of the loop of `fcfs` leaves the range of `int`. -/
theorem fcfsLoop_eq_exact (cs : Int) (hcs : INT_MIN ≤ cs) (l : List Process) (t : Int)
    (hd : ∀ p ∈ l, 0 ≤ p.arrival_time ∧ 0 ≤ p.burst_time)
    (hfit : max t (maxArrival l) + sumBurst l + max cs 0 * ((l.length : Int) - 1)
      ≤ INT_MAX) :
    fcfsLoop cs t l = fcfsExact cs t l := by
  induction l generalizing t with
  | nil => rfl
  | cons a rest ih =>
    have ha := hd a (List.mem_cons_self _ _)
    have hrest : ∀ p ∈ rest, 0 ≤ p.arrival_time ∧ 0 ≤ p.burst_time :=
      fun p hp => hd p (List.mem_cons_of_mem _ hp)
    have hsb : 0 ≤ sumBurst rest := by
      unfold sumBurst
      apply List.sum_nonneg
      intro x hx
      obtain ⟨p, hp, rfl⟩ := List.mem_map.1 hx
      exact (hrest p hp).2
    have hM := maxArrival_nonneg rest
    have hmin : INT_MIN = -2147483648 := rfl
    have hc0 : 0 ≤ max cs 0 := le_max_right _ _
    have hcc : cs ≤ max cs 0 := le_max_left _ _
    have hma : maxArrival (a :: rest) = max a.arrival_time (maxArrival rest) := rfl
    have hsum : sumBurst (a :: rest) = a.burst_time + sumBurst rest := by
      simp [sumBurst]
    rw [hma, hsum] at hfit
    generalize hc : max cs 0 = c at hfit hc0 hcc ih
    cases rest with
    | nil =>
      simp only [fcfsLoop, fcfsExact, List.isEmpty_nil, if_true]
      simp only [List.length_cons, List.length_nil] at hfit
      rw [wrapInt_eq _ (by split <;> omega) (by split <;> omega)]
    | cons b rest2 =>
      simp only [List.length_cons] at hfit ih
      push_cast at hfit ih
      have e : c * ((rest2.length : Int) + 1 + 1 - 1) = c * ((rest2.length : Int) + 1 - 1) + c := by
        ring
      have hX : 0 ≤ c * ((rest2.length : Int) + 1 - 1) := mul_nonneg hc0 (by omega)
      rw [e] at hfit
      generalize c * ((rest2.length : Int) + 1 - 1) = X at hfit hX ih
      have h1 : wrapInt ((if t < a.arrival_time then a.arrival_time else t) + a.burst_time)
          = (if t < a.arrival_time then a.arrival_time else t) + a.burst_time :=
        wrapInt_eq _ (by split <;> omega) (by split <;> omega)
      have h2 : wrapInt ((if t < a.arrival_time then a.arrival_time else t) + a.burst_time + cs)
          = (if t < a.arrival_time then a.arrival_time else t) + a.burst_time + cs :=
        wrapInt_eq _ (by split <;> omega) (by split <;> omega)
      simp only [fcfsLoop, fcfsExact, List.isEmpty_cons, Bool.false_eq_true, if_false]
      rw [h1, h2]
      have := ih ((if t < a.arrival_time then a.arrival_time else t) + a.burst_time + cs) hrest
        (by split <;> omega)
      simp only [fcfsLoop, fcfsExact] at this
      rw [this]

/-- Below the horizon `fcfs` is the exact schedule of the sorted vector. -/
theorem fcfs_eq_exact (sort : Sorter) (hsort : SortsBy sort arrivalLess)
    (processes : List Process) (cs : Int) (hcs : INT_MIN ≤ cs)
    (hd : ∀ p ∈ processes, 0 ≤ p.arrival_time ∧ 0 ≤ p.burst_time)
    (hfit : fcfsHorizon processes cs ≤ INT_MAX) :
    fcfs sort processes cs = fcfsExact cs 0 (sort arrivalLess processes) := by
  have hperm := (hsort processes).1
  refine fcfsLoop_eq_exact cs hcs _ 0 (fun p hp => hd p (hperm.mem_iff.1 hp)) ?_
  have hM := maxArrival_nonneg processes
  have e2 : sumBurst (sort arrivalLess processes) = sumBurst processes :=
    (hperm.map _).sum_eq
  rw [maxArrival_perm hperm, e2, hperm.length_eq, max_eq_right hM]
  exact hfit

/-! ## First-come, first-served: the schedule -/

theorem fcfs_length (sort : Sorter) (hsort : SortsBy sort arrivalLess)
    (processes : List Process) (cs : Int) :
    (fcfs sort processes cs).length = processes.length := by
  rw [fcfs, fcfsLoop_length]
  exact (hsort processes).1.length_eq

theorem fcfs_clearTimes_perm (sort : Sorter) (hsort : SortsBy sort arrivalLess)
    (processes : List Process) (cs : Int) :
    ((fcfs sort processes cs).map Process.clearTimes).Perm
      (processes.map Process.clearTimes) := by
  rw [fcfs, fcfsLoop_clearTimes]
  exact (hsort processes).1.map _

theorem fcfs_sorted (sort : Sorter) (hsort : SortsBy sort arrivalLess)
    (processes : List Process) (cs : Int) :
    (fcfs sort processes cs).Pairwise (fun a b => a.arrival_time ≤ b.arrival_time) := by
  have h1 : ((fcfs sort processes cs).map (fun p => p.arrival_time)).Pairwise (· ≤ ·) := by
    rw [fcfs, fcfsLoop_arrival]
    exact List.pairwise_map.2 (hsort.sorted processes)
  exact List.pairwise_map.1 h1

/-- C1, as stated, fails: two processes of burst 1 arrive at time 0 and `cs = INT_MAX`.
The sum `finish_time + cs` of line 112 leaves the range of `int`, the clock falls back
below 0, and the second process starts at 0, before the first has finished, and not at
`max(arrival, finish + cs)`. -/
theorem fcfs_schedule_counterexample :
    (fcfs stdSort [mkProcess 1 0 1, mkProcess 2 0 1] INT_MAX).map
        (fun p => (p.id, p.arrival_time, p.start_time, p.finish_time))
        = [(1, 0, 0, 1), (2, 0, 0, 1)]
      ∧ (0 : Int) ≠ max 0 (1 + INT_MAX) := by
  decide

/-- C1, amended: for every collection and every context-switch cost the result of `fcfs`
is the input rearranged (all fields but the two timestamps kept) in non-decreasing order
of `arrival_time`.  When no `arrival_time` and no `burst_time` is negative and the
schedule fits below `INT_MAX` (`fcfsHorizon`: latest arrival + sum of the bursts +
`(n - 1) * max(cs, 0)`), the first process starts at `max(0, arrival)`, every later one at
`max(arrival, finish of its predecessor + cs)`, every process finishes at
`start + burst`, and for `cs >= 0` no process starts before its predecessor has
finished. -/
theorem fcfs_schedule (sort : Sorter) (hsort : SortsBy sort arrivalLess)
    (processes : List Process) (cs : Int) :
    ((fcfs sort processes cs).map Process.clearTimes).Perm (processes.map Process.clearTimes)
      ∧ (fcfs sort processes cs).Pairwise (fun a b => a.arrival_time ≤ b.arrival_time)
      ∧ ((∀ p ∈ processes, 0 ≤ p.arrival_time ∧ 0 ≤ p.burst_time) → INT_MIN ≤ cs →
          fcfsHorizon processes cs ≤ INT_MAX →
          (∀ p, (fcfs sort processes cs)[0]? = some p → p.start_time = max 0 p.arrival_time)
          ∧ (∀ i a b, (fcfs sort processes cs)[i]? = some a →
              (fcfs sort processes cs)[i + 1]? = some b →
              b.start_time = max b.arrival_time (a.finish_time + cs))
          ∧ (∀ p ∈ fcfs sort processes cs, p.finish_time = p.start_time + p.burst_time)
          ∧ (0 ≤ cs → ∀ i a b, (fcfs sort processes cs)[i]? = some a →
              (fcfs sort processes cs)[i + 1]? = some b → a.finish_time ≤ b.start_time)) := by
  refine ⟨fcfs_clearTimes_perm sort hsort processes cs, fcfs_sorted sort hsort processes cs,
    ?_⟩
  intro hdata hmin hfit
  rw [fcfs_eq_exact sort hsort processes cs hmin hdata hfit]
  refine ⟨?_, ?_, ?_, ?_⟩
  · intro p hp
    exact fcfsExact_head cs _ 0 p (by rw [List.head?_eq_getElem?]; exact hp)
  · intro i a b ha hb
    exact fcfsExact_next cs _ 0 i a b ha hb
  · exact fcfsExact_finish cs _ 0
  · intro hcs i a b ha hb
    have := fcfsExact_next cs _ 0 i a b ha hb
    have h2 := le_max_right b.arrival_time (a.finish_time + cs)
    omega

/-- Witness of the amended C1 on the three-process example of the specification. -/
theorem fcfs_schedule_witness :
    SortsBy stableSort arrivalLess
      ∧ (∀ p ∈ [mkProcess 1 0 5, mkProcess 2 1 3, mkProcess 3 2 1],
          0 ≤ p.arrival_time ∧ 0 ≤ p.burst_time)
      ∧ INT_MIN ≤ 1
      ∧ fcfsHorizon [mkProcess 1 0 5, mkProcess 2 1 3, mkProcess 3 2 1] 1 ≤ INT_MAX
      ∧ (0 : Int) ≤ 1
      ∧ (fcfs stableSort [mkProcess 1 0 5, mkProcess 2 1 3, mkProcess 3 2 1] 1).Pairwise
          (fun a b => a.arrival_time ≤ b.arrival_time)
      ∧ ∀ i a b,
          (fcfs stableSort [mkProcess 1 0 5, mkProcess 2 1 3, mkProcess 3 2 1] 1)[i]? = some a →
          (fcfs stableSort [mkProcess 1 0 5, mkProcess 2 1 3, mkProcess 3 2 1] 1)[i + 1]? = some b →
          a.finish_time ≤ b.start_time :=
  ⟨stableSort_sortsBy, by decide, by decide, by decide, by decide,
    (fcfs_schedule stableSort stableSort_sortsBy
      [mkProcess 1 0 5, mkProcess 2 1 3, mkProcess 3 2 1] 1).2.1,
    ((fcfs_schedule stableSort stableSort_sortsBy
      [mkProcess 1 0 5, mkProcess 2 1 3, mkProcess 3 2 1] 1).2.2
        (by decide) (by decide) (by decide)).2.2.2 (by decide)⟩

/-! ## First-come, first-served: `remaining_time` -/

/-- C5, as stated, fails: after `fcfs` on one fresh process of burst 5 the process does
not have `remaining_time = 0`. -/
theorem fcfs_remaining_counterexample :
    ¬ ∀ p ∈ fcfs stableSort [mkProcess 1 0 5] 1, p.remaining_time = 0 := by
  decide

/-- C5, amended: `fcfs` never writes `remaining_time`; on a collection with
`remaining_time = burst_time > 0` every process of the result still has
`remaining_time = burst_time`, which is positive. -/
theorem fcfs_remaining_unchanged (sort : Sorter) (hsort : SortsBy sort arrivalLess)
    (processes : List Process) (cs : Int)
    (hfresh : ∀ p ∈ processes, p.remaining_time = p.burst_time ∧ 0 < p.burst_time) :
    ∀ p ∈ fcfs sort processes cs, p.remaining_time = p.burst_time ∧ 0 < p.remaining_time := by
  intro p hp
  have h1 : p.clearTimes ∈ (fcfs sort processes cs).map Process.clearTimes :=
    List.mem_map_of_mem _ hp
  have h2 := (fcfs_clearTimes_perm sort hsort processes cs).mem_iff.1 h1
  obtain ⟨q, hq, hqp⟩ := List.mem_map.1 h2
  have hr : q.remaining_time = p.remaining_time := by
    have := congrArg Process.remaining_time hqp
    simpa [Process.clearTimes] using this
  have hb : q.burst_time = p.burst_time := by
    have := congrArg Process.burst_time hqp
    simpa [Process.clearTimes] using this
  have := hfresh q hq
  omega

/-- Witness of the amended C5. -/
theorem fcfs_remaining_unchanged_witness :
    SortsBy stableSort arrivalLess
      ∧ (∀ p ∈ [mkProcess 1 0 5, mkProcess 2 1 3],
          p.remaining_time = p.burst_time ∧ 0 < p.burst_time)
      ∧ ∀ p ∈ fcfs stableSort [mkProcess 1 0 5, mkProcess 2 1 3] 1,
          p.remaining_time = p.burst_time ∧ 0 < p.remaining_time :=
  ⟨stableSort_sortsBy, by decide,
    fcfs_remaining_unchanged stableSort stableSort_sortsBy
      [mkProcess 1 0 5, mkProcess 2 1 3] 1 (by decide)⟩

/-! ## First-come, first-served: equal arrival times -/

set_option maxRecDepth 100000 in
/-- C6 at a failing input: seventeen processes `P1 .. P17` arrive together.  `std::sort`
takes the middle element `P9` as the pivot, moves it to the front and swaps the elements
around it from both ends, so `fcfs` dispatches them in the order `P9`, `P17`, `P16`, ...,
`P10`, `P1`, `P8`, ..., `P2` and not in the order of the input. -/
theorem fcfs_ties_not_kept :
    (fcfs stdSort tiedInput 1).map (fun p => (p.id, p.arrival_time))
        = [(9, 0), (17, 0), (16, 0), (15, 0), (14, 0), (13, 0), (12, 0), (11, 0), (10, 0),
            (1, 0), (8, 0), (7, 0), (6, 0), (5, 0), (4, 0), (3, 0), (2, 0)]
      ∧ tiedInput.map (fun p => (p.id, p.arrival_time))
        = [(1, 0), (2, 0), (3, 0), (4, 0), (5, 0), (6, 0), (7, 0), (8, 0), (9, 0),
            (10, 0), (11, 0), (12, 0), (13, 0), (14, 0), (15, 0), (16, 0), (17, 0)] := by
  decide

/-! ## Metrics -/

/-- The utilization is at most 100 when the switch time is not negative, and it is not
negative exactly when the switch time does not exceed the active time. -/
theorem cpu_utilization_bounds (m : Metrics) (hA : 0 < m.total_active_time) :
    (0 ≤ m.total_context_switch_time → m.cpu_utilization ≤ 100)
      ∧ (0 ≤ m.cpu_utilization ↔ m.total_context_switch_time ≤ m.total_active_time) := by
  have hA' : (0 : ℚ) < (m.total_active_time : ℚ) := by exact_mod_cast hA
  unfold Metrics.cpu_utilization
  constructor
  · intro h
    have h' : (0 : ℚ) ≤ (m.total_context_switch_time : ℚ) := by exact_mod_cast h
    rw [div_le_iff₀ hA']
    nlinarith
  · constructor
    · intro h
      rw [le_div_iff₀ hA'] at h
      have : (m.total_context_switch_time : ℚ) ≤ (m.total_active_time : ℚ) := by nlinarith
      exact_mod_cast this
    · intro h
      have h' : (m.total_context_switch_time : ℚ) ≤ (m.total_active_time : ℚ) := by
        exact_mod_cast h
      rw [le_div_iff₀ hA']
      nlinarith

/-- C8, as stated, fails: two processes of burst 1 arrive at time 0 and `cs = INT_MAX`.
The clock of `fcfs` overflows at line 112, both processes finish at 1, and the metrics have
active time 1 and switch time `INT_MAX`: the utilization is negative. -/
theorem fcfs_cpu_utilization_counterexample :
    ∃ m, calculateMetrics (fcfs stdSort [mkProcess 1 0 1, mkProcess 2 0 1] INT_MAX)
          ⟨[mkProcess 1 0 1, mkProcess 2 0 1], INT_MAX, 1⟩ = Except.ok m
      ∧ m.total_active_time = 1 ∧ m.total_context_switch_time = 2147483647
      ∧ m.cpu_utilization = -214748364600 ∧ m.cpu_utilization < 0 := by
  have key : ∀ m : Metrics, m.total_active_time = 1 →
      m.total_context_switch_time = 2147483647 →
      m.cpu_utilization = -214748364600 ∧ m.cpu_utilization < 0 := by
    intro m h1 h2
    rw [Metrics.cpu_utilization, h1, h2]
    norm_num
  exact ⟨_, rfl, rfl, rfl, key _ rfl rfl⟩

/-- C8, amended: for a non-empty collection with positive burst times, no negative
`arrival_time`, `cs >= 0` and a schedule that fits below `INT_MAX` (latest arrival + sum
of the bursts + `cs * (n - 1)`), `calculateMetrics` on the result of `fcfs` returns; its
`last_finish_time` is the largest `finish_time`, its active time `A` is that minus the
`arrival_time` of the first process of the result, its switch time is `cs * (n - 1)`, and
`A > 0` and the utilization `100 * (A - cs * (n - 1)) / A` lies in `[0, 100]`. -/
theorem fcfs_cpu_utilization (sort : Sorter) (hsort : SortsBy sort arrivalLess)
    (sch : Scheduler) (processes : List Process) (hne : processes ≠ [])
    (hb : ∀ p ∈ processes, 0 < p.burst_time) (ha : ∀ p ∈ processes, 0 ≤ p.arrival_time)
    (hcs : 0 ≤ sch.context_switch)
    (hfit : fcfsHorizon processes sch.context_switch ≤ INT_MAX) :
    ∃ (m : Metrics) (front : Process),
      calculateMetrics (fcfs sort processes sch.context_switch) sch = Except.ok m
      ∧ (fcfs sort processes sch.context_switch)[0]? = some front
      ∧ (∀ p ∈ fcfs sort processes sch.context_switch, p.finish_time ≤ m.last_finish_time)
      ∧ (∃ p ∈ fcfs sort processes sch.context_switch, p.finish_time = m.last_finish_time)
      ∧ m.total_active_time = m.last_finish_time - front.arrival_time
      ∧ m.total_context_switch_time = sch.context_switch * ((processes.length : Int) - 1)
      ∧ m.cpu_utilization
          = 100 * ((m.total_active_time : ℚ)
              - ((sch.context_switch * ((processes.length : Int) - 1) : Int) : ℚ))
            / (m.total_active_time : ℚ)
      ∧ 0 < m.total_active_time
      ∧ 0 ≤ m.cpu_utilization ∧ m.cpu_utilization ≤ 100 := by
  have hlen := fcfs_length sort hsort processes sch.context_switch
  have hex := fcfs_eq_exact sort hsort processes sch.context_switch
    (le_trans (by decide) hcs) (fun p hp => ⟨ha p hp, le_of_lt (hb p hp)⟩) hfit
  have hperm := (hsort processes).1
  have hslen : (sort arrivalLess processes).length = processes.length := hperm.length_eq
  have hsb : ∀ p ∈ sort arrivalLess processes, 0 < p.burst_time :=
    fun p hp => hb p (hperm.mem_iff.1 hp)
  have hpl : 0 < processes.length := List.length_pos.2 hne
  -- the sorted vector and the result are not empty
  obtain ⟨q, srest, hs⟩ : ∃ q srest, sort arrivalLess processes = q :: srest := by
    cases h : sort arrivalLess processes with
    | nil => rw [h] at hslen; simp at hslen; omega
    | cons q srest => exact ⟨q, srest, rfl⟩
  obtain ⟨front, rest, hr⟩ : ∃ front rest,
      fcfs sort processes sch.context_switch = front :: rest := by
    cases h : fcfs sort processes sch.context_switch with
    | nil => rw [h] at hlen; simp at hlen; omega
    | cons f r => exact ⟨f, r, rfl⟩
  have hfa : front.arrival_time = q.arrival_time := by
    have h1 := fcfsLoop_arrival sch.context_switch (sort arrivalLess processes) 0
    rw [show fcfsLoop sch.context_switch 0 (sort arrivalLess processes) = front :: rest from hr,
      hs] at h1
    simpa using congrArg List.head? h1
  obtain ⟨m, hm, -, hsw, hact, -, hmax, hatt⟩ := calculateMetrics_cons front rest sch
  obtain ⟨pl, hpl1, hpl2⟩ := fcfsExact_last sch.context_switch (sort arrivalLess processes) 0 q
    (by rw [hs]; rfl)
  have hpl1' : pl ∈ front :: rest := by rw [← hr, hex]; exact hpl1
  have hsum := sum_burst_pos (sort arrivalLess processes) (by rw [hs]; simp) hsb
  have hrl : (rest.length : Int) = (processes.length : Int) - 1 := by
    have : (front :: rest).length = processes.length := by rw [← hr]; exact hlen
    simp only [List.length_cons] at this
    omega
  have hcsn : 0 ≤ sch.context_switch * ((processes.length : Int) - 1) :=
    mul_nonneg hcs (by omega)
  rw [hslen] at hpl2
  have hL := hmax pl hpl1'
  have hq0 := le_max_left (0 : Int) q.arrival_time
  have hq1 := le_max_right (0 : Int) q.arrival_time
  have hsw' : m.total_context_switch_time
      = sch.context_switch * ((processes.length : Int) - 1) := by rw [hsw, hrl]
  have hA : 0 < m.total_active_time := by rw [hact, hfa]; omega
  have hLpos : 0 < m.last_finish_time := by omega
  have hbd := cpu_utilization_bounds m hA
  refine ⟨m, front, by rw [hr]; exact hm, by rw [hr]; simp, by rw [hr]; exact hmax, ?_, hact,
    hsw', ?_, hA, ?_, ?_⟩
  · rcases hatt with h0 | h1
    · omega
    · rw [hr]; exact h1
  · rw [Metrics.cpu_utilization, hsw']
  · exact hbd.2.2 (by rw [hsw', hact, hfa]; omega)
  · exact hbd.1 (by rw [hsw']; exact hcsn)

/-- Witness of the amended C8. -/
theorem fcfs_cpu_utilization_witness :
    SortsBy stableSort arrivalLess
      ∧ [mkProcess 1 0 5, mkProcess 2 1 3] ≠ []
      ∧ (∀ p ∈ [mkProcess 1 0 5, mkProcess 2 1 3], 0 < p.burst_time)
      ∧ (∀ p ∈ [mkProcess 1 0 5, mkProcess 2 1 3], 0 ≤ p.arrival_time)
      ∧ (0 : Int) ≤ (Scheduler.mk [] 1 2).context_switch
      ∧ fcfsHorizon [mkProcess 1 0 5, mkProcess 2 1 3] (Scheduler.mk [] 1 2).context_switch
          ≤ INT_MAX
      ∧ ∃ m : Metrics,
          calculateMetrics (fcfs stableSort [mkProcess 1 0 5, mkProcess 2 1 3] 1) ⟨[], 1, 2⟩
            = Except.ok m
          ∧ 0 ≤ m.cpu_utilization ∧ m.cpu_utilization ≤ 100 :=
  ⟨stableSort_sortsBy, by decide, by decide, by decide, by decide, by decide, by
    obtain ⟨m, -, hm, -, -, -, -, -, -, -, h0, h100⟩ :=
      fcfs_cpu_utilization stableSort stableSort_sortsBy ⟨[], 1, 2⟩
        [mkProcess 1 0 5, mkProcess 2 1 3] (by decide) (by decide) (by decide) (by decide)
        (by decide)
    exact ⟨m, hm, h0, h100⟩⟩

/-! ## Empty collection -/

/-- C10, as stated, fails: after `fcfs` on the empty collection `calculateMetrics` raises
no error of its own but goes on to read `processes.front()` of the empty vector. -/
theorem empty_collection_counterexample :
    calculateMetrics (fcfs stableSort [] 1) ⟨[], 1, 1⟩ = Except.error Fault.frontOfEmpty := by
  rfl

/-- C10, amended: each engine returns the empty collection unchanged, and
`calculateMetrics` has no guard for it: its loop makes no pass and it then reads
`processes.front()` of the empty vector. -/
theorem empty_collection (sort : Sorter) (hsort : SortsBy sort arrivalLess)
    (tie : List Nat → Nat) (sch : Scheduler) :
    fcfs sort [] sch.context_switch = []
      ∧ srt tie [] sch.context_switch = some []
      ∧ roundRobin [] sch.context_switch sch.quantum = Except.ok []
      ∧ calculateMetrics [] sch = Except.error Fault.frontOfEmpty := by
  refine ⟨?_, rfl, rfl, rfl⟩
  have := (hsort []).1
  rw [fcfs, List.Perm.eq_nil this]
  rfl

/-- Witness of the amended C10. -/
theorem empty_collection_witness :
    SortsBy stableSort arrivalLess
      ∧ calculateMetrics (fcfs stableSort [] 1) ⟨[], 1, 1⟩ = Except.error Fault.frontOfEmpty :=
  ⟨stableSort_sortsBy, by
    have h := empty_collection stableSort stableSort_sortsBy firstPushed ⟨[], 1, 1⟩
    rw [h.1]; exact h.2.2.2⟩

/-! ## Shortest remaining time: completion -/

theorem srtReach_inv (tie : List Nat → Nat) (htie : TieBreak tie) (cs : Int) (hcs : 0 ≤ cs)
    (ps0 : List Process) (hfresh : FreshInput ps0) (hfit : srtHorizon ps0 cs ≤ INT_MAX)
    (s : SrtState) (h : SrtReach tie cs ps0 s) : SrtInv ps0 cs s := by
  induction h with
  | init => exact srtInit_inv cs hcs ps0 hfresh
  | step s _ hrun ih => exact (srtBody_inv tie htie cs hcs ps0 hfresh hfit s ih hrun).1

/-- The state `srt` loops in on one process that arrives at `INT_MAX`. -/
theorem srt_stuck (fuel : Nat) :
    srtLoop firstPushed 0 fuel
      { processes :=
          [{ mkProcess 1 2147483647 1 with start_time := 2147483647 }]
        pq := [0]
        current_time := 2147483647
        index := 1
        last_process := some 0 } = none := by
  induction fuel with
  | zero => rfl
  | succ n ih =>
    rw [srtLoop, if_pos (by decide)]
    have e : srtBody firstPushed 0
        { processes :=
            [{ mkProcess 1 2147483647 1 with start_time := 2147483647 }]
          pq := [0]
          current_time := 2147483647
          index := 1
          last_process := some 0 }
        = { processes :=
              [{ mkProcess 1 2147483647 1 with start_time := 2147483647 }]
            pq := [0]
            current_time := 2147483647
            index := 1
            last_process := some 0 } := by decide
    rw [e]
    exact ih

/-- The outer loop of `srt` never ends on one process that arrives at `INT_MAX`. -/
theorem srt_diverges (fuel : Nat) :
    srtLoop firstPushed 0 fuel (srtInit [mkProcess 1 2147483647 1]) = none := by
  match fuel with
  | 0 => rfl
  | 1 => rfl
  | n + 2 =>
    have e : srtLoop firstPushed 0 (n + 2) (srtInit [mkProcess 1 2147483647 1])
        = srtLoop firstPushed 0 n
          { processes :=
              [{ mkProcess 1 2147483647 1 with start_time := 2147483647 }]
            pq := [0]
            current_time := 2147483647
            index := 1
            last_process := some 0 } := by
      rw [srtLoop, if_pos (by decide), srtLoop, if_pos (by decide)]
      congr 1
    rw [e]
    exact srt_stuck n

/-- C3, as stated, fails: on one fresh process with `arrival_time = INT_MAX` and burst 1
(and `cs = 0`) `srt` does not return, and no number of passes of its outer loop is
enough: the process is dispatched at time `INT_MAX` for 0 time units again and again. -/
theorem srt_completes_counterexample :
    srt firstPushed [mkProcess 1 2147483647 1] 0 = none
      ∧ ∀ fuel, srtLoop firstPushed 0 fuel (srtInit [mkProcess 1 2147483647 1]) = none :=
  ⟨by rw [srt, srt_diverges]; rfl, srt_diverges⟩

/-- C3, amended: on fresh input with positive bursts and `cs >= 0` whose schedule fits
below `INT_MAX` (`srtHorizon <= INT_MAX`), `srt` returns; the result has the processes in
their input positions with `id`, `arrival_time` and `burst_time` kept, and every process
has `remaining_time = 0` and `arrival_time <= start_time <= finish_time - burst_time`. -/
theorem srt_completes (tie : List Nat → Nat) (htie : TieBreak tie) (cs : Int) (hcs : 0 ≤ cs)
    (ps0 : List Process) (hfresh : FreshInput ps0) (hfit : srtHorizon ps0 cs ≤ INT_MAX) :
    ∃ r, srt tie ps0 cs = some r ∧ r.length = ps0.length
      ∧ ∀ (i : Nat) (p : Process), ps0[i]? = some p →
        ∃ q : Process, r[i]? = some q
          ∧ q.id = p.id ∧ q.arrival_time = p.arrival_time ∧ q.burst_time = p.burst_time
          ∧ q.remaining_time = 0
          ∧ q.arrival_time ≤ q.start_time
          ∧ q.start_time ≤ q.finish_time - q.burst_time
          ∧ q.arrival_time + q.burst_time ≤ q.finish_time
          ∧ q.burst_time ≤ q.finish_time - q.start_time := by
  obtain ⟨s1, h1, hinv, hidx, hpq⟩ := srt_final tie htie cs hcs ps0 hfresh hfit
  refine ⟨s1.processes, h1, hinv.len, ?_⟩
  intro i p hp
  have hi : i < ps0.length := by
    by_contra hh
    rw [List.getElem?_eq_none (by omega)] at hp
    exact absurd hp (by simp)
  have hpa := procAt_of_getElem? ps0 i p hp
  have hfr := hinv.frame i
  rw [hpa] at hfr
  have hadm := hinv.admitted i (by omega)
  have hm := (hinv.pq_mem i).not.1 (by rw [hpq]; simp)
  have hz : (procAt s1.processes i).remaining_time = 0 := by
    by_contra hh
    exact hm ⟨by omega, by omega⟩
  have hfin := hinv.finished i (by omega) hz
  refine ⟨procAt s1.processes i, getElem?_eq_procAt _ _ (by rw [hinv.len]; exact hi),
    hfr.1, hfr.2.1, hfr.2.2.1, hz, hfin.2.1, by omega, by omega, by omega⟩

/-- Witness of the amended C3 on the three-process example of the specification. -/
theorem srt_completes_witness :
    TieBreak firstPushed ∧ (0 : Int) ≤ 1
      ∧ FreshInput [mkProcess 1 0 5, mkProcess 2 1 3, mkProcess 3 2 1]
      ∧ srtHorizon [mkProcess 1 0 5, mkProcess 2 1 3, mkProcess 3 2 1] 1 ≤ INT_MAX
      ∧ ∃ r, srt firstPushed [mkProcess 1 0 5, mkProcess 2 1 3, mkProcess 3 2 1] 1 = some r
          ∧ r.length = 3 :=
  ⟨firstPushed_tieBreak, by decide, by unfold FreshInput; decide, by decide, by
    obtain ⟨r, hr, hl, -⟩ := srt_completes firstPushed firstPushed_tieBreak 1 (by decide)
      [mkProcess 1 0 5, mkProcess 2 1 3, mkProcess 3 2 1] (by unfold FreshInput; decide)
      (by decide)
    exact ⟨r, hr, hl⟩⟩

/-! ## Shortest remaining time: the dispatch -/

/-- C2, as stated, fails: one fresh process arrives at `INT_MAX - 7` with burst 10
(`cs = 0`).  At its dispatch nothing is left to admit, yet it runs for 7 units only: the
pass ends at time `INT_MAX` with `remaining_time = 3`. -/
theorem srt_dispatch_counterexample :
    SrtReach firstPushed 0 [mkProcess 1 2147483640 10]
        (srtBody firstPushed 0 (srtInit [mkProcess 1 2147483640 10]))
      ∧ (srtAdmit firstPushed 0 1
          (srtBody firstPushed 0 (srtInit [mkProcess 1 2147483640 10]))).index = 1
      ∧ (srtAdmit firstPushed 0 1
          (srtBody firstPushed 0 (srtInit [mkProcess 1 2147483640 10]))).pq = [0]
      ∧ (srtAdmit firstPushed 0 1
          (srtBody firstPushed 0 (srtInit [mkProcess 1 2147483640 10]))).current_time
          = 2147483640
      ∧ (procAt (srtBody firstPushed 0
          (srtBody firstPushed 0 (srtInit [mkProcess 1 2147483640 10]))).processes
            0).remaining_time = 3
      ∧ (srtBody firstPushed 0
          (srtBody firstPushed 0 (srtInit [mkProcess 1 2147483640 10]))).current_time
          = INT_MAX :=
  ⟨SrtReach.step _ SrtReach.init (by decide), by decide, by decide, by decide, by decide,
    by decide⟩

/-- C2, amended: on fresh input sorted by `arrival_time`, with `cs >= 0` and a schedule
that fits below `INT_MAX`, take any pass of the outer loop in which a process is
dispatched; `s1` is the state after the admission loop, `cur` the process taken from the
queue, `e` the smaller of its `remaining_time` and the time to the arrival of the next
process not yet admitted (its `remaining_time` if all are admitted).  Then `cur` has
arrived and has work left, its `(remaining_time, arrival_time)` is lexicographically
least among all processes that have arrived and have work left, and the pass runs `cur`
alone for `e >= 1` time units: its `remaining_time` drops by `e`, no other process
changes, no process not yet admitted arrives before the run is over, and if `cur`
completes its `finish_time` is the clock at the end of the run. -/
theorem srt_dispatch (tie : List Nat → Nat) (htie : TieBreak tie) (cs : Int) (hcs : 0 ≤ cs)
    (ps0 : List Process) (hfresh : FreshInput ps0)
    (hsorted : ps0.Pairwise (fun a b => a.arrival_time ≤ b.arrival_time))
    (hfit : srtHorizon ps0 cs ≤ INT_MAX)
    (s s1 : SrtState) (hreach : SrtReach tie cs ps0 s)
    (hs1 : s1 = srtAdmit tie cs (s.processes.length - s.index) s) (hpq : s1.pq ≠ [])
    (cur : Nat) (hcur : cur = pqTop tie s1.processes s1.pq)
    (e : Int)
    (he : e = if s1.index < ps0.length then
        min (procAt s1.processes cur).remaining_time
          ((procAt s1.processes s1.index).arrival_time - s1.current_time)
      else (procAt s1.processes cur).remaining_time) :
    srtBody tie cs s = srtDispatch tie cs s1
      ∧ cur < ps0.length
      ∧ (procAt s1.processes cur).arrival_time ≤ s1.current_time
      ∧ 0 < (procAt s1.processes cur).remaining_time
      ∧ (∀ j, j < ps0.length → (procAt s1.processes j).arrival_time ≤ s1.current_time →
          0 < (procAt s1.processes j).remaining_time →
          (procAt s1.processes cur).remaining_time < (procAt s1.processes j).remaining_time
            ∨ ((procAt s1.processes cur).remaining_time
                  = (procAt s1.processes j).remaining_time
                ∧ (procAt s1.processes cur).arrival_time
                  ≤ (procAt s1.processes j).arrival_time))
      ∧ 1 ≤ e
      ∧ (procAt (srtBody tie cs s).processes cur).remaining_time
          = (procAt s1.processes cur).remaining_time - e
      ∧ (∀ j, j ≠ cur → procAt (srtBody tie cs s).processes j = procAt s1.processes j)
      ∧ (∀ j, s1.index ≤ j → j < ps0.length →
          s1.current_time + e ≤ (procAt s1.processes j).arrival_time)
      ∧ ((procAt s1.processes cur).remaining_time - e = 0 →
          (procAt (srtBody tie cs s).processes cur).finish_time = s1.current_time + e)
      ∧ s1.current_time + e ≤ (srtBody tie cs s).current_time := by
  have hinv := srtReach_inv tie htie cs hcs ps0 hfresh hfit s hreach
  have hinv1 := srtAdmit_inv tie htie cs hcs ps0 hfresh (s.processes.length - s.index) s hinv
  obtain ⟨h1, h2, -, -, -, h6⟩ :=
    srtAdmit_spec tie htie cs hcs ps0 hfresh (s.processes.length - s.index) s hinv
  have hpost := h6 (by rw [hinv.len])
  subst hs1
  generalize hg : srtAdmit tie cs (s.processes.length - s.index) s = s1 at *
  rw [← h1, ← h2] at hpost
  clear h6 h1 h2
  have hbody : srtBody tie cs s = srtDispatch tie cs s1 := by
    have hne : s1.pq.isEmpty = false := by
      cases h : s1.pq with
      | nil => exact absurd h hpq
      | cons a l => rfl
    unfold srtBody
    simp only
    rw [hg, hne]
    simp
  have hspec := pqTop_spec tie htie s1.processes s1.pq hpq
  rw [← hcur] at hspec
  have hcm := (hinv1.pq_mem cur).1 hspec.1
  have hadm := hinv1.admitted cur hcm.1
  obtain ⟨he1, he2, he3⟩ := srt_execute_time cs hcs ps0 hfresh hfit s1 hinv1 hpost cur hspec.1
  rw [← he] at he3
  rw [he3] at he1 he2
  have hcl : cur < s1.processes.length := by
    have := hinv1.idx; have := hinv1.len; omega
  -- processes not yet admitted arrive after the clock
  have hlater : ∀ j, s1.index ≤ j → j < ps0.length →
      (procAt s1.processes s1.index).arrival_time ≤ (procAt s1.processes j).arrival_time := by
    intro j hj hjn
    rw [(hinv1.frame j).2.1, (hinv1.frame s1.index).2.1]
    by_cases hjj : s1.index = j
    · rw [hjj]
    · have hlt : s1.index < j := by omega
      have := (List.pairwise_iff_getElem.1 hsorted) s1.index j (by omega) hjn hlt
      simpa [procAt, List.getElem?_eq_getElem, hjn, show s1.index < ps0.length by omega]
        using this
  obtain ⟨c, hc, heq⟩ := srtDispatch_eq tie cs s1
  rw [← hcur, he3] at heq hc
  rw [hbody, heq]
  refine ⟨rfl, by have := hinv1.idx; omega, hadm.1, hcm.2, ?_, he1, ?_, ?_, ?_, ?_, ?_⟩
  · intro j hjn harr hrem
    have hj : j < s1.index := by
      by_contra hh
      have h1 := hlater j (by omega) hjn
      exact hpost ⟨by omega, by omega⟩
    have := hspec.2 j ((hinv1.pq_mem j).2 ⟨hj, hrem⟩)
    rw [comp_eq_false_iff] at this
    exact this
  · simp only
    rw [procAt_set_eq _ _ _ hcl]
  · intro j hj
    simp only
    rw [procAt_set_ne _ _ _ _ (fun h => hj h.symm)]
  · intro j hj hjn
    have h1 := hlater j hj hjn
    have hidx : s1.index < ps0.length := by omega
    rw [if_pos hidx] at he
    have := min_le_right (procAt s1.processes cur).remaining_time
      ((procAt s1.processes s1.index).arrival_time - s1.current_time)
    omega
  · intro hz
    simp only
    rw [procAt_set_eq _ _ _ hcl]
    simp only
    rw [if_pos hz]
  · simp only
    rcases hc with h | h <;> omega

/-- Witness of the amended C2: the first dispatch of the three-process example. -/
theorem srt_dispatch_witness :
    TieBreak firstPushed ∧ (0 : Int) ≤ 1
      ∧ FreshInput [mkProcess 1 0 5, mkProcess 2 1 3, mkProcess 3 2 1]
      ∧ [mkProcess 1 0 5, mkProcess 2 1 3, mkProcess 3 2 1].Pairwise
          (fun a b => a.arrival_time ≤ b.arrival_time)
      ∧ srtHorizon [mkProcess 1 0 5, mkProcess 2 1 3, mkProcess 3 2 1] 1 ≤ INT_MAX
      ∧ (srtAdmit firstPushed 1 3
          (srtInit [mkProcess 1 0 5, mkProcess 2 1 3, mkProcess 3 2 1])).pq ≠ []
      ∧ (procAt (srtBody firstPushed 1
          (srtInit [mkProcess 1 0 5, mkProcess 2 1 3, mkProcess 3 2 1])).processes
            0).remaining_time = 5 - 1 :=
  ⟨firstPushed_tieBreak, by decide, by unfold FreshInput; decide, by decide, by decide,
    by decide,
    (srt_dispatch firstPushed firstPushed_tieBreak 1 (by decide)
      [mkProcess 1 0 5, mkProcess 2 1 3, mkProcess 3 2 1] (by unfold FreshInput; decide)
      (by decide) (by decide)
      (srtInit [mkProcess 1 0 5, mkProcess 2 1 3, mkProcess 3 2 1])
      (srtAdmit firstPushed 1 3 (srtInit [mkProcess 1 0 5, mkProcess 2 1 3, mkProcess 3 2 1]))
      SrtReach.init rfl (by decide) 0 (by decide) 1 (by decide)).2.2.2.2.2.2.1⟩

/-! ## CPU utilization after `srt` -/

/-- C9, as stated, fails: two fresh processes arrive at time 0 with bursts 1 and 2 and
`cs = 5`.  After `srt` the metrics have active time 3 and switch time 5, so the
utilization is negative. -/
theorem srt_cpu_utilization_counterexample :
    ∃ r m, srt firstPushed [mkProcess 1 0 1, mkProcess 2 0 2] 5 = some r
      ∧ calculateMetrics r ⟨[mkProcess 1 0 1, mkProcess 2 0 2], 5, 1⟩ = Except.ok m
      ∧ m.total_active_time = 3 ∧ m.total_context_switch_time = 5
      ∧ m.cpu_utilization < 0 := by
  have key : ∀ m : Metrics, m.total_active_time = 3 → m.total_context_switch_time = 5 →
      m.cpu_utilization < 0 := by
    intro m h1 h2
    rw [Metrics.cpu_utilization, h1, h2]
    norm_num
  exact ⟨_, _, rfl, rfl, rfl, rfl, key _ rfl rfl⟩

/-- C9, amended: on non-empty fresh input with positive bursts and `cs >= 0` whose
schedule fits below `INT_MAX`, `calculateMetrics` on the result of `srt` returns with
active time `A = max(finish_time) - arrival_time of the first process`, switch time
`cs * (n - 1)`, `A >= sum of the bursts > 0`, and a utilization of at most 100; the
utilization is at least 0 exactly when `cs * (n - 1) <= A`, which holds whenever
`cs * (n - 1)` does not exceed the sum of the bursts. -/
theorem srt_cpu_utilization (tie : List Nat → Nat) (htie : TieBreak tie) (sch : Scheduler)
    (ps0 : List Process) (hne : ps0 ≠ []) (hfresh : FreshInput ps0)
    (hcs : 0 ≤ sch.context_switch) (hfit : srtHorizon ps0 sch.context_switch ≤ INT_MAX) :
    ∃ (r : List Process) (m : Metrics) (front : Process),
      srt tie ps0 sch.context_switch = some r
      ∧ calculateMetrics r sch = Except.ok m
      ∧ r[0]? = some front
      ∧ (∀ p ∈ r, p.finish_time ≤ m.last_finish_time)
      ∧ (∃ p ∈ r, p.finish_time = m.last_finish_time)
      ∧ m.total_active_time = m.last_finish_time - front.arrival_time
      ∧ m.total_context_switch_time = sch.context_switch * ((ps0.length : Int) - 1)
      ∧ sumBurst ps0 ≤ m.total_active_time
      ∧ 0 < m.total_active_time
      ∧ m.cpu_utilization ≤ 100
      ∧ (0 ≤ m.cpu_utilization ↔
          sch.context_switch * ((ps0.length : Int) - 1) ≤ m.total_active_time)
      ∧ (sch.context_switch * ((ps0.length : Int) - 1) ≤ sumBurst ps0 →
          0 ≤ m.cpu_utilization) := by
  obtain ⟨s1, h1, hinv, hidx, hpq⟩ :=
    srt_final tie htie sch.context_switch hcs ps0 hfresh hfit
  have hpl : 0 < ps0.length := List.length_pos.2 hne
  have hlen := hinv.len
  -- every process is finished
  have hzero : ∀ i, i < ps0.length → (procAt s1.processes i).remaining_time = 0 := by
    intro i hi
    have hadm := hinv.admitted i (by omega)
    have hm := (hinv.pq_mem i).not.1 (by rw [hpq]; simp)
    by_contra hh
    exact hm ⟨by omega, by omega⟩
  have hsz : sumRemaining s1.processes = 0 := by
    unfold sumRemaining
    apply List.sum_eq_zero
    intro x hx
    obtain ⟨q, hq, rfl⟩ := List.mem_map.1 hx
    exact forall_mem_of_procAt s1.processes (fun p => p.remaining_time = 0)
      (fun i hi => hzero i (by omega)) q hq
  obtain ⟨i, hi, hfin⟩ := hinv.last_finish hpl hsz
  obtain ⟨front, rest, hr⟩ : ∃ front rest, s1.processes = front :: rest := by
    cases h : s1.processes with
    | nil => rw [h] at hlen; simp at hlen; omega
    | cons f r => exact ⟨f, r, rfl⟩
  have hfront : front.arrival_time = (procAt ps0 0).arrival_time := by
    have := (hinv.frame 0).2.1
    rw [hr] at this
    simpa [procAt] using this
  obtain ⟨m, hm, -, hsw, hact, -, hmax, hatt⟩ := calculateMetrics_cons front rest sch
  rw [← hr] at hm hmax hatt
  have hmemi : procAt s1.processes i ∈ s1.processes := procAt_mem _ _ (by omega)
  have hL := hmax _ hmemi
  have hsum := sum_burst_pos ps0 hne (fun p hp => (hfresh p hp).2)
  have hsb : sumBurst ps0 = (ps0.map fun p => p.burst_time).sum := rfl
  have hstart := hinv.finished i (by omega) (hzero i hi)
  have hbpos := (hfresh.at i hi).2.2
  rw [← (hinv.frame i).2.2.1] at hbpos
  have hrl : (rest.length : Int) = (ps0.length : Int) - 1 := by
    have : (front :: rest).length = ps0.length := by rw [← hr]; exact hlen
    simp only [List.length_cons] at this
    omega
  have hsw' : m.total_context_switch_time
      = sch.context_switch * ((ps0.length : Int) - 1) := by rw [hsw, hrl]
  have hcsn : 0 ≤ sch.context_switch * ((ps0.length : Int) - 1) :=
    mul_nonneg hcs (by omega)
  have hAge : sumBurst ps0 ≤ m.total_active_time := by rw [hact, hfront]; omega
  have hA : 0 < m.total_active_time := by omega
  have hbd := cpu_utilization_bounds m hA
  refine ⟨s1.processes, m, front, h1, hm, by rw [hr]; simp, hmax, ?_, hact, hsw', hAge, hA,
    hbd.1 (by rw [hsw']; exact hcsn), by rw [← hsw']; exact hbd.2, ?_⟩
  · rcases hatt with h0 | h
    · omega
    · exact h
  · intro hle
    exact hbd.2.2 (by rw [hsw']; omega)

/-- Witness of the amended C9. -/
theorem srt_cpu_utilization_witness :
    TieBreak firstPushed
      ∧ [mkProcess 1 0 1, mkProcess 2 0 2] ≠ []
      ∧ FreshInput [mkProcess 1 0 1, mkProcess 2 0 2]
      ∧ (0 : Int) ≤ (Scheduler.mk [] 1 1).context_switch
      ∧ srtHorizon [mkProcess 1 0 1, mkProcess 2 0 2] 1 ≤ INT_MAX
      ∧ ∃ r m, srt firstPushed [mkProcess 1 0 1, mkProcess 2 0 2] 1 = some r
          ∧ calculateMetrics r ⟨[], 1, 1⟩ = Except.ok m
          ∧ m.cpu_utilization ≤ 100 :=
  ⟨firstPushed_tieBreak, by decide, by unfold FreshInput; decide, by decide, by decide, by
    obtain ⟨r, m, -, hr, hm, -, -, -, -, -, -, -, h100, -⟩ :=
      srt_cpu_utilization firstPushed firstPushed_tieBreak ⟨[], 1, 1⟩
        [mkProcess 1 0 1, mkProcess 2 0 2] (by decide) (by unfold FreshInput; decide)
        (by decide) (by decide)
    exact ⟨r, m, hr, hm, h100⟩⟩

/-! ## Round robin: processes that are never run -/

/-- C4 at a failing input: `P1` arrives at 0 with burst 2 and `P2` at 1 with burst 1,
`cs = 1`, `quantum = 2`.  `roundRobin` returns after the one slice of `P1`; `P2` is never
admitted and keeps `remaining_time = 1`, `start_time = -1` and `finish_time = 0`. -/
theorem roundRobin_never_admitted :
    roundRobin [mkProcess 1 0 2, mkProcess 2 1 1] 1 2
      = Except.ok
        [{ mkProcess 1 0 2 with remaining_time := 0, start_time := 0, finish_time := 2 },
          mkProcess 2 1 1] := by
  rfl

/-! ## First-come, first-served: the example and a second run -/

/-- A vector whose arrival times strictly increase is left as it is by every conforming
sorting routine. -/
theorem SortsBy.eq_of_strict {sort : Sorter} (h : SortsBy sort arrivalLess) (l : List Process)
    (hl : l.Pairwise (fun a b => a.arrival_time < b.arrival_time)) :
    sort arrivalLess l = l := by
  have hperm := (h l).1
  have hsorted := h.sorted l
  generalize sort arrivalLess l = r at hperm hsorted
  induction l generalizing r with
  | nil => exact List.Perm.eq_nil hperm
  | cons a t ih =>
    cases r with
    | nil => exact absurd hperm.symm (List.cons_ne_nil _ _ ∘ List.Perm.eq_nil)
    | cons b u =>
      rw [List.pairwise_cons] at hl hsorted
      have hb : b ∈ a :: t := hperm.mem_iff.1 (List.mem_cons_self _ _)
      have ha : a ∈ b :: u := hperm.mem_iff.2 (List.mem_cons_self _ _)
      have hab : b = a := by
        rcases List.mem_cons.1 hb with h1 | h1
        · exact h1
        · rcases List.mem_cons.1 ha with h2 | h2
          · exact h2.symm
          · have := hl.1 b h1
            have := hsorted.1 a h2
            omega
      subst hab
      rw [ih hl.2 u (List.Perm.cons_inv hperm) hsorted.2]

theorem fcfsLoop_isEmpty (cs : Int) (l : List Process) (t : Int) :
    (fcfsLoop cs t l).isEmpty = l.isEmpty := by
  cases l <;> rfl

theorem fcfsLoop_cons (cs t : Int) (p : Process) (rest : List Process) :
    fcfsLoop cs t (p :: rest)
      = { p with
          start_time := if t < p.arrival_time then p.arrival_time else t
          finish_time :=
            wrapInt ((if t < p.arrival_time then p.arrival_time else t) + p.burst_time) }
        :: fcfsLoop cs
            (if rest.isEmpty then
              wrapInt ((if t < p.arrival_time then p.arrival_time else t) + p.burst_time)
            else
              wrapInt
                (wrapInt ((if t < p.arrival_time then p.arrival_time else t) + p.burst_time)
                  + cs))
            rest := rfl

/-- The loop of `fcfs` overwrites the timestamps it finds. -/
theorem fcfsLoop_idem (cs : Int) (l : List Process) (t u : Int) :
    fcfsLoop cs t (fcfsLoop cs u l) = fcfsLoop cs t l := by
  induction l generalizing t u with
  | nil => rfl
  | cons p rest ih =>
    rw [fcfsLoop_cons cs u p rest, fcfsLoop_cons cs t p rest, fcfsLoop_cons cs t]
    simp only [fcfsLoop_isEmpty, ih]

/-- Where no two processes arrive at the same time a second run of `fcfs` changes
nothing. -/
theorem fcfs_idempotent_of_distinct (sort : Sorter) (hsort : SortsBy sort arrivalLess)
    (processes : List Process) (cs : Int)
    (hd : processes.Pairwise (fun a b => a.arrival_time ≠ b.arrival_time)) :
    fcfs sort (fcfs sort processes cs) cs = fcfs sort processes cs := by
  have hs := hsort.sorted processes
  have hd2 : (sort arrivalLess processes).Pairwise
      (fun a b => a.arrival_time ≠ b.arrival_time) :=
    (hsort processes).1.symm.pairwise hd (fun {a b} hab => fun h => hab h.symm)
  have hstrict : (sort arrivalLess processes).Pairwise
      (fun a b => a.arrival_time < b.arrival_time) :=
    (hs.and hd2).imp (fun {a b} hab => lt_of_le_of_ne hab.1 hab.2)
  have hstrict2 : (fcfs sort processes cs).Pairwise
      (fun a b => a.arrival_time < b.arrival_time) := by
    have h1 : ((fcfs sort processes cs).map (fun p => p.arrival_time)).Pairwise (· < ·) := by
      rw [fcfs, fcfsLoop_arrival]
      exact List.pairwise_map.2 hstrict
    exact List.pairwise_map.1 h1
  have e := hsort.eq_of_strict _ hstrict2
  conv_lhs => rw [fcfs, e, fcfs, fcfsLoop_idem]
  rfl

/-- On a non-empty collection `calculateMetrics` returns the collection with the two
assignments of lines 68-69 made in every process. -/
theorem calculateMetrics_ok (l : List Process) (sch : Scheduler) (hne : l ≠ []) :
    ∃ m, calculateMetrics l sch = Except.ok m
      ∧ m.processes = l.map (fun p =>
          { p with
            turnaround_time := p.finish_time - p.arrival_time
            waiting_time := p.finish_time - p.arrival_time - p.burst_time }) := by
  cases l with
  | nil => exact absurd rfl hne
  | cons front rest =>
    obtain ⟨m, hm, hps, -⟩ := calculateMetrics_cons front rest sch
    exact ⟨m, hm, hps⟩

/-- C11, as stated, fails: after `fcfs` and `calculateMetrics` on the example the waiting
times are 0, 5 and 8; `P3` waits 8, not 9. -/
theorem fcfs_example_counterexample :
    ∃ m, calculateMetrics
          (fcfs stableSort [mkProcess 1 0 5, mkProcess 2 1 3, mkProcess 3 2 1] 1) ⟨[], 1, 2⟩
        = Except.ok m
      ∧ m.processes.map (fun p => (p.id, p.waiting_time)) = [(1, 0), (2, 5), (3, 8)] :=
  ⟨_, rfl, by decide⟩

/-- C11, amended: for `P1(0,5)`, `P2(1,3)`, `P3(2,1)` and `cs = 1`, with any conforming
sorting routine, `fcfs` gives `(start_time, finish_time)` = `P1 (0,5)`, `P2 (6,9)`,
`P3 (10,11)`, and `calculateMetrics` then gives the waiting times `P1 = 0`, `P2 = 5`,
`P3 = 8`. -/
theorem fcfs_example (sort : Sorter) (hsort : SortsBy sort arrivalLess) (sch : Scheduler) :
    (fcfs sort [mkProcess 1 0 5, mkProcess 2 1 3, mkProcess 3 2 1] 1).map
        (fun p => (p.id, p.start_time, p.finish_time))
      = [(1, 0, 5), (2, 6, 9), (3, 10, 11)]
    ∧ ∃ m, calculateMetrics
          (fcfs sort [mkProcess 1 0 5, mkProcess 2 1 3, mkProcess 3 2 1] 1) sch = Except.ok m
        ∧ m.processes.map (fun p => (p.id, p.waiting_time)) = [(1, 0), (2, 5), (3, 8)] := by
  have e := hsort.eq_of_strict [mkProcess 1 0 5, mkProcess 2 1 3, mkProcess 3 2 1]
    (by decide)
  rw [fcfs, e]
  refine ⟨by decide, ?_⟩
  obtain ⟨m, hm, hps⟩ := calculateMetrics_ok
    (fcfsLoop 1 0 [mkProcess 1 0 5, mkProcess 2 1 3, mkProcess 3 2 1]) sch (by decide)
  refine ⟨m, hm, ?_⟩
  rw [hps]
  decide

/-- Witness of the amended C11. -/
theorem fcfs_example_witness :
    SortsBy stableSort arrivalLess
      ∧ (fcfs stableSort [mkProcess 1 0 5, mkProcess 2 1 3, mkProcess 3 2 1] 1).map
          (fun p => (p.id, p.start_time, p.finish_time))
        = [(1, 0, 5), (2, 6, 9), (3, 10, 11)] :=
  ⟨stableSort_sortsBy, (fcfs_example stableSort stableSort_sortsBy ⟨[], 1, 2⟩).1⟩

set_option maxRecDepth 100000 in
/-- C20 at a failing input: seventeen processes `P1 .. P17` arrive together, `cs = 1`.  The
first run of `fcfs` leaves them in the order `P9`, `P17`, ..., `P2`; `std::sort` in the
second run takes the middle element of that order, `P10`, as the pivot and rearranges the
vector again, so the second run does not return what the first returned: the slot
`(0, 1)` goes to `P9` in the first run and to `P10` in the second. -/
theorem fcfs_second_run_differs :
    (fcfs stdSort tiedInput 1).map (fun p => (p.id, p.start_time, p.finish_time))
        = [(9, 0, 1), (17, 2, 3), (16, 4, 5), (15, 6, 7), (14, 8, 9), (13, 10, 11),
            (12, 12, 13), (11, 14, 15), (10, 16, 17), (1, 18, 19), (8, 20, 21), (7, 22, 23),
            (6, 24, 25), (5, 26, 27), (4, 28, 29), (3, 30, 31), (2, 32, 33)]
      ∧ (fcfs stdSort (fcfs stdSort tiedInput 1) 1).map
          (fun p => (p.id, p.start_time, p.finish_time))
        = [(10, 0, 1), (2, 2, 3), (3, 4, 5), (4, 6, 7), (5, 8, 9), (6, 10, 11), (7, 12, 13),
            (8, 14, 15), (1, 16, 17), (9, 18, 19), (11, 20, 21), (12, 22, 23), (13, 24, 25),
            (14, 26, 27), (15, 28, 29), (16, 30, 31), (17, 32, 33)]
      ∧ fcfs stdSort (fcfs stdSort tiedInput 1) 1 ≠ fcfs stdSort tiedInput 1 := by
  decide

/-! ## The frame of the engines -/

theorem static_set (ps : List Process) (i : Nat) (q : Process)
    (hq : q.static = (procAt ps i).static) (j : Nat) :
    (procAt (ps.set i q) j).static = (procAt ps j).static := by
  by_cases h : i = j
  · subst h
    by_cases hi : i < ps.length
    · rw [procAt_set_eq _ _ _ hi, hq]
    · rw [List.set_eq_of_length_le (by omega)]
  · rw [procAt_set_ne _ _ _ _ h]

theorem SrtFrame.write {ps0 : List Process} {s : SrtState} (h : SrtFrame ps0 s) (i : Nat)
    (q : Process) (hq : q.static = (procAt s.processes i).static)
    (pq : List Nat) (t : Int) (k : Nat) (l : Option Nat) :
    SrtFrame ps0
      { processes := s.processes.set i q, pq := pq, current_time := t, index := k,
        last_process := l } :=
  ⟨by simp [h.1], fun j => by
    simp only
    rw [static_set _ _ _ hq, h.2 j]⟩

theorem srtAdmitOne_frame (tie : List Nat → Nat) (cs : Int) (ps0 : List Process)
    (s : SrtState) (h : SrtFrame ps0 s) : SrtFrame ps0 (srtAdmitOne tie cs s) := by
  unfold srtAdmitOne
  simp only
  split
  · exact h
  · split
    · refine h.write _ _ ?_ _ _ _ _
      rfl
    · exact h

theorem srtAdmit_frame (tie : List Nat → Nat) (cs : Int) (ps0 : List Process) (n : Nat)
    (s : SrtState) (h : SrtFrame ps0 s) : SrtFrame ps0 (srtAdmit tie cs n s) := by
  induction n generalizing s with
  | zero => exact h
  | succ n ih =>
    unfold srtAdmit
    split
    · exact ih _ (srtAdmitOne_frame tie cs ps0 s h)
    · exact h

theorem srtDispatch_frame (tie : List Nat → Nat) (cs : Int) (ps0 : List Process)
    (s : SrtState) (h : SrtFrame ps0 s) : SrtFrame ps0 (srtDispatch tie cs s) := by
  obtain ⟨c, -, heq⟩ := srtDispatch_eq tie cs s
  rw [heq]
  refine h.write _ _ ?_ _ _ _ _
  rfl

theorem srtBody_frame (tie : List Nat → Nat) (cs : Int) (ps0 : List Process)
    (s : SrtState) (h : SrtFrame ps0 s) : SrtFrame ps0 (srtBody tie cs s) := by
  have h1 := srtAdmit_frame tie cs ps0 (s.processes.length - s.index) s h
  unfold srtBody
  simp only
  split
  · split
    · exact h1
    · exact h1
  · exact srtDispatch_frame tie cs ps0 _ h1

theorem srtLoop_frame (tie : List Nat → Nat) (cs : Int) (ps0 : List Process) (fuel : Nat)
    (s s1 : SrtState) (h : SrtFrame ps0 s) (hl : srtLoop tie cs fuel s = some s1) :
    SrtFrame ps0 s1 := by
  induction fuel generalizing s with
  | zero =>
    unfold srtLoop at hl
    split at hl
    · exact absurd hl (by simp)
    · simp only [Option.some.injEq] at hl
      rw [← hl]; exact h
  | succ fuel ih =>
    unfold srtLoop at hl
    split at hl
    · exact ih _ (srtBody_frame tie cs ps0 s h) hl
    · simp only [Option.some.injEq] at hl
      rw [← hl]; exact h

theorem RRFrame.store {ps0 : List Process} {s : RRState} (h : RRFrame ps0 s) (i : Nat)
    (q : Process) (hq : q.static = (procAt s.processes i).static)
    (rq : List Nat) (hs : List Bool) (hhs : hs.length = s.hasStarted.length) (t : Int)
    (l : Option Nat) :
    RRFrame ps0
      { processes := s.processes.set i q, rq := rq, hasStarted := hs, current_time := t,
        last_process := l } :=
  ⟨by simp [h.1], by simp only; rw [hhs, h.2.1], fun j => by
    simp only
    rw [static_set _ _ _ hq, h.2.2 j]⟩

theorem rrInitial_frame (ps0 : List Process) (l : List Nat) (s s1 : RRState)
    (h : RRFrame ps0 s) (hr : rrInitial l s = Except.ok s1) : RRFrame ps0 s1 := by
  induction l generalizing s with
  | nil =>
    simp only [rrInitial, Except.ok.injEq] at hr
    rw [← hr]; exact h
  | cons i rest ih =>
    unfold rrInitial at hr
    simp only at hr
    split at hr
    · split at hr
      · exact absurd hr (by simp)
      · refine ih _ ?_ hr
        refine h.store i _ ?_ _ _ (by simp) _ _
        split <;> rfl
    · exact ih _ h hr

theorem rrArrivals_frame (ps0 : List Process) (l : List Nat) (s s1 : RRState)
    (h : RRFrame ps0 s) (hr : rrArrivals l s = Except.ok s1) : RRFrame ps0 s1 := by
  induction l generalizing s with
  | nil =>
    simp only [rrArrivals, Except.ok.injEq] at hr
    rw [← hr]; exact h
  | cons i rest ih =>
    unfold rrArrivals at hr
    simp only at hr
    split at hr
    · split at hr
      · exact absurd hr (by simp)
      · split at hr
        · exact ih _ h hr
        · refine ih _ ?_ hr
          refine h.store i _ ?_ _ _ (by simp) _ _
          rfl
    · exact ih _ h hr

/-- The body of the dispatch loop in terms of the state after the slice. -/
theorem rrBody_eq (cs quantum : Int) (s : RRState) (cur : Nat) (rq : List Nat) (k : Nat)
    (hk : flagIndex s.hasStarted (procAt s.processes cur).id = some k) :
    rrBody cs quantum s cur rq =
      if 0 < (procAt s.processes cur).remaining_time - rrSliceTime quantum s cur then
        match rrArrivals (List.range s.processes.length) (rrSlice cs quantum s cur rq k) with
        | Except.error e => Except.error e
        | Except.ok s1 =>
          Except.ok { s1 with rq := s1.rq ++ [cur], last_process := some cur }
      else Except.ok (rrFinish cs quantum s cur rq k) := by
  by_cases hst : s.hasStarted.getD k false = true
  · by_cases hrem : 0 < (procAt s.processes cur).remaining_time
        - min (procAt s.processes cur).remaining_time quantum
    · simp only [rrBody, hk, hst, rrSlice, rrSliceProcess, rrSliceTime, rrSwitchTime, hrem,
        if_true, gt_iff_lt]
    · simp only [rrBody, hk, hst, rrFinish, rrSliceProcess, rrSliceTime, rrSwitchTime, hrem,
        if_true, if_false, gt_iff_lt]
  · by_cases hrem : 0 < (procAt s.processes cur).remaining_time
        - min (procAt s.processes cur).remaining_time quantum
    · simp only [rrBody, hk, hst, rrSlice, rrSliceProcess, rrSliceTime, rrSwitchTime, hrem,
        if_true, if_false, gt_iff_lt, Bool.false_eq_true]
    · simp only [rrBody, hk, hst, rrFinish, rrSliceProcess, rrSliceTime, rrSwitchTime, hrem,
        if_true, if_false, gt_iff_lt, Bool.false_eq_true]

theorem rrBody_error (cs quantum : Int) (s : RRState) (cur : Nat) (rq : List Nat)
    (hk : flagIndex s.hasStarted (procAt s.processes cur).id = none) :
    rrBody cs quantum s cur rq = Except.error Fault.indexOutOfRange := by
  simp only [rrBody, hk]

/-- The cases in which the body of the dispatch loop returns a state. -/
theorem rrBody_ok (cs quantum : Int) (s s1 : RRState) (cur : Nat) (rq : List Nat)
    (hr : rrBody cs quantum s cur rq = Except.ok s1) :
    ∃ k, flagIndex s.hasStarted (procAt s.processes cur).id = some k
      ∧ ((0 < (procAt s.processes cur).remaining_time - rrSliceTime quantum s cur
          ∧ ∃ s2, rrArrivals (List.range s.processes.length) (rrSlice cs quantum s cur rq k)
              = Except.ok s2
            ∧ s1 = { s2 with rq := s2.rq ++ [cur], last_process := some cur })
        ∨ (¬ 0 < (procAt s.processes cur).remaining_time - rrSliceTime quantum s cur
          ∧ s1 = rrFinish cs quantum s cur rq k)) := by
  cases hk : flagIndex s.hasStarted (procAt s.processes cur).id with
  | none => rw [rrBody_error cs quantum s cur rq hk] at hr; exact absurd hr (by simp)
  | some k =>
    refine ⟨k, rfl, ?_⟩
    rw [rrBody_eq cs quantum s cur rq k hk] at hr
    by_cases hrem : 0 < (procAt s.processes cur).remaining_time - rrSliceTime quantum s cur
    · left
      rw [if_pos hrem] at hr
      cases ha : rrArrivals (List.range s.processes.length) (rrSlice cs quantum s cur rq k) with
      | error e => rw [ha] at hr; exact absurd hr (by simp)
      | ok s2 =>
        rw [ha] at hr
        simp only [Except.ok.injEq] at hr
        exact ⟨hrem, s2, rfl, hr.symm⟩
    · right
      rw [if_neg hrem] at hr
      simp only [Except.ok.injEq] at hr
      exact ⟨hrem, hr.symm⟩

theorem rrSlice_frame (cs quantum : Int) (ps0 : List Process) (s : RRState) (cur : Nat)
    (rq : List Nat) (k : Nat) (h : RRFrame ps0 s) :
    RRFrame ps0 (rrSlice cs quantum s cur rq k) := by
  unfold rrSlice
  refine h.store cur _ ?_ rq _ (by split <;> simp) _ _
  rfl

theorem rrFinish_frame (cs quantum : Int) (ps0 : List Process) (s : RRState) (cur : Nat)
    (rq : List Nat) (k : Nat) (h : RRFrame ps0 s) :
    RRFrame ps0 (rrFinish cs quantum s cur rq k) := by
  unfold rrFinish
  refine h.store cur _ ?_ rq _ (by split <;> simp) _ _
  rfl

theorem rrBody_frame (cs quantum : Int) (ps0 : List Process) (s s1 : RRState) (cur : Nat)
    (rq : List Nat) (h : RRFrame ps0 s) (hr : rrBody cs quantum s cur rq = Except.ok s1) :
    RRFrame ps0 s1 := by
  obtain ⟨k, -, h1 | h1⟩ := rrBody_ok cs quantum s s1 cur rq hr
  · obtain ⟨-, s2, hs2, rfl⟩ := h1
    have h2 := rrArrivals_frame ps0 _ _ s2 (rrSlice_frame cs quantum ps0 s cur rq k h) hs2
    exact ⟨h2.1, h2.2.1, h2.2.2⟩
  · rw [h1.2]
    exact rrFinish_frame cs quantum ps0 s cur rq k h

theorem rrLoop_frame (cs quantum : Int) (ps0 : List Process) (fuel : Nat) (s s1 : RRState)
    (h : RRFrame ps0 s) (hr : rrLoop cs quantum fuel s = Except.ok s1) : RRFrame ps0 s1 := by
  induction fuel generalizing s with
  | zero =>
    unfold rrLoop at hr
    split at hr
    · simp only [Except.ok.injEq] at hr
      rw [← hr]; exact h
    · exact absurd hr (by simp)
  | succ fuel ih =>
    unfold rrLoop at hr
    split at hr
    · simp only [Except.ok.injEq] at hr
      rw [← hr]; exact h
    · simp only at hr
      split at hr
      · exact absurd hr (by simp)
      · rename_i s2 hs2
        exact ih _ (rrBody_frame cs quantum ps0 s s2 _ _ h hs2) hr

theorem rrInit_frame (ps0 : List Process) : RRFrame ps0 (rrInit ps0) :=
  ⟨rfl, by simp [rrInit], fun _ => rfl⟩

theorem roundRobinWithin_frame (fuel : Nat) (ps0 : List Process) (cs quantum : Int)
    (r : List Process) (hr : roundRobinWithin fuel ps0 cs quantum = Except.ok r) :
    r.length = ps0.length ∧ ∀ j, (procAt r j).static = (procAt ps0 j).static := by
  unfold roundRobinWithin at hr
  split at hr
  · exact absurd hr (by simp)
  · rename_i s hs
    split at hr
    · exact absurd hr (by simp)
    · rename_i s1 hs1
      simp only [Except.ok.injEq] at hr
      have h1 := rrInitial_frame ps0 _ _ s (rrInit_frame ps0) hs
      have h2 := rrLoop_frame cs quantum ps0 fuel s s1 h1 hs1
      rw [← hr]
      exact ⟨h2.1, h2.2.2⟩

theorem static_of_getElem? (ps r : List Process) (hl : r.length = ps.length)
    (h : ∀ j, (procAt r j).static = (procAt ps j).static) (i : Nat) (p : Process)
    (hp : ps[i]? = some p) : ∃ q : Process, r[i]? = some q ∧ q.static = p.static := by
  have hi : i < ps.length := by
    by_contra hh
    rw [List.getElem?_eq_none (by omega)] at hp
    exact absurd hp (by simp)
  refine ⟨procAt r i, getElem?_eq_procAt r i (by omega), ?_⟩
  rw [h i, procAt_of_getElem? ps i p hp]

/-! ## Round robin: the tracking array -/

theorem getD_set_true (hs : List Bool) (k j : Nat) :
    (hs.set k true).getD j false
      = (decide (j = k ∧ k < hs.length) || hs.getD j false) := by
  simp only [List.getD_eq_getElem?_getD, List.getElem?_set]
  by_cases h : k = j
  · subst h
    by_cases hk : k < hs.length
    · simp [hk]
    · simp [hk, List.getElem?_eq_none (Nat.le_of_not_lt hk)]
  · have h2 : ¬ j = k := fun e => h e.symm
    simp [h, h2]

theorem flagIndex_of_range (hs : List Bool) (id : Int) (h1 : 1 ≤ id)
    (h2 : id ≤ (hs.length : Int)) :
    flagIndex hs id = some (id - 1).toNat ∧ (id - 1).toNat < hs.length := by
  unfold flagIndex
  rw [if_pos ⟨by omega, by omega⟩]
  exact ⟨rfl, by omega⟩

theorem IdsInRange.pos {ps0 : List Process} (h : IdsInRange ps0) (i : Nat)
    (hi : i < ps0.length) :
    1 ≤ (procAt ps0 i).id ∧ (procAt ps0 i).id ≤ (ps0.length : Int) :=
  h _ (procAt_mem ps0 i hi)

theorem RRFrame.id {ps0 : List Process} {s : RRState} (h : RRFrame ps0 s) (i : Nat) :
    (procAt s.processes i).id = (procAt ps0 i).id :=
  congrArg Prod.fst (h.2.2 i)

theorem RRFrame.arrival {ps0 : List Process} {s : RRState} (h : RRFrame ps0 s) (i : Nat) :
    (procAt s.processes i).arrival_time = (procAt ps0 i).arrival_time :=
  congrArg (fun x => x.2.1) (h.2.2 i)

theorem RRFrame.burst {ps0 : List Process} {s : RRState} (h : RRFrame ps0 s) (i : Nat) :
    (procAt s.processes i).burst_time = (procAt ps0 i).burst_time :=
  congrArg (fun x => x.2.2.1) (h.2.2 i)

/-- With every `id` in `1 .. n` the position `id - 1` lies inside `hasStarted`. -/
theorem RRFrame.flagIndex {ps0 : List Process} {s : RRState} (h : RRFrame ps0 s)
    (hid : IdsInRange ps0) (i : Nat) (hi : i < ps0.length) :
    flagIndex s.hasStarted (procAt s.processes i).id = some ((procAt ps0 i).id - 1).toNat
      ∧ ((procAt ps0 i).id - 1).toNat < s.hasStarted.length := by
  have := hid.pos i hi
  rw [h.id i]
  exact flagIndex_of_range _ _ this.1 (by rw [h.2.1]; exact this.2)

/-! ## Round robin: admission -/

theorem rrFlag_set (ps0 : List Process) (hs : List Bool) (k j : Nat) :
    rrFlag ps0 (hs.set k true) j
      = (decide (((procAt ps0 j).id - 1).toNat = k ∧ k < hs.length) || rrFlag ps0 hs j) := by
  unfold rrFlag
  rw [getD_set_true]

theorem rrArrivals_cons_skip (i : Nat) (rest : List Nat) (s : RRState)
    (h : ¬ (procAt s.processes i).arrival_time ≤ s.current_time) :
    rrArrivals (i :: rest) s = rrArrivals rest s := by
  rw [rrArrivals]
  simp only [h, if_false]

theorem rrArrivals_cons_flagged (i : Nat) (rest : List Nat) (s : RRState) (k : Nat)
    (h : (procAt s.processes i).arrival_time ≤ s.current_time)
    (hk : flagIndex s.hasStarted (procAt s.processes i).id = some k)
    (hf : s.hasStarted.getD k false = true) :
    rrArrivals (i :: rest) s = rrArrivals rest s := by
  rw [rrArrivals]
  simp only [h, hk, hf, if_true]

theorem rrArrivals_cons_push (i : Nat) (rest : List Nat) (s : RRState) (k : Nat)
    (h : (procAt s.processes i).arrival_time ≤ s.current_time)
    (hk : flagIndex s.hasStarted (procAt s.processes i).id = some k)
    (hf : s.hasStarted.getD k false = false) :
    rrArrivals (i :: rest) s
      = rrArrivals rest
          { s with
            processes :=
              s.processes.set i { procAt s.processes i with start_time := s.current_time }
            hasStarted := s.hasStarted.set k true
            rq := s.rq ++ [i] } := by
  rw [rrArrivals]
  simp only [h, hk, hf, if_true, Bool.false_eq_true, if_false]

/-- Admitting the process at position `i`, which is not in the queue, keeps the
invariant of the queue. -/
theorem rrAdmit_inv (ps0 : List Process) (hid : IdsInRange ps0) (s : RRState)
    (hinv : RRInv ps0 s) (i : Nat) (hi : i < ps0.length) (hni : i ∉ s.rq) (q : Process)
    (hq : q.static = (procAt s.processes i).static) :
    RRInv ps0
      { s with
        processes := s.processes.set i q
        hasStarted := s.hasStarted.set ((procAt ps0 i).id - 1).toNat true
        rq := s.rq ++ [i] } := by
  have hk := (hinv.frame.flagIndex hid i hi).2
  refine
    { frame := hinv.frame.store i q hq _ _ (by simp) _ _
      rq_lt := ?_
      rq_nodup := ?_
      rq_flag := ?_ }
  · intro j hj
    simp only [List.mem_append, List.mem_singleton] at hj
    rcases hj with hj | hj
    · exact hinv.rq_lt j hj
    · rw [hj]; exact hi
  · simp only
    rw [List.nodup_append]
    refine ⟨hinv.rq_nodup, by simp, ?_⟩
    intro a ha hb
    simp only [List.mem_singleton] at hb
    exact hni (hb ▸ ha)
  · intro j hj
    simp only [List.mem_append, List.mem_singleton] at hj
    simp only
    rw [rrFlag_set]
    rcases hj with hj | hj
    · rw [hinv.rq_flag j hj]; simp
    · rw [hj, decide_eq_true (show _ ∧ _ from ⟨rfl, hk⟩)]
      rfl

theorem HasWork.item {ps : List Process} (h : HasWork ps) (i : Nat) (hi : i < ps.length) :
    (procAt ps i).remaining_time = (procAt ps i).burst_time ∧ 0 < (procAt ps i).burst_time :=
  h _ (procAt_mem ps i hi)

/-- Admitting a process that has not been touched keeps the invariant of the work. -/
theorem rrAdmit_live (ps0 : List Process) (hwork : HasWork ps0) (hid : IdsInRange ps0)
    (s : RRState) (hinv : RRInv ps0 s) (hlive : RRLive ps0 s) (i : Nat)
    (hi : i < ps0.length) (hun : procAt s.processes i = procAt ps0 i) (q : Process)
    (hq : q.remaining_time = (procAt s.processes i).remaining_time) :
    RRLive ps0
      { s with
        processes := s.processes.set i q
        hasStarted := s.hasStarted.set ((procAt ps0 i).id - 1).toNat true
        rq := s.rq ++ [i] } := by
  have hk := (hinv.frame.flagIndex hid i hi).2
  have hil : i < s.processes.length := by rw [hinv.frame.1]; exact hi
  constructor
  · intro j hj hf
    simp only at hf ⊢
    rw [rrFlag_set] at hf
    simp only [Bool.or_eq_false_iff, decide_eq_false_iff_not] at hf
    have hne : i ≠ j := by
      intro e
      subst e
      exact hf.1 ⟨rfl, hk⟩
    rw [procAt_set_ne _ _ _ _ hne]
    exact hlive.unstarted j hj hf.2
  · intro j hj
    simp only [List.mem_append, List.mem_singleton] at hj
    simp only
    by_cases e : i = j
    · subst e
      rw [procAt_set_eq _ _ _ hil, hq, hun]
      have := hwork.item i hi
      omega
    · rw [procAt_set_ne _ _ _ _ e]
      rcases hj with hj | hj
      · exact hlive.rq_rem j hj
      · exact absurd hj.symm e
  · intro j hj
    simp only
    by_cases e : i = j
    · subst e
      rw [procAt_set_eq _ _ _ hil, hq]
      exact hlive.rem_nonneg i hj
    · rw [procAt_set_ne _ _ _ _ e]
      exact hlive.rem_nonneg j hj

/-- The loop of lines 209-215 returns; what it keeps and what it adds to the queue. -/
theorem rrArrivals_spec (ps0 : List Process) (hid : IdsInRange ps0) (l : List Nat)
    (hl : ∀ i ∈ l, i < ps0.length) (s : RRState) (hinv : RRInv ps0 s) :
    ∃ s1, rrArrivals l s = Except.ok s1 ∧ RRInv ps0 s1
      ∧ s1.current_time = s.current_time ∧ s1.last_process = s.last_process
      ∧ (∀ j, (procAt s1.processes j).remaining_time = (procAt s.processes j).remaining_time)
      ∧ (∀ j, rrFlag ps0 s.hasStarted j = true →
          rrFlag ps0 s1.hasStarted j = true ∧ procAt s1.processes j = procAt s.processes j)
      ∧ (∀ j ∈ s1.rq, j ∈ s.rq ∨ rrFlag ps0 s.hasStarted j = false)
      ∧ (HasWork ps0 → RRLive ps0 s → RRLive ps0 s1)
      ∧ (IdsDistinct ps0 → l.Nodup →
          s1.rq = s.rq ++ l.filter (fun i =>
            decide ((procAt ps0 i).arrival_time ≤ s.current_time)
              && !rrFlag ps0 s.hasStarted i)) := by
  induction l generalizing s with
  | nil =>
    exact ⟨s, rfl, hinv, rfl, rfl, fun _ => rfl, fun _ h => ⟨h, rfl⟩, fun j hj => Or.inl hj,
      fun _ h => h, fun _ _ => by simp⟩
  | cons i rest ih =>
    have hi : i < ps0.length := hl i (List.mem_cons_self _ _)
    have hrest : ∀ j ∈ rest, j < ps0.length := fun j hj => hl j (List.mem_cons_of_mem _ hj)
    have harr := hinv.frame.arrival i
    by_cases hc : (procAt s.processes i).arrival_time ≤ s.current_time
    · obtain ⟨hk, hklt⟩ := hinv.frame.flagIndex hid i hi
      by_cases hf : s.hasStarted.getD ((procAt ps0 i).id - 1).toNat false = true
      · rw [rrArrivals_cons_flagged i rest s _ hc hk hf]
        obtain ⟨s1, h1, h2, h3, h4, h5, h6, h7, h8, h9⟩ := ih hrest s hinv
        refine ⟨s1, h1, h2, h3, h4, h5, h6, h7, h8, ?_⟩
        intro hd hnd
        rw [h9 hd (List.nodup_cons.1 hnd).2, List.filter_cons]
        have : rrFlag ps0 s.hasStarted i = true := hf
        simp [this]
      · have hf' : s.hasStarted.getD ((procAt ps0 i).id - 1).toNat false = false := by
          simpa using hf
        have hfl : rrFlag ps0 s.hasStarted i = false := hf'
        have hni : i ∉ s.rq := by
          intro hm
          rw [hinv.rq_flag i hm] at hfl
          exact absurd hfl (by simp)
        rw [rrArrivals_cons_push i rest s _ hc hk hf']
        have hinv1 := rrAdmit_inv ps0 hid s hinv i hi hni
          { procAt s.processes i with start_time := s.current_time } rfl
        obtain ⟨s1, h1, h2, h3, h4, h5, h6, h7, h8, h9⟩ := ih hrest _ hinv1
        have hil : i < s.processes.length := by rw [hinv.frame.1]; exact hi
        refine ⟨s1, h1, h2, h3, h4, ?_, ?_, ?_, ?_, ?_⟩
        · intro j
          rw [h5 j]
          simp only
          by_cases e : i = j
          · subst e; rw [procAt_set_eq _ _ _ hil]
          · rw [procAt_set_ne _ _ _ _ e]
        · intro j hj
          have hne : i ≠ j := by
            intro e; subst e; rw [hfl] at hj; exact absurd hj (by simp)
          have := h6 j (by simp only; rw [rrFlag_set, hj]; simp)
          simp only at this
          rw [procAt_set_ne _ _ _ _ hne] at this
          exact this
        · intro j hj
          rcases h7 j hj with h | h
          · simp only [List.mem_append, List.mem_singleton] at h
            rcases h with h | h
            · exact Or.inl h
            · rw [h]; exact Or.inr hfl
          · simp only at h
            rw [rrFlag_set] at h
            simp only [Bool.or_eq_false_iff] at h
            exact Or.inr h.2
        · intro hwork hlive
          exact h8 hwork (rrAdmit_live ps0 hwork hid s hinv hlive i hi
            (hlive.unstarted i hi hfl) _ rfl)
        · intro hd hnd
          rw [h9 hd (List.nodup_cons.1 hnd).2, List.filter_cons]
          have hci : (decide ((procAt ps0 i).arrival_time ≤ s.current_time)
              && !rrFlag ps0 s.hasStarted i) = true := by
            rw [hfl, ← harr]; simp [hc]
          rw [if_pos hci]
          simp only [List.append_assoc, List.singleton_append]
          congr 2
          apply List.filter_congr
          intro j hj
          have hji : j ≠ i := fun e => (List.nodup_cons.1 hnd).1 (e ▸ hj)
          have hjn := hrest j hj
          rw [rrFlag_set]
          have hkk : ¬ (((procAt ps0 j).id - 1).toNat = ((procAt ps0 i).id - 1).toNat
              ∧ ((procAt ps0 i).id - 1).toNat < s.hasStarted.length) := by
            intro hh
            have h1 := hid.pos i hi
            have h2 := hid.pos j hjn
            exact hji (hd j i hjn hi (by omega))
          rw [decide_eq_false hkk]
          simp only [Bool.false_or]
    · rw [rrArrivals_cons_skip i rest s hc]
      obtain ⟨s1, h1, h2, h3, h4, h5, h6, h7, h8, h9⟩ := ih hrest s hinv
      refine ⟨s1, h1, h2, h3, h4, h5, h6, h7, h8, ?_⟩
      intro hd hnd
      rw [h9 hd (List.nodup_cons.1 hnd).2, List.filter_cons]
      rw [harr] at hc
      simp [hc]

/-! ## Round robin: the initial load and a pass of the dispatch loop -/

theorem rrInitial_cons_skip (i : Nat) (rest : List Nat) (s : RRState)
    (h : ¬ (procAt s.processes i).arrival_time ≤ s.current_time) :
    rrInitial (i :: rest) s = rrInitial rest s := by
  rw [rrInitial]
  simp only [h, if_false]

theorem rrInitial_cons_push (i : Nat) (rest : List Nat) (s : RRState) (k : Nat)
    (h : (procAt s.processes i).arrival_time ≤ s.current_time)
    (hk : flagIndex s.hasStarted (procAt s.processes i).id = some k) :
    rrInitial (i :: rest) s
      = rrInitial rest
          { s with
            processes :=
              s.processes.set i
                (if (procAt s.processes i).start_time = -1 then
                  { procAt s.processes i with start_time := s.current_time }
                else procAt s.processes i)
            rq := s.rq ++ [i]
            hasStarted := s.hasStarted.set k true } := by
  rw [rrInitial]
  simp only [h, hk, if_true]

/-- The loop of lines 178-186 returns and establishes the invariants. -/
theorem rrInitial_spec (ps0 : List Process) (hid : IdsInRange ps0) (l : List Nat)
    (hl : ∀ i ∈ l, i < ps0.length) (hnd : l.Nodup) (s : RRState) (hinv : RRInv ps0 s)
    (hrq : ∀ j ∈ s.rq, j ∉ l) :
    ∃ s1, rrInitial l s = Except.ok s1 ∧ RRInv ps0 s1
      ∧ s1.current_time = s.current_time ∧ s1.last_process = s.last_process
      ∧ (∀ j, (procAt s1.processes j).remaining_time = (procAt s.processes j).remaining_time)
      ∧ (HasWork ps0 → RRLive ps0 s → (∀ j ∈ l, procAt s.processes j = procAt ps0 j) →
          RRLive ps0 s1) := by
  induction l generalizing s with
  | nil => exact ⟨s, rfl, hinv, rfl, rfl, fun _ => rfl, fun _ h _ => h⟩
  | cons i rest ih =>
    have hi : i < ps0.length := hl i (List.mem_cons_self _ _)
    have hrest : ∀ j ∈ rest, j < ps0.length := fun j hj => hl j (List.mem_cons_of_mem _ hj)
    have hnd2 := List.nodup_cons.1 hnd
    by_cases hc : (procAt s.processes i).arrival_time ≤ s.current_time
    · obtain ⟨hk, -⟩ := hinv.frame.flagIndex hid i hi
      rw [rrInitial_cons_push i rest s _ hc hk]
      have hni : i ∉ s.rq := fun hm => hrq i hm (List.mem_cons_self _ _)
      have hinv1 := rrAdmit_inv ps0 hid s hinv i hi hni
        (if (procAt s.processes i).start_time = -1 then
          { procAt s.processes i with start_time := s.current_time }
        else procAt s.processes i) (by split <;> rfl)
      obtain ⟨s1, h1, h2, h3, h4, hr, h5⟩ := ih hrest hnd2.2 _ hinv1 (by
        intro j hj hjr
        simp only [List.mem_append, List.mem_singleton] at hj
        rcases hj with hj | hj
        · exact hrq j hj (List.mem_cons_of_mem _ hjr)
        · exact hnd2.1 (hj ▸ hjr))
      have hil : i < s.processes.length := by rw [hinv.frame.1]; exact hi
      refine ⟨s1, h1, h2, h3, h4, ?_, ?_⟩
      · intro j
        rw [hr j]
        simp only
        by_cases e : i = j
        · subst e
          rw [procAt_set_eq _ _ _ hil]
          split <;> rfl
        · rw [procAt_set_ne _ _ _ _ e]
      intro hwork hlive hun
      refine h5 hwork (rrAdmit_live ps0 hwork hid s hinv hlive i hi
        (hun i (List.mem_cons_self _ _)) _ (by split <;> rfl)) ?_
      intro j hj
      simp only
      rw [procAt_set_ne _ _ _ _ (fun (e : i = j) => hnd2.1 (e ▸ hj))]
      exact hun j (List.mem_cons_of_mem _ hj)
    · rw [rrInitial_cons_skip i rest s hc]
      obtain ⟨s1, h1, h2, h3, h4, hr, h5⟩ := ih hrest hnd2.2 s hinv
        (fun j hj hjr => hrq j hj (List.mem_cons_of_mem _ hjr))
      exact ⟨s1, h1, h2, h3, h4, hr, fun hwork hlive hun =>
        h5 hwork hlive (fun j hj => hun j (List.mem_cons_of_mem _ hj))⟩

theorem rrInit_inv (ps0 : List Process) : RRInv ps0 (rrInit ps0) :=
  { frame := rrInit_frame ps0
    rq_lt := fun i hi => by simp [rrInit] at hi
    rq_nodup := by simp [rrInit]
    rq_flag := fun i hi => by simp [rrInit] at hi }

theorem rrInit_live (ps0 : List Process) (hwork : HasWork ps0) :
    RRLive ps0 (rrInit ps0) :=
  { unstarted := fun _ _ _ => rfl
    rq_rem := fun i hi => by simp [rrInit] at hi
    rem_nonneg := fun i hi => by
      have := hwork.item i hi
      simp only [rrInit]
      omega }

/-- The loop of lines 178-186 on the initial state. -/
theorem rrStart_spec (ps0 : List Process) (hid : IdsInRange ps0) :
    ∃ s, rrInitial (List.range ps0.length) (rrInit ps0) = Except.ok s ∧ RRInv ps0 s
      ∧ s.current_time = 0 ∧ s.last_process = none
      ∧ (∀ j, (procAt s.processes j).remaining_time = (procAt ps0 j).remaining_time)
      ∧ (HasWork ps0 → RRLive ps0 s) := by
  obtain ⟨s, h1, h2, h3, h4, hr, h5⟩ := rrInitial_spec ps0 hid (List.range ps0.length)
    (fun i hi => List.mem_range.1 hi) (List.nodup_range _) (rrInit ps0) (rrInit_inv ps0)
    (fun j hj => by simp [rrInit] at hj)
  exact ⟨s, h1, h2, h3, h4, hr,
    fun hwork => h5 hwork (rrInit_live ps0 hwork) (fun _ _ => rfl)⟩

theorem sumRemaining_congr (ps qs : List Process) (hl : ps.length = qs.length)
    (h : ∀ j, (procAt ps j).remaining_time = (procAt qs j).remaining_time) :
    sumRemaining ps = sumRemaining qs := by
  unfold sumRemaining
  congr 1
  apply List.ext_getElem?
  intro j
  rw [List.getElem?_map, List.getElem?_map]
  by_cases hj : j < ps.length
  · rw [getElem?_eq_procAt ps j hj, getElem?_eq_procAt qs j (by omega)]
    simp [h j]
  · rw [List.getElem?_eq_none (by omega), List.getElem?_eq_none (by omega)]

/-- The state after the slice of a queued process: the flag of the process is set, so
lines 197-200 change nothing, and only its `remaining_time` is written. -/
theorem rrSlice_eq (cs quantum : Int) (ps0 : List Process) (s : RRState) (cur : Nat)
    (rest : List Nat) (hf : rrFlag ps0 s.hasStarted cur = true) :
    rrSlice cs quantum s cur rest ((procAt ps0 cur).id - 1).toNat
      = { processes :=
            s.processes.set cur
              { procAt s.processes cur with
                remaining_time :=
                  (procAt s.processes cur).remaining_time - rrSliceTime quantum s cur }
          rq := rest
          hasStarted := s.hasStarted
          current_time := rrSwitchTime cs s cur + rrSliceTime quantum s cur
          last_process := s.last_process } := by
  have hf' : s.hasStarted.getD ((procAt ps0 cur).id - 1).toNat false = true := hf
  simp only [rrSlice, rrSliceProcess, hf', if_true]

theorem rrFinish_eq (cs quantum : Int) (ps0 : List Process) (s : RRState) (cur : Nat)
    (rest : List Nat) (hf : rrFlag ps0 s.hasStarted cur = true) :
    rrFinish cs quantum s cur rest ((procAt ps0 cur).id - 1).toNat
      = { processes :=
            s.processes.set cur
              { procAt s.processes cur with
                remaining_time :=
                  (procAt s.processes cur).remaining_time - rrSliceTime quantum s cur
                finish_time := rrSwitchTime cs s cur + rrSliceTime quantum s cur }
          rq := rest
          hasStarted := s.hasStarted
          current_time := rrSwitchTime cs s cur + rrSliceTime quantum s cur
          last_process := some cur } := by
  have hf' : s.hasStarted.getD ((procAt ps0 cur).id - 1).toNat false = true := hf
  simp only [rrFinish, rrSliceProcess, hf', if_true]

/-- Writing the record of the dispatched process keeps the invariants. -/
theorem rrWrite_inv (ps0 : List Process) (s : RRState) (cur : Nat) (rest : List Nat)
    (hinv : RRInv ps0 s) (hrq : s.rq = cur :: rest) (q : Process)
    (hq : q.static = (procAt s.processes cur).static) (t : Int) (l : Option Nat) :
    RRInv ps0
      { processes := s.processes.set cur q, rq := rest, hasStarted := s.hasStarted,
        current_time := t, last_process := l } := by
  have hnd := hinv.rq_nodup
  rw [hrq] at hnd
  exact
    { frame := hinv.frame.store cur q hq _ _ rfl _ _
      rq_lt := fun i hi => hinv.rq_lt i (by rw [hrq]; exact List.mem_cons_of_mem _ hi)
      rq_nodup := (List.nodup_cons.1 hnd).2
      rq_flag := fun i hi => hinv.rq_flag i (by rw [hrq]; exact List.mem_cons_of_mem _ hi) }

theorem rrWrite_live (ps0 : List Process) (s : RRState) (cur : Nat) (rest : List Nat)
    (hinv : RRInv ps0 s) (hlive : RRLive ps0 s) (hrq : s.rq = cur :: rest) (q : Process)
    (hq : 0 ≤ q.remaining_time) (t : Int) (l : Option Nat) :
    RRLive ps0
      { processes := s.processes.set cur q, rq := rest, hasStarted := s.hasStarted,
        current_time := t, last_process := l } := by
  have hnd := hinv.rq_nodup
  rw [hrq] at hnd
  have hcf := hinv.rq_flag cur (by rw [hrq]; exact List.mem_cons_self _ _)
  have hcl : cur < s.processes.length := by
    rw [hinv.frame.1]; exact hinv.rq_lt cur (by rw [hrq]; exact List.mem_cons_self _ _)
  constructor
  · intro j hj hf
    simp only at hf ⊢
    have hne : cur ≠ j := by
      intro e; subst e; rw [hcf] at hf; exact absurd hf (by simp)
    rw [procAt_set_ne _ _ _ _ hne]
    exact hlive.unstarted j hj hf
  · intro j hj
    simp only at hj ⊢
    have hne : cur ≠ j := fun e => (List.nodup_cons.1 hnd).1 (e ▸ hj)
    rw [procAt_set_ne _ _ _ _ hne]
    exact hlive.rq_rem j (by rw [hrq]; exact List.mem_cons_of_mem _ hj)
  · intro j hj
    simp only
    by_cases e : cur = j
    · subst e; rw [procAt_set_eq _ _ _ hcl]; exact hq
    · rw [procAt_set_ne _ _ _ _ e]; exact hlive.rem_nonneg j hj

/-- One pass of the dispatch loop from a state that satisfies the invariant: the pass
returns a state, the invariants are kept, the head of the queue runs for
`min(remaining_time, quantum)`, and the queue is rebuilt as lines 207-218 say. -/
theorem rrBody_spec (cs quantum : Int) (ps0 : List Process) (hid : IdsInRange ps0)
    (s : RRState) (cur : Nat) (rest : List Nat) (hinv : RRInv ps0 s)
    (hrq : s.rq = cur :: rest) :
    ∃ s1, rrBody cs quantum s cur rest = Except.ok s1 ∧ RRInv ps0 s1
      ∧ rrFlag ps0 s.hasStarted cur = true
      ∧ s1.current_time = rrSwitchTime cs s cur + rrSliceTime quantum s cur
      ∧ s1.last_process = some cur
      ∧ (procAt s1.processes cur).remaining_time
          = (procAt s.processes cur).remaining_time - rrSliceTime quantum s cur
      ∧ (procAt s1.processes cur).start_time = (procAt s.processes cur).start_time
      ∧ (∀ j, j ≠ cur →
          (procAt s1.processes j).remaining_time = (procAt s.processes j).remaining_time)
      ∧ sumRemaining s1.processes = sumRemaining s.processes - rrSliceTime quantum s cur
      ∧ (HasWork ps0 → RRLive ps0 s → RRLive ps0 s1)
      ∧ (0 < (procAt s.processes cur).remaining_time - rrSliceTime quantum s cur →
          IdsDistinct ps0 →
          s1.rq = rest ++ (List.range ps0.length).filter (fun i =>
              decide ((procAt ps0 i).arrival_time ≤ s1.current_time)
                && !rrFlag ps0 s.hasStarted i) ++ [cur])
      ∧ (¬ 0 < (procAt s.processes cur).remaining_time - rrSliceTime quantum s cur →
          s1.rq = rest
            ∧ (procAt s1.processes cur).finish_time = s1.current_time) := by
  have hcm : cur ∈ s.rq := by rw [hrq]; exact List.mem_cons_self _ _
  have hcur := hinv.rq_lt cur hcm
  have hcf := hinv.rq_flag cur hcm
  have hcl : cur < s.processes.length := by rw [hinv.frame.1]; exact hcur
  have hnd := hinv.rq_nodup
  rw [hrq] at hnd
  obtain ⟨hk, -⟩ := hinv.frame.flagIndex hid cur hcur
  have hmin : rrSliceTime quantum s cur ≤ (procAt s.processes cur).remaining_time :=
    min_le_left _ _
  have hsum : sumRemaining (s.processes.set cur
      { procAt s.processes cur with
        remaining_time := (procAt s.processes cur).remaining_time - rrSliceTime quantum s cur })
      = sumRemaining s.processes - rrSliceTime quantum s cur := by
    unfold sumRemaining
    rw [map_sum_set _ _ _ _ hcl]
    simp only
    omega
  rw [rrBody_eq cs quantum s cur rest _ hk]
  by_cases hrem : 0 < (procAt s.processes cur).remaining_time - rrSliceTime quantum s cur
  · rw [if_pos hrem, rrSlice_eq cs quantum ps0 s cur rest hcf]
    have hinvm := rrWrite_inv ps0 s cur rest hinv hrq
      { procAt s.processes cur with
        remaining_time := (procAt s.processes cur).remaining_time - rrSliceTime quantum s cur }
      rfl (rrSwitchTime cs s cur + rrSliceTime quantum s cur) s.last_process
    obtain ⟨s2, h1, h2, h3, h4, h5, h6, h7, h8, h9⟩ :=
      rrArrivals_spec ps0 hid (List.range ps0.length) (fun i hi => List.mem_range.1 hi) _ hinvm
    rw [hinv.frame.1, h1]
    simp only at h3 h4 h5 h6 h7 h9
    have hc2 := h6 cur hcf
    rw [procAt_set_eq _ _ _ hcl] at hc2
    have hnotin : cur ∉ s2.rq := by
      intro hm
      rcases h7 cur hm with h | h
      · exact (List.nodup_cons.1 hnd).1 h
      · rw [hcf] at h; exact absurd h (by simp)
    refine ⟨_, rfl, ?_, hcf, h3, rfl, ?_, ?_, ?_, ?_, ?_, ?_, ?_⟩
    · exact
        { frame := h2.frame
          rq_lt := fun i hi => by
            simp only [List.mem_append, List.mem_singleton] at hi
            rcases hi with hi | hi
            · exact h2.rq_lt i hi
            · rw [hi]; exact hcur
          rq_nodup := by
            simp only
            rw [List.nodup_append]
            refine ⟨h2.rq_nodup, by simp, ?_⟩
            intro a ha hb
            simp only [List.mem_singleton] at hb
            exact hnotin (hb ▸ ha)
          rq_flag := fun i hi => by
            simp only [List.mem_append, List.mem_singleton] at hi
            rcases hi with hi | hi
            · exact h2.rq_flag i hi
            · rw [hi]; exact hc2.1 }
    · simp only; rw [hc2.2]
    · simp only; rw [hc2.2]
    · intro j hj
      simp only
      rw [h5 j, procAt_set_ne _ _ _ _ (fun e => hj e.symm)]
    · simp only
      rw [sumRemaining_congr s2.processes _ (by rw [h2.frame.1, hinvm.frame.1]) h5, hsum]
    · intro hwork hlive
      have hl2 := h8 hwork (rrWrite_live ps0 s cur rest hinv hlive hrq _ (by simp only; omega)
        _ _)
      exact
        { unstarted := hl2.unstarted
          rq_rem := fun i hi => by
            simp only [List.mem_append, List.mem_singleton] at hi
            rcases hi with hi | hi
            · exact hl2.rq_rem i hi
            · rw [hi]; simp only; rw [hc2.2]; exact hrem
          rem_nonneg := hl2.rem_nonneg }
    · intro _ hd
      simp only
      rw [h9 hd (List.nodup_range _), h3]
    · intro hn
      exact absurd hrem hn
  · rw [if_neg hrem, rrFinish_eq cs quantum ps0 s cur rest hcf]
    refine ⟨_, rfl, ?_, hcf, rfl, rfl, ?_, ?_, ?_, ?_, ?_, ?_, ?_⟩
    · refine rrWrite_inv ps0 s cur rest hinv hrq _ ?_ _ _
      rfl
    · simp only; rw [procAt_set_eq _ _ _ hcl]
    · simp only; rw [procAt_set_eq _ _ _ hcl]
    · intro j hj
      simp only
      rw [procAt_set_ne _ _ _ _ (fun e => hj e.symm)]
    · simp only
      rw [← hsum]
      exact sumRemaining_congr _ _ (by simp) (fun j => by
        by_cases e : cur = j
        · subst e; rw [procAt_set_eq _ _ _ hcl, procAt_set_eq _ _ _ hcl]
        · rw [procAt_set_ne _ _ _ _ e, procAt_set_ne _ _ _ _ e])
    · intro _ hlive
      exact rrWrite_live ps0 s cur rest hinv hlive hrq _ (by simp only; omega) _ _
    · intro hp
      exact absurd hp hrem
    · intro _
      refine ⟨rfl, ?_⟩
      simp only
      rw [procAt_set_eq _ _ _ hcl]

/-! ## Round robin: the dispatch loop -/

theorem rrReach_inv (cs quantum : Int) (ps0 : List Process) (hid : IdsInRange ps0)
    (s : RRState) (h : RRReach cs quantum ps0 s) :
    RRInv ps0 s ∧ (HasWork ps0 → RRLive ps0 s) := by
  induction h with
  | start s hs =>
    obtain ⟨s0, h1, h2, -, -, -, h5⟩ := rrStart_spec ps0 hid
    rw [hs] at h1
    simp only [Except.ok.injEq] at h1
    rw [h1]
    exact ⟨h2, h5⟩
  | step s s1 cur rq _ hrq hb ih =>
    obtain ⟨s2, h1, h2, -, -, -, -, -, -, -, h9, -⟩ :=
      rrBody_spec cs quantum ps0 hid s cur rq ih.1 hrq
    rw [hb] at h1
    simp only [Except.ok.injEq] at h1
    rw [h1]
    exact ⟨h2, fun hwork => h9 hwork (ih.2 hwork)⟩

/-- From a state that satisfies the invariant the dispatch loop never indexes
`hasStarted` outside its bounds. -/
theorem rrLoop_in_range (cs quantum : Int) (ps0 : List Process) (hid : IdsInRange ps0)
    (fuel : Nat) (s : RRState) (hinv : RRInv ps0 s) :
    rrLoop cs quantum fuel s ≠ Except.error Fault.indexOutOfRange := by
  induction fuel generalizing s with
  | zero =>
    unfold rrLoop
    cases s.rq with
    | nil => simp
    | cons cur rest => simp
  | succ fuel ih =>
    unfold rrLoop
    cases hrq : s.rq with
    | nil => simp
    | cons cur rest =>
      obtain ⟨s1, h1, h2, -⟩ := rrBody_spec cs quantum ps0 hid s cur rest hinv hrq
      simp only [h1]
      exact ih s1 h2

/-- With `quantum >= 1` a pass of the dispatch loop runs its process for at least one
time unit. -/
theorem rrSliceTime_pos (quantum : Int) (hq : 1 ≤ quantum) (ps0 : List Process)
    (s : RRState) (hlive : RRLive ps0 s) (cur : Nat) (hcur : cur ∈ s.rq) :
    1 ≤ rrSliceTime quantum s cur := by
  have := hlive.rq_rem cur hcur
  unfold rrSliceTime
  exact le_min (by omega) hq

/-- The number of times a process is dispatched, times the quantum, stays below its
`remaining_time` plus the quantum. -/
theorem rrTrace_count (cs quantum : Int) (hq : 1 ≤ quantum) (ps0 : List Process)
    (hid : IdsInRange ps0) (hwork : HasWork ps0) (fuel : Nat) (s : RRState)
    (hinv : RRInv ps0 s) (hlive : RRLive ps0 s) (i : Nat) (hi : i < ps0.length) :
    ((rrTrace cs quantum fuel s).count i : Int) * quantum
      ≤ (procAt s.processes i).remaining_time + quantum - 1 := by
  induction fuel generalizing s with
  | zero =>
    have := hlive.rem_nonneg i hi
    simp only [rrTrace, List.count_nil, Nat.cast_zero, zero_mul]
    omega
  | succ fuel ih =>
    unfold rrTrace
    cases hrq : s.rq with
    | nil =>
      have := hlive.rem_nonneg i hi
      simp only [List.count_nil, Nat.cast_zero, zero_mul]
      omega
    | cons cur rest =>
      have hcm : cur ∈ s.rq := by rw [hrq]; exact List.mem_cons_self _ _
      obtain ⟨s1, h1, h2, -, -, -, h5, -, h7, -, h9, -⟩ :=
        rrBody_spec cs quantum ps0 hid s cur rest hinv hrq
      have hl1 := h9 hwork hlive
      have hih := ih s1 h2 hl1
      simp only [h1]
      by_cases e : cur = i
      · subst e
        rw [List.count_cons_self]
        push_cast
        rw [h5] at hih
        have hrem := hlive.rq_rem cur hcm
        unfold rrSliceTime at hih
        have hc0 : (0 : Int) ≤ ((rrTrace cs quantum fuel s1).count cur : Int) :=
          Int.natCast_nonneg _
        by_cases hge : quantum ≤ (procAt s.processes cur).remaining_time
        · rw [min_eq_right hge] at hih
          have : (((rrTrace cs quantum fuel s1).count cur : Int) + 1) * quantum
              = ((rrTrace cs quantum fuel s1).count cur : Int) * quantum + quantum := by ring
          omega
        · rw [min_eq_left (by omega)] at hih
          have hz : ((rrTrace cs quantum fuel s1).count cur : Int) = 0 := by
            by_contra hne
            have h1c : (1 : Int) ≤ ((rrTrace cs quantum fuel s1).count cur : Int) := by omega
            have := mul_le_mul_of_nonneg_right h1c (show (0 : Int) ≤ quantum by omega)
            omega
          rw [hz]
          omega
      · rw [List.count_cons_of_ne (fun h => e h.symm)]
        rw [h7 i (fun h => e h.symm)] at hih
        exact hih

/-! ## Round robin: the whole run -/

theorem roundRobinWithin_eq (fuel : Nat) (ps : List Process) (cs quantum : Int) :
    roundRobinWithin fuel ps cs quantum
      = match rrInitial (List.range ps.length) (rrInit ps) with
        | Except.error e => Except.error e
        | Except.ok s =>
          match rrLoop cs quantum fuel s with
          | Except.error e => Except.error e
          | Except.ok s1 => Except.ok s1.processes := rfl

/-! ## Round robin: the number of passes -/

/-- A pass of the dispatch loop clears no flag, and what it leaves on the queue was on
the queue before or had its flag not set. -/
theorem rrBody_flags (cs quantum : Int) (ps0 : List Process) (hid : IdsInRange ps0)
    (s : RRState) (cur : Nat) (rest : List Nat) (hinv : RRInv ps0 s)
    (hrq : s.rq = cur :: rest) (s1 : RRState)
    (hb : rrBody cs quantum s cur rest = Except.ok s1) :
    (∀ j, rrFlag ps0 s.hasStarted j = true → rrFlag ps0 s1.hasStarted j = true)
      ∧ (∀ j ∈ s1.rq, j ∈ s.rq ∨ rrFlag ps0 s.hasStarted j = false) := by
  have hcm : cur ∈ s.rq := by rw [hrq]; exact List.mem_cons_self _ _
  have hcur := hinv.rq_lt cur hcm
  have hcf := hinv.rq_flag cur hcm
  obtain ⟨hk, -⟩ := hinv.frame.flagIndex hid cur hcur
  rw [rrBody_eq cs quantum s cur rest _ hk] at hb
  by_cases hrem : 0 < (procAt s.processes cur).remaining_time - rrSliceTime quantum s cur
  · rw [if_pos hrem, rrSlice_eq cs quantum ps0 s cur rest hcf] at hb
    have hinvm := rrWrite_inv ps0 s cur rest hinv hrq
      { procAt s.processes cur with
        remaining_time := (procAt s.processes cur).remaining_time - rrSliceTime quantum s cur }
      rfl (rrSwitchTime cs s cur + rrSliceTime quantum s cur) s.last_process
    obtain ⟨s2, h1, -, -, -, -, h6, h7, -⟩ :=
      rrArrivals_spec ps0 hid (List.range ps0.length) (fun i hi => List.mem_range.1 hi) _ hinvm
    rw [hinv.frame.1, h1] at hb
    simp only [Except.ok.injEq] at hb
    simp only at h6 h7
    rw [← hb]
    refine ⟨fun j hj => (h6 j hj).1, ?_⟩
    intro j hj
    simp only [List.mem_append, List.mem_singleton] at hj
    rcases hj with hj | hj
    · rcases h7 j hj with h | h
      · exact Or.inl (by rw [hrq]; exact List.mem_cons_of_mem _ h)
      · exact Or.inr h
    · rw [hj]; exact Or.inl hcm
  · rw [if_neg hrem, rrFinish_eq cs quantum ps0 s cur rest hcf] at hb
    simp only [Except.ok.injEq] at hb
    rw [← hb]
    exact ⟨fun j hj => hj, fun j hj => Or.inl (by rw [hrq]; exact List.mem_cons_of_mem _ hj)⟩

/-- The queue and the positions whose flag is not set fit together into any list that
holds them all. -/
theorem rrWaiting_le (ps0 : List Process) (hs : List Bool) (rq target : List Nat)
    (hnd : rq.Nodup) (hfl : ∀ i ∈ rq, rrFlag ps0 hs i = true)
    (h1 : ∀ i ∈ rq, i ∈ target) (h2 : ∀ i ∈ rrPending ps0 hs, i ∈ target) :
    rq.length + (rrPending ps0 hs).length ≤ target.length := by
  have hnd2 : (rq ++ rrPending ps0 hs).Nodup := by
    rw [List.nodup_append]
    refine ⟨hnd, (List.nodup_range _).filter _, ?_⟩
    intro a ha hb
    have hf := hfl a ha
    simp only [rrPending, List.mem_filter, Bool.not_eq_true'] at hb
    rw [hb.2] at hf
    exact absurd hf (by simp)
  have hsub : rq ++ rrPending ps0 hs ⊆ target := by
    intro a ha
    rcases List.mem_append.1 ha with h | h
    · exact h1 a h
    · exact h2 a h
  have := (hnd2.subperm hsub).length_le
  simpa using this

theorem workLeft_nonneg (ps : List Process) : 0 ≤ workLeft ps := by
  unfold workLeft
  apply List.sum_nonneg
  intro x hx
  obtain ⟨p, -, rfl⟩ := List.mem_map.1 hx
  exact le_max_right _ _

theorem workLeft_congr (ps qs : List Process) (hl : ps.length = qs.length)
    (h : ∀ j, (procAt ps j).remaining_time = (procAt qs j).remaining_time) :
    workLeft ps = workLeft qs := by
  unfold workLeft
  congr 1
  apply List.ext_getElem?
  intro j
  rw [List.getElem?_map, List.getElem?_map]
  by_cases hj : j < ps.length
  · rw [getElem?_eq_procAt ps j hj, getElem?_eq_procAt qs j (by omega)]
    simp [h j]
  · rw [List.getElem?_eq_none (by omega), List.getElem?_eq_none (by omega)]

theorem workLeft_toNat (ps : List Process) :
    (((ps.map fun p => p.remaining_time.toNat).sum : Nat) : Int) = workLeft ps := by
  induction ps with
  | nil => simp [workLeft]
  | cons a rest ih =>
    simp only [workLeft, List.map_cons, List.sum_cons, Nat.cast_add] at ih ⊢
    rw [ih, Int.toNat_eq_max]

/-- With `quantum >= 1` a pass of the dispatch loop lowers the work left plus the
number of processes that are on the queue or still to be put on it. -/
theorem rrBody_measure (cs quantum : Int) (hq : 1 ≤ quantum) (ps0 : List Process)
    (hid : IdsInRange ps0) (s : RRState) (cur : Nat) (rest : List Nat) (hinv : RRInv ps0 s)
    (hrq : s.rq = cur :: rest) :
    ∃ s1, rrBody cs quantum s cur rest = Except.ok s1 ∧ RRInv ps0 s1
      ∧ workLeft s1.processes
          + ((s1.rq.length + (rrPending ps0 s1.hasStarted).length : Nat) : Int) + 1
        ≤ workLeft s.processes
          + ((s.rq.length + (rrPending ps0 s.hasStarted).length : Nat) : Int) := by
  obtain ⟨s1, hb, hinv1, -, -, -, hremc, -, hoth, -, -, -, hfin⟩ :=
    rrBody_spec cs quantum ps0 hid s cur rest hinv hrq
  obtain ⟨hmono, hmem⟩ := rrBody_flags cs quantum ps0 hid s cur rest hinv hrq s1 hb
  have hcm : cur ∈ s.rq := by rw [hrq]; exact List.mem_cons_self _ _
  have hcl : cur < s.processes.length := by rw [hinv.frame.1]; exact hinv.rq_lt cur hcm
  refine ⟨s1, hb, hinv1, ?_⟩
  have e1 : workLeft s1.processes
      = workLeft (s.processes.set cur
          { procAt s.processes cur with
            remaining_time :=
              (procAt s.processes cur).remaining_time - rrSliceTime quantum s cur }) := by
    refine workLeft_congr _ _ (by rw [hinv1.frame.1, List.length_set, hinv.frame.1]) ?_
    intro j
    by_cases e : cur = j
    · subst e; rw [procAt_set_eq _ _ _ hcl, hremc]
    · rw [procAt_set_ne _ _ _ _ e, hoth j (fun h => e h.symm)]
  have e2 := map_sum_set (fun p => max p.remaining_time 0) s.processes cur
    { procAt s.processes cur with
      remaining_time := (procAt s.processes cur).remaining_time - rrSliceTime quantum s cur }
    hcl
  have hpend : ∀ i ∈ rrPending ps0 s1.hasStarted, i ∈ rrPending ps0 s.hasStarted := by
    intro i hi
    simp only [rrPending, List.mem_filter, Bool.not_eq_true'] at hi ⊢
    refine ⟨hi.1, ?_⟩
    cases hf : rrFlag ps0 s.hasStarted i with
    | false => rfl
    | true => rw [hmono i hf] at hi; exact absurd hi.2 (by simp)
  have hlen : s.rq.length = rest.length + 1 := by rw [hrq]; rfl
  rw [e1]
  unfold workLeft at e2 ⊢
  rw [e2]
  simp only
  unfold rrSliceTime at hfin ⊢
  by_cases hrem : 0 < (procAt s.processes cur).remaining_time
      - min (procAt s.processes cur).remaining_time quantum
  · have hw := rrWaiting_le ps0 s1.hasStarted s1.rq (s.rq ++ rrPending ps0 s.hasStarted)
      hinv1.rq_nodup hinv1.rq_flag
      (fun i hi => by
        rcases hmem i hi with h | h
        · exact List.mem_append_left _ h
        · refine List.mem_append_right _ ?_
          simp only [rrPending, List.mem_filter, List.mem_range, Bool.not_eq_true']
          exact ⟨hinv1.rq_lt i hi, h⟩)
      (fun i hi => List.mem_append_right _ (hpend i hi))
    rw [List.length_append] at hw
    push_cast
    omega
  · have hr := (hfin hrem).1
    have hw := rrWaiting_le ps0 s1.hasStarted s1.rq (rest ++ rrPending ps0 s.hasStarted)
      hinv1.rq_nodup hinv1.rq_flag
      (fun i hi => List.mem_append_left _ (by rw [← hr]; exact hi))
      (fun i hi => List.mem_append_right _ (hpend i hi))
    rw [List.length_append] at hw
    push_cast
    omega

/-- With `quantum >= 1` and fuel for the work left and for every process on the queue or
still to be put on it, the dispatch loop comes to an end. -/
theorem rrLoop_returns (cs quantum : Int) (hq : 1 ≤ quantum) (ps0 : List Process)
    (hid : IdsInRange ps0) (fuel : Nat) (s : RRState) (hinv : RRInv ps0 s)
    (hfuel : workLeft s.processes
        + ((s.rq.length + (rrPending ps0 s.hasStarted).length : Nat) : Int) ≤ (fuel : Int)) :
    ∃ s1, rrLoop cs quantum fuel s = Except.ok s1 ∧ RRInv ps0 s1 ∧ s1.rq = [] := by
  induction fuel generalizing s with
  | zero =>
    unfold rrLoop
    cases hrq : s.rq with
    | nil => exact ⟨s, rfl, hinv, hrq⟩
    | cons cur rest =>
      have := workLeft_nonneg s.processes
      rw [hrq] at hfuel
      simp only [List.length_cons] at hfuel
      push_cast at hfuel
      omega
  | succ fuel ih =>
    unfold rrLoop
    cases hrq : s.rq with
    | nil => exact ⟨s, rfl, hinv, hrq⟩
    | cons cur rest =>
      obtain ⟨s1, hb, hinv1, hm⟩ := rrBody_measure cs quantum hq ps0 hid s cur rest hinv hrq
      simp only [hb]
      exact ih s1 hinv1 (by push_cast at hfuel hm ⊢; omega)

/-- With every `id` in `1 .. n` and `quantum >= 1`, `roundRobin` returns, whatever state
the processes are in. -/
theorem roundRobin_returns (processes : List Process) (cs quantum : Int)
    (hid : IdsInRange processes) (hq : 1 ≤ quantum) :
    ∃ s0 s1, rrInitial (List.range processes.length) (rrInit processes) = Except.ok s0
      ∧ rrLoop cs quantum (rrFuel processes) s0 = Except.ok s1 ∧ s1.rq = []
      ∧ roundRobin processes cs quantum = Except.ok s1.processes := by
  obtain ⟨s0, h1, h2, -, -, hr, -⟩ := rrStart_spec processes hid
  have hw : workLeft s0.processes = workLeft processes :=
    workLeft_congr _ _ h2.frame.1 hr
  have hwait := rrWaiting_le processes s0.hasStarted s0.rq (List.range processes.length)
    h2.rq_nodup h2.rq_flag (fun i hi => List.mem_range.2 (h2.rq_lt i hi))
    (fun i hi => (List.mem_filter.1 hi).1)
  rw [List.length_range] at hwait
  have hfuel : workLeft s0.processes
      + ((s0.rq.length + (rrPending processes s0.hasStarted).length : Nat) : Int)
      ≤ ((rrFuel processes : Nat) : Int) := by
    rw [hw]
    unfold rrFuel
    have := workLeft_toNat processes
    push_cast at this ⊢
    omega
  obtain ⟨s1, hl, -, he⟩ := rrLoop_returns cs quantum hq processes hid (rrFuel processes) s0
    h2 hfuel
  refine ⟨s0, s1, h1, hl, he, ?_⟩
  rw [roundRobin, roundRobinWithin_eq, h1]
  simp only [hl]

/-! ## Round robin: safety, termination and the order of the queue -/

/-- C18, as stated, fails: one process with the unique positive `id` 2 makes
`roundRobin` index `hasStarted`, of size 1, at position 1. -/
theorem roundRobin_index_counterexample :
    roundRobin [mkProcess 2 0 1] 1 2 = Except.error Fault.indexOutOfRange := by
  rfl

/-- C18, amended: when every `id` is one of `1 .. n`, no access `hasStarted[id - 1]` of
`roundRobin` leaves the bounds of the array, however many passes the dispatch loop is
given. -/
theorem roundRobin_index_in_range (processes : List Process) (hid : IdsInRange processes)
    (cs quantum : Int) (fuel : Nat) :
    roundRobinWithin fuel processes cs quantum ≠ Except.error Fault.indexOutOfRange := by
  obtain ⟨s0, h1, h2, -⟩ := rrStart_spec processes hid
  have h3 := rrLoop_in_range cs quantum processes hid fuel s0 h2
  rw [roundRobinWithin_eq, h1]
  simp only
  cases h : rrLoop cs quantum fuel s0 with
  | error e =>
    simp only [ne_eq, Except.error.injEq]
    intro he
    exact h3 (by rw [h, he])
  | ok s1 => simp

/-- Witness of the amended C18. -/
theorem roundRobin_index_in_range_witness :
    IdsInRange [mkProcess 1 0 5, mkProcess 2 1 3, mkProcess 3 2 1]
      ∧ roundRobin [mkProcess 1 0 5, mkProcess 2 1 3, mkProcess 3 2 1] 1 2
          ≠ Except.error Fault.indexOutOfRange :=
  ⟨by unfold IdsInRange; decide,
    roundRobin_index_in_range [mkProcess 1 0 5, mkProcess 2 1 3, mkProcess 3 2 1]
      (by unfold IdsInRange; decide) 1 2 _⟩

/-- C19: on input with `remaining_time = burst_time > 0`, every `id` in `1 .. n` and
`quantum >= 1`, for any `cs`: `roundRobin` returns; every pass of the dispatch loop
lowers the sum of the `remaining_time` fields; and in the sequence of dispatches, however
long, the process at position `i` occurs at most `ceil(burst_time / quantum)` times,
written `(burst_time + quantum - 1) / quantum`. -/
theorem roundRobin_terminates (processes : List Process) (cs quantum : Int)
    (hid : IdsInRange processes) (hwork : HasWork processes) (hq : 1 ≤ quantum) :
    (∃ r, roundRobin processes cs quantum = Except.ok r)
      ∧ (∀ s cur rest, RRReach cs quantum processes s → s.rq = cur :: rest →
          ∃ s1, rrBody cs quantum s cur rest = Except.ok s1
            ∧ sumRemaining s1.processes < sumRemaining s.processes)
      ∧ ∃ s0, rrInitial (List.range processes.length) (rrInit processes) = Except.ok s0
          ∧ ∀ (fuel i : Nat) (p : Process), processes[i]? = some p →
            ((rrTrace cs quantum fuel s0).count i : Int)
              ≤ (p.burst_time + quantum - 1) / quantum := by
  obtain ⟨s0, h1, h2, -, -, hr, h5⟩ := rrStart_spec processes hid
  have hlive := h5 hwork
  refine ⟨?_, ?_, s0, h1, ?_⟩
  · obtain ⟨-, s1, -, -, -, hrr⟩ := roundRobin_returns processes cs quantum hid hq
    exact ⟨s1.processes, hrr⟩
  · intro s cur rest hreach hrq
    obtain ⟨hinv, hl⟩ := rrReach_inv cs quantum processes hid s hreach
    obtain ⟨s1, hb, -, -, -, -, -, -, -, h8, -⟩ :=
      rrBody_spec cs quantum processes hid s cur rest hinv hrq
    have hpos := rrSliceTime_pos quantum hq processes s (hl hwork) cur
      (by rw [hrq]; exact List.mem_cons_self _ _)
    exact ⟨s1, hb, by omega⟩
  · intro fuel i p hp
    have hi : i < processes.length := by
      by_contra hh
      rw [List.getElem?_eq_none (by omega)] at hp
      exact absurd hp (by simp)
    have hc := rrTrace_count cs quantum hq processes hid hwork fuel s0 h2 hlive i hi
    rw [hr i, (hwork.item i hi).1, procAt_of_getElem? processes i p hp] at hc
    exact Int.le_ediv_of_mul_le (by omega) (by omega)

/-- Witness of C19 on the collection that a run of `fcfs` on the three-process example
leaves: the timestamps are set, all the work is left. -/
theorem roundRobin_terminates_witness :
    (fcfs stdSort [mkProcess 1 0 5, mkProcess 2 1 3, mkProcess 3 2 1] 1).map
        (fun p => (p.id, p.remaining_time, p.start_time, p.finish_time))
        = [(1, 5, 0, 5), (2, 3, 6, 9), (3, 1, 10, 11)]
      ∧ IdsInRange (fcfs stdSort [mkProcess 1 0 5, mkProcess 2 1 3, mkProcess 3 2 1] 1)
      ∧ HasWork (fcfs stdSort [mkProcess 1 0 5, mkProcess 2 1 3, mkProcess 3 2 1] 1)
      ∧ (1 : Int) ≤ 2
      ∧ ∃ r, roundRobin (fcfs stdSort [mkProcess 1 0 5, mkProcess 2 1 3, mkProcess 3 2 1] 1)
          1 2 = Except.ok r :=
  ⟨by decide, by unfold IdsInRange; decide, by unfold HasWork; decide, by decide,
    (roundRobin_terminates (fcfs stdSort [mkProcess 1 0 5, mkProcess 2 1 3, mkProcess 3 2 1] 1)
      1 2 (by unfold IdsInRange; decide) (by unfold HasWork; decide) (by decide)).1⟩

theorem keepsStatic_of_frame (ps r : List Process) (hl : r.length = ps.length)
    (h : ∀ j, (procAt r j).static = (procAt ps j).static) : KeepsStatic ps r :=
  ⟨hl, static_of_getElem? ps r hl h⟩

theorem srtReach_frame (tie : List Nat → Nat) (cs : Int) (ps0 : List Process) (s : SrtState)
    (h : SrtReach tie cs ps0 s) : SrtFrame ps0 s := by
  induction h with
  | init => exact ⟨rfl, fun _ => rfl⟩
  | step s _ _ ih => exact srtBody_frame tie cs ps0 s ih

theorem rrReach_frame (cs quantum : Int) (ps0 : List Process) (s : RRState)
    (h : RRReach cs quantum ps0 s) : RRFrame ps0 s := by
  induction h with
  | start s hs => exact rrInitial_frame ps0 _ _ s (rrInit_frame ps0) hs
  | step s s1 cur rq _ _ hb ih => exact rrBody_frame cs quantum ps0 s s1 cur rq ih hb

/-- C15: each engine keeps `id`, `arrival_time`, `burst_time`, `waiting_time` and
`turnaround_time` of every process and the number of processes.  `fcfs` returns the
processes rearranged.  `srt` and `roundRobin` leave every process at its position: in
every state their loops pass through, and in the result after any number of passes at
which the loop has come to an end.  `srt` returns on fresh input that fits below
`INT_MAX`, `roundRobin` whenever every `id` is in `1 .. n` and `quantum >= 1`. -/
theorem engines_frame (sort : Sorter) (hsort : SortsBy sort arrivalLess)
    (tie : List Nat → Nat) (processes : List Process) (cs quantum : Int) :
    ((fcfs sort processes cs).map Process.static).Perm (processes.map Process.static)
      ∧ (fcfs sort processes cs).length = processes.length
      ∧ (∀ s, SrtReach tie cs processes s → KeepsStatic processes s.processes)
      ∧ (∀ fuel s, srtLoop tie cs fuel (srtInit processes) = some s →
          KeepsStatic processes s.processes)
      ∧ (TieBreak tie → 0 ≤ cs → FreshInput processes →
          srtHorizon processes cs ≤ INT_MAX →
          ∃ r, srt tie processes cs = some r ∧ KeepsStatic processes r)
      ∧ (∀ s, RRReach cs quantum processes s → KeepsStatic processes s.processes)
      ∧ (∀ fuel r, roundRobinWithin fuel processes cs quantum = Except.ok r →
          KeepsStatic processes r)
      ∧ (IdsInRange processes → 1 ≤ quantum →
          ∃ r, roundRobin processes cs quantum = Except.ok r ∧ KeepsStatic processes r) := by
  have hsrt : ∀ fuel s, srtLoop tie cs fuel (srtInit processes) = some s →
      KeepsStatic processes s.processes := by
    intro fuel s hs
    have h := srtLoop_frame tie cs processes fuel _ s ⟨rfl, fun _ => rfl⟩ hs
    exact keepsStatic_of_frame _ _ h.1 h.2
  have hrr : ∀ fuel r, roundRobinWithin fuel processes cs quantum = Except.ok r →
      KeepsStatic processes r := by
    intro fuel r hr
    have h := roundRobinWithin_frame fuel processes cs quantum r hr
    exact keepsStatic_of_frame _ _ h.1 h.2
  refine ⟨?_, fcfs_length sort hsort processes cs, ?_, hsrt, ?_, ?_, hrr, ?_⟩
  · have h := (fcfs_clearTimes_perm sort hsort processes cs).map Process.static
    simpa [List.map_map, Function.comp, Process.static, Process.clearTimes] using h
  · intro s hs
    have h := srtReach_frame tie cs processes s hs
    exact keepsStatic_of_frame _ _ h.1 h.2
  · intro htie hcs hfresh hfit
    obtain ⟨s1, h1, -⟩ := srt_final tie htie cs hcs processes hfresh hfit
    refine ⟨s1.processes, h1, ?_⟩
    simp only [srt, Option.map_eq_some'] at h1
    obtain ⟨s2, hs2, he⟩ := h1
    rw [← he]
    exact hsrt _ s2 hs2
  · intro s hs
    have h := rrReach_frame cs quantum processes s hs
    exact keepsStatic_of_frame _ _ h.1 h.2.2
  · intro hid hq
    obtain ⟨-, s1, -, -, -, h⟩ := roundRobin_returns processes cs quantum hid hq
    exact ⟨s1.processes, h, hrr _ _ h⟩

/-- Witness of C15 on the three-process example: the results of the three engines, and
the result of `roundRobin` on a collection that an earlier run has left with no work. -/
theorem engines_frame_witness :
    SortsBy stableSort arrivalLess
      ∧ ((fcfs stableSort [mkProcess 1 0 5, mkProcess 2 1 3, mkProcess 3 2 1] 1).map
            Process.static).Perm
          ([mkProcess 1 0 5, mkProcess 2 1 3, mkProcess 3 2 1].map Process.static)
      ∧ (TieBreak firstPushed ∧ (0 : Int) ≤ 1
          ∧ FreshInput [mkProcess 1 0 5, mkProcess 2 1 3, mkProcess 3 2 1]
          ∧ srtHorizon [mkProcess 1 0 5, mkProcess 2 1 3, mkProcess 3 2 1] 1 ≤ INT_MAX)
      ∧ (∃ r, srt firstPushed [mkProcess 1 0 5, mkProcess 2 1 3, mkProcess 3 2 1] 1 = some r
          ∧ KeepsStatic [mkProcess 1 0 5, mkProcess 2 1 3, mkProcess 3 2 1] r)
      ∧ (IdsInRange [mkProcess 1 0 5, mkProcess 2 1 3, mkProcess 3 2 1] ∧ (1 : Int) ≤ 2)
      ∧ (∃ r, roundRobin [mkProcess 1 0 5, mkProcess 2 1 3, mkProcess 3 2 1] 1 2 = Except.ok r
          ∧ KeepsStatic [mkProcess 1 0 5, mkProcess 2 1 3, mkProcess 3 2 1] r)
      ∧ (∃ r,
          roundRobin
              [{ mkProcess 1 0 5 with remaining_time := 0, start_time := 0, finish_time := 14 },
                { mkProcess 2 1 3 with remaining_time := 0, start_time := 2, finish_time := 12 },
                { mkProcess 3 2 1 with remaining_time := 0, start_time := 2, finish_time := 7 }]
              1 2 = Except.ok r
            ∧ KeepsStatic
              [{ mkProcess 1 0 5 with remaining_time := 0, start_time := 0, finish_time := 14 },
                { mkProcess 2 1 3 with remaining_time := 0, start_time := 2, finish_time := 12 },
                { mkProcess 3 2 1 with remaining_time := 0, start_time := 2, finish_time := 7 }]
              r) :=
  ⟨stableSort_sortsBy,
    (engines_frame stableSort stableSort_sortsBy firstPushed
      [mkProcess 1 0 5, mkProcess 2 1 3, mkProcess 3 2 1] 1 2).1,
    ⟨firstPushed_tieBreak, by decide, by unfold FreshInput; decide, by decide⟩,
    (engines_frame stableSort stableSort_sortsBy firstPushed
      [mkProcess 1 0 5, mkProcess 2 1 3, mkProcess 3 2 1] 1 2).2.2.2.2.1
        firstPushed_tieBreak (by decide) (by unfold FreshInput; decide) (by decide),
    ⟨by unfold IdsInRange; decide, by decide⟩,
    (engines_frame stableSort stableSort_sortsBy firstPushed
      [mkProcess 1 0 5, mkProcess 2 1 3, mkProcess 3 2 1] 1 2).2.2.2.2.2.2.2
        (by unfold IdsInRange; decide) (by decide),
    (engines_frame stableSort stableSort_sortsBy firstPushed
      [{ mkProcess 1 0 5 with remaining_time := 0, start_time := 0, finish_time := 14 },
        { mkProcess 2 1 3 with remaining_time := 0, start_time := 2, finish_time := 12 },
        { mkProcess 3 2 1 with remaining_time := 0, start_time := 2, finish_time := 7 }]
      1 2).2.2.2.2.2.2.2 (by unfold IdsInRange; decide) (by decide)⟩

/-! ## Round robin: the example -/

/-- C12, as stated, fails: on the example `roundRobin` returns `P1` with
`finish_time = 14`, not 11, and `P2` with `start_time = 2`, not 3. -/
theorem roundRobin_example_counterexample :
    roundRobin [mkProcess 1 0 5, mkProcess 2 1 3, mkProcess 3 2 1] 1 2
      = Except.ok
        [{ mkProcess 1 0 5 with remaining_time := 0, start_time := 0, finish_time := 14 },
          { mkProcess 2 1 3 with remaining_time := 0, start_time := 2, finish_time := 12 },
          { mkProcess 3 2 1 with remaining_time := 0, start_time := 2, finish_time := 7 }] := by
  rfl

/-- C12, amended: for `P1(0,5)`, `P2(1,3)`, `P3(2,1)` with `cs = 1` and `quantum = 2`
the dispatch loop makes six passes: `P1` over `[0,2]`, `P2` over `[3,5]`, `P3` over
`[6,7]`, `P1` over `[8,10]`, `P2` over `[11,12]` and `P1` over `[13,14]`; the result has
`P3.finish_time = 7`, `P2.finish_time = 12` and `P1.finish_time = 14`. -/
theorem roundRobin_example :
    ∃ s0 r,
      rrInitial (List.range 3) (rrInit [mkProcess 1 0 5, mkProcess 2 1 3, mkProcess 3 2 1])
          = Except.ok s0
        ∧ rrSlices 1 2 6 s0
            = [(0, 0, 2), (1, 3, 5), (2, 6, 7), (0, 8, 10), (1, 11, 12), (0, 13, 14)]
        ∧ rrSlices 1 2 7 s0 = rrSlices 1 2 6 s0
        ∧ roundRobin [mkProcess 1 0 5, mkProcess 2 1 3, mkProcess 3 2 1] 1 2 = Except.ok r
        ∧ r.map (fun p => (p.id, p.finish_time, p.remaining_time))
            = [(1, 14, 0), (2, 12, 0), (3, 7, 0)] :=
  ⟨_, _, rfl, by decide, by decide, rfl, by decide⟩

/-- C14 at a failing input: on the example `P2` first gets the CPU at clock 3 (second
slice, `[3,5]`) and `P3` at clock 6, but both end with `start_time = 2`, the clock at
which line 211 admitted them. -/
theorem roundRobin_start_time_example :
    ∃ s0 r,
      rrInitial (List.range 3) (rrInit [mkProcess 1 0 5, mkProcess 2 1 3, mkProcess 3 2 1])
          = Except.ok s0
        ∧ rrSlices 1 2 3 s0 = [(0, 0, 2), (1, 3, 5), (2, 6, 7)]
        ∧ roundRobin [mkProcess 1 0 5, mkProcess 2 1 3, mkProcess 3 2 1] 1 2 = Except.ok r
        ∧ r.map (fun p => (p.id, p.start_time)) = [(1, 0), (2, 2), (3, 2)] :=
  ⟨_, _, rfl, by decide, rfl, by decide⟩

/-! ## Shortest remaining time: the switch at admission -/

/-- The branch of lines 131-135 is taken exactly when `srtSwitchAtAdmission` holds;
otherwise a pass of the admission loop pushes the process and advances `index`. -/
theorem srtAdmitOne_of_not_switch (tie : List Nat → Nat) (cs : Int) (s : SrtState)
    (h : ¬ srtSwitchAtAdmission tie cs s) :
    srtAdmitOne tie cs s = { s with pq := s.pq ++ [s.index], index := s.index + 1 } := by
  unfold srtSwitchAtAdmission at h
  unfold srtAdmitOne
  simp only [List.isEmpty_eq_true, List.append_eq_nil, List.cons_ne_self, and_false, if_false]
  rw [if_neg h]

/-- On fresh input with `cs >= 0` the newcomer is never beaten at admission by a process
with more work left than its burst plus `cs`: the top of the queue is read after the
push, so it has at most the work of the newcomer. -/
theorem srtSwitch_dead (tie : List Nat → Nat) (htie : TieBreak tie) (cs : Int) (hcs : 0 ≤ cs)
    (ps0 : List Process) (hfresh : FreshInput ps0) (s : SrtState) (hw : SrtWeak ps0 s)
    (hidx : s.index < ps0.length) : ¬ srtSwitchAtAdmission tie cs s := by
  have hspec := pqTop_spec tie htie s.processes (s.pq ++ [s.index]) (by simp)
  have hle := hspec.2 s.index (by simp)
  rw [comp_eq_false_iff] at hle
  have hu := hw.untouched s.index (le_refl _)
  have hf := hfresh.at s.index hidx
  rw [← hu] at hf
  intro hc
  unfold srtSwitchAtAdmission at hc
  omega

theorem srtAdmitOne_weak (tie : List Nat → Nat) (htie : TieBreak tie) (cs : Int)
    (hcs : 0 ≤ cs) (ps0 : List Process) (hfresh : FreshInput ps0) (s : SrtState)
    (hw : SrtWeak ps0 s) (hidx : s.index < ps0.length) :
    SrtWeak ps0 (srtAdmitOne tie cs s) := by
  rw [srtAdmitOne_of_not_switch tie cs s (srtSwitch_dead tie htie cs hcs ps0 hfresh s hw hidx)]
  exact
    { len := hw.len
      untouched := fun i hi => hw.untouched i (by simp only at hi; omega)
      pq_lt := fun i hi => by
        simp only [List.mem_append, List.mem_singleton] at hi
        simp only
        rcases hi with hi | hi
        · have := hw.pq_lt i hi; omega
        · omega }

theorem srtAdmit_weak (tie : List Nat → Nat) (htie : TieBreak tie) (cs : Int) (hcs : 0 ≤ cs)
    (ps0 : List Process) (hfresh : FreshInput ps0) (n : Nat) (s : SrtState)
    (hw : SrtWeak ps0 s) : SrtWeak ps0 (srtAdmit tie cs n s) := by
  induction n generalizing s with
  | zero => exact hw
  | succ n ih =>
    unfold srtAdmit
    split
    · rename_i hc
      exact ih _ (srtAdmitOne_weak tie htie cs hcs ps0 hfresh s hw
        (by rw [← hw.len]; exact hc.1))
    · exact hw

theorem srtDispatch_weak (tie : List Nat → Nat) (htie : TieBreak tie) (cs : Int)
    (ps0 : List Process) (s : SrtState) (hw : SrtWeak ps0 s) (hpq : s.pq ≠ []) :
    SrtWeak ps0 (srtDispatch tie cs s) := by
  have hspec := pqTop_spec tie htie s.processes s.pq hpq
  have hlt := hw.pq_lt _ hspec.1
  obtain ⟨c, -, heq⟩ := srtDispatch_eq tie cs s
  rw [heq]
  exact
    { len := by simp [hw.len]
      untouched := fun i hi => by
        simp only at hi ⊢
        rw [procAt_set_ne _ _ _ _ (by omega)]
        exact hw.untouched i hi
      pq_lt := fun i hi => by
        simp only at hi ⊢
        split at hi
        · exact hw.pq_lt i (List.mem_of_mem_erase hi)
        · simp only [List.mem_append, List.mem_singleton] at hi
          rcases hi with hi | hi
          · exact hw.pq_lt i (List.mem_of_mem_erase hi)
          · rw [hi]; exact hlt }

theorem srtBody_weak (tie : List Nat → Nat) (htie : TieBreak tie) (cs : Int) (hcs : 0 ≤ cs)
    (ps0 : List Process) (hfresh : FreshInput ps0) (s : SrtState) (hw : SrtWeak ps0 s) :
    SrtWeak ps0 (srtBody tie cs s) := by
  have h1 := srtAdmit_weak tie htie cs hcs ps0 hfresh (s.processes.length - s.index) s hw
  unfold srtBody
  simp only
  generalize srtAdmit tie cs (s.processes.length - s.index) s = s1 at *
  cases hpq : s1.pq with
  | nil =>
    simp only [List.isEmpty_nil, if_true]
    split
    · exact
        { len := h1.len
          untouched := h1.untouched
          pq_lt := fun i hi => by simp at hi }
    · exact h1
  | cons a l =>
    simp only [List.isEmpty_cons, Bool.false_eq_true, if_false]
    exact srtDispatch_weak tie htie cs ps0 s1 h1 (by rw [hpq]; simp)

theorem srtReach_weak (tie : List Nat → Nat) (htie : TieBreak tie) (cs : Int) (hcs : 0 ≤ cs)
    (ps0 : List Process) (hfresh : FreshInput ps0) (s : SrtState)
    (h : SrtReach tie cs ps0 s) : SrtWeak ps0 s := by
  induction h with
  | init =>
    exact
      { len := rfl
        untouched := fun _ _ => rfl
        pq_lt := fun i hi => by simp [srtInit] at hi }
  | step s _ _ ih => exact srtBody_weak tie htie cs hcs ps0 hfresh s ih

/-- Where no two processes arrive at the same time the queue has one top only, so the
rule for ties does not matter. -/
theorem pqTop_firstPushed (tie : List Nat → Nat) (htie : TieBreak tie) (cs : Int)
    (ps0 : List Process) (hd : ArrivalsDistinct ps0) (s : SrtState) (hinv : SrtInv ps0 cs s)
    (hpq : s.pq ≠ []) :
    pqTop tie s.processes s.pq = pqTop firstPushed s.processes s.pq := by
  have h1 := pqTop_spec tie htie s.processes s.pq hpq
  have h2 := pqTop_spec firstPushed firstPushed_tieBreak s.processes s.pq hpq
  have hab := h1.2 _ h2.1
  have hba := h2.2 _ h1.1
  rw [comp_eq_false_iff] at hab hba
  have ha := ((hinv.pq_mem _).1 h1.1).1
  have hb := ((hinv.pq_mem _).1 h2.1).1
  have hidx := hinv.idx
  have hfa := (hinv.frame (pqTop tie s.processes s.pq)).2.1
  have hfb := (hinv.frame (pqTop firstPushed s.processes s.pq)).2.1
  exact hd _ _ (by omega) (by omega) (by omega)

theorem srtDispatch_congr (tie tie2 : List Nat → Nat) (cs : Int) (s : SrtState)
    (h : pqTop tie s.processes s.pq = pqTop tie2 s.processes s.pq) :
    srtDispatch tie cs s = srtDispatch tie2 cs s := by
  simp only [srtDispatch, h]

theorem srtAdmit_firstPushed (tie : List Nat → Nat) (htie : TieBreak tie) (cs : Int)
    (hcs : 0 ≤ cs) (ps0 : List Process) (hfresh : FreshInput ps0) (n : Nat) (s : SrtState)
    (hinv : SrtInv ps0 cs s) : srtAdmit tie cs n s = srtAdmit firstPushed cs n s := by
  induction n generalizing s with
  | zero => rfl
  | succ n ih =>
    unfold srtAdmit
    split
    · rename_i hc
      have hidx : s.index < ps0.length := by rw [← hinv.len]; exact hc.1
      rw [ih _ (srtAdmitOne_inv tie htie cs hcs ps0 hfresh s hinv hidx hc.2),
        srtAdmitOne_eq tie htie cs hcs ps0 hfresh s hinv hidx,
        srtAdmitOne_eq firstPushed firstPushed_tieBreak cs hcs ps0 hfresh s hinv hidx]
    · rfl

theorem srtBody_firstPushed (tie : List Nat → Nat) (htie : TieBreak tie) (cs : Int)
    (hcs : 0 ≤ cs) (ps0 : List Process) (hfresh : FreshInput ps0)
    (hd : ArrivalsDistinct ps0) (s : SrtState) (hinv : SrtInv ps0 cs s) :
    srtBody tie cs s = srtBody firstPushed cs s := by
  have hinv1 := srtAdmit_inv firstPushed firstPushed_tieBreak cs hcs ps0 hfresh
    (s.processes.length - s.index) s hinv
  unfold srtBody
  simp only
  rw [srtAdmit_firstPushed tie htie cs hcs ps0 hfresh _ s hinv]
  generalize srtAdmit firstPushed cs (s.processes.length - s.index) s = s1 at *
  cases hpq : s1.pq with
  | nil => rfl
  | cons a l =>
    simp only [List.isEmpty_cons, Bool.false_eq_true, if_false]
    exact srtDispatch_congr tie firstPushed cs s1
      (pqTop_firstPushed tie htie cs ps0 hd s1 hinv1 (by rw [hpq]; simp))

theorem srtLoop_firstPushed (tie : List Nat → Nat) (htie : TieBreak tie) (cs : Int)
    (hcs : 0 ≤ cs) (ps0 : List Process) (hfresh : FreshInput ps0)
    (hfit : srtHorizon ps0 cs ≤ INT_MAX) (hd : ArrivalsDistinct ps0) (fuel : Nat)
    (s : SrtState) (hinv : SrtInv ps0 cs s) :
    srtLoop tie cs fuel s = srtLoop firstPushed cs fuel s := by
  induction fuel generalizing s with
  | zero => rfl
  | succ fuel ih =>
    unfold srtLoop
    by_cases hrun : srtRunning s = true
    · rw [if_pos hrun, if_pos hrun, ← srtBody_firstPushed tie htie cs hcs ps0 hfresh hd s hinv]
      exact ih _ (srtBody_inv tie htie cs hcs ps0 hfresh hfit s hinv hrun).1
    · rw [if_neg hrun, if_neg hrun]

/-- On fresh input without equal arrival times, with `cs >= 0` and a schedule below
`INT_MAX`, the result of `srt` is the same for every rule for ties. -/
theorem srt_firstPushed (tie : List Nat → Nat) (htie : TieBreak tie) (cs : Int) (hcs : 0 ≤ cs)
    (ps0 : List Process) (hfresh : FreshInput ps0) (hfit : srtHorizon ps0 cs ≤ INT_MAX)
    (hd : ArrivalsDistinct ps0) : srt tie ps0 cs = srt firstPushed ps0 cs := by
  unfold srt
  rw [srtLoop_firstPushed tie htie cs hcs ps0 hfresh hfit hd _ _ (srtInit_inv cs hcs ps0 hfresh)]

/-! ## Shortest remaining time: the example -/

theorem example_arrivalsDistinct :
    ArrivalsDistinct [mkProcess 1 0 5, mkProcess 2 1 3, mkProcess 3 2 1] := by
  intro i j hi hj h
  simp only [List.length_cons, List.length_nil] at hi hj
  interval_cases i <;> interval_cases j <;> first | rfl | exact absurd h (by decide)

/-- C13, as stated, fails: on the example `P2` takes the CPU when it arrives, so
`P2.start_time = 1`, and after the second pass, at time 2, `P1` has 4 units left,
not 3. -/
theorem srt_example_counterexample :
    srt firstPushed [mkProcess 1 0 5, mkProcess 2 1 3, mkProcess 3 2 1] 1
        = some
          [{ mkProcess 1 0 5 with remaining_time := 0, start_time := 0, finish_time := 11 },
            { mkProcess 2 1 3 with remaining_time := 0, start_time := 1, finish_time := 6 },
            { mkProcess 3 2 1 with remaining_time := 0, start_time := 2, finish_time := 3 }]
      ∧ srtBody firstPushed 1
          (srtBody firstPushed 1 (srtInit [mkProcess 1 0 5, mkProcess 2 1 3, mkProcess 3 2 1]))
        = { processes :=
              [{ mkProcess 1 0 5 with remaining_time := 4, start_time := 0 },
                { mkProcess 2 1 3 with remaining_time := 2, start_time := 1 },
                mkProcess 3 2 1]
            pq := [0, 1]
            current_time := 2
            index := 2
            last_process := some 1 } :=
  ⟨by decide, by decide⟩

/-- C13, amended: for `P1(0,5)`, `P2(1,3)`, `P3(2,1)` with `cs = 1`, whatever the rule
for ties: `P1` starts at 0 and runs over `[0,1]`; `P2`, with 3 units against the 4 of
`P1`, takes the CPU at its arrival and runs over `[1,2]` (`P2.start_time = 1`, `P1` has
4 units left at time 2); `P3` takes the CPU at its arrival (`start_time = 2`); and the
processes complete in the order `P3` (at 3), `P2` (at 6), `P1` (at 11). -/
theorem srt_example (tie : List Nat → Nat) (htie : TieBreak tie) :
    srtBody tie 1 (srtInit [mkProcess 1 0 5, mkProcess 2 1 3, mkProcess 3 2 1])
        = { processes :=
              [{ mkProcess 1 0 5 with remaining_time := 4, start_time := 0 },
                mkProcess 2 1 3, mkProcess 3 2 1]
            pq := [0]
            current_time := 1
            index := 1
            last_process := some 0 }
      ∧ srtBody tie 1
          (srtBody tie 1 (srtInit [mkProcess 1 0 5, mkProcess 2 1 3, mkProcess 3 2 1]))
        = { processes :=
              [{ mkProcess 1 0 5 with remaining_time := 4, start_time := 0 },
                { mkProcess 2 1 3 with remaining_time := 2, start_time := 1 },
                mkProcess 3 2 1]
            pq := [0, 1]
            current_time := 2
            index := 2
            last_process := some 1 }
      ∧ srt tie [mkProcess 1 0 5, mkProcess 2 1 3, mkProcess 3 2 1] 1
        = some
          [{ mkProcess 1 0 5 with remaining_time := 0, start_time := 0, finish_time := 11 },
            { mkProcess 2 1 3 with remaining_time := 0, start_time := 1, finish_time := 6 },
            { mkProcess 3 2 1 with remaining_time := 0, start_time := 2, finish_time := 3 }] := by
  have hfresh : FreshInput [mkProcess 1 0 5, mkProcess 2 1 3, mkProcess 3 2 1] := by
    unfold FreshInput; decide
  have hfit : srtHorizon [mkProcess 1 0 5, mkProcess 2 1 3, mkProcess 3 2 1] 1 ≤ INT_MAX := by
    decide
  have h0 := srtInit_inv 1 (by decide) _ hfresh
  have e1 := srtBody_firstPushed tie htie 1 (by decide) _ hfresh example_arrivalsDistinct _ h0
  have h1 := (srtBody_inv tie htie 1 (by decide) _ hfresh hfit _ h0 (by decide)).1
  have e2 := srtBody_firstPushed tie htie 1 (by decide) _ hfresh example_arrivalsDistinct _ h1
  refine ⟨?_, ?_, ?_⟩
  · rw [e1]; decide
  · rw [e2, e1]; decide
  · rw [srt_firstPushed tie htie 1 (by decide) _ hfresh hfit example_arrivalsDistinct]
    decide

/-- Witness of the amended C13. -/
theorem srt_example_witness :
    TieBreak firstPushed
      ∧ srt firstPushed [mkProcess 1 0 5, mkProcess 2 1 3, mkProcess 3 2 1] 1
        = some
          [{ mkProcess 1 0 5 with remaining_time := 0, start_time := 0, finish_time := 11 },
            { mkProcess 2 1 3 with remaining_time := 0, start_time := 1, finish_time := 6 },
            { mkProcess 3 2 1 with remaining_time := 0, start_time := 2, finish_time := 3 }] :=
  ⟨firstPushed_tieBreak, (srt_example firstPushed firstPushed_tieBreak).2.2⟩

end OsProject
